import Mathlib

/-!
# parallel_vector: a structure-of-arrays container

Shallow embedding of `parallel_vector.h` and `array_view.h`, and the properties of the
container proved on it.

* `size_type` is `uint32_t` (`default_parallel_vector_traits`): every `size_type`
  computation is a natural number reduced modulo `2^32`.
* `size_t` is 64 bits wide: `numeric_limits<size_t>::max()` and the bitwise complement in
  `adjust_capacity` use that width.  Sums of `sizeof` and slice byte offsets are kept exact.
* A memory block is a map from byte addresses (relative to the block start) to cells; a cell
  is `none` where no object lives (uninitialised or destroyed storage) and `some v` where a
  live object with value `v` starts.  A block records the byte count it was requested with
  and whether an object outside these bytes has been accessed (`overrun`), which is
  undefined behaviour in the program.
* A typed pointer is an array base address, the size of the pointee and an element index.
* A move leaves its source in a valid state chosen by the element type, and so does a
  move-assignment of an object to itself: `ElementOps` carries both.
* Every container owns its block, so two containers never share storage.
* `allocate` throws `std::bad_alloc` when `::operator new` fails; the operations that can
  allocate return `Except Exn`.
-/

namespace utl

/-! ## Machine integers -/

/-- Number of values of `size_type` (`uint32_t`). -/
def size_type_mod : Nat := 4294967296

/-- Number of values of `size_t`. -/
def size_t_mod : Nat := 18446744073709551616

/-- Addition in `size_type`. -/
def size_type_add (a b : Nat) : Nat := (a + b) % size_type_mod

/-- Subtraction in `size_type`. -/
def size_type_sub (a b : Nat) : Nat := (a + size_type_mod - b % size_type_mod) % size_type_mod

/-- Multiplication in `size_type`. -/
def size_type_mul (a b : Nat) : Nat := (a * b) % size_type_mod

/-! ## Exceptions -/

/-- The exceptions the code can raise. -/
inductive Exn where
  | bad_alloc
  | out_of_range
deriving DecidableEq

/-! ## Type lists and metafunctions -/

/-- A field type, as far as the container looks at it: `sizeof(T)` and `alignof(T)`, two
positive values of `size_t`. -/
structure FieldType where
  sizeof : Nat
  alignof : Nat
  sizeof_pos : 0 < sizeof
  alignof_pos : 0 < alignof
  sizeof_lt : sizeof < size_t_mod
  alignof_lt : alignof < size_t_mod

/-- The class template `type_list<Types...>`. -/
abbrev type_list := List FieldType

/-- The member `type_list::size`. -/
def type_list.size (L : type_list) : Nat := L.length

/-- The template `apply_to_all_impl<N, State, Metafunc, Types...>`: applies the metafunction
to the first `N` types. There is no specialisation for `N > 0` with no types left. -/
def apply_to_all_impl {S : Type} (Metafunc : S → FieldType → S) : Nat → S → List FieldType → Option S
  | 0, State, _ => some State
  | N + 1, State, First :: Rest => apply_to_all_impl Metafunc N (Metafunc State First) Rest
  | _ + 1, _, [] => none

/-- A metafunction: its `initial` state and its `type<State, T>` step. -/
structure Metafunction (S : Type) where
  initial : S
  type : S → FieldType → S

/-- The alias `apply_to_all_t<Metafunc, TypeList, N>`. -/
def apply_to_all_t {S : Type} (Metafunc : Metafunction S) (TypeList : type_list) (N : Nat) : Option S :=
  apply_to_all_impl Metafunc.type N Metafunc.initial TypeList

/-- Metafunction `sum_size`. -/
def sum_size : Metafunction Nat where
  initial := 0
  type := fun State T => State + T.sizeof

/-- Metafunction `min_align`. -/
def min_align : Metafunction Nat where
  initial := size_t_mod - 1
  type := fun State T => if State < T.alignof then State else T.alignof

/-- Metafunction `max_align`. -/
def max_align : Metafunction Nat where
  initial := 0
  type := fun State T => if State > T.alignof then State else T.alignof

/-- The sum of the sizes of the first `N` types of a list. -/
def size_before (TypeList : type_list) (N : Nat) : Nat :=
  ((TypeList.take N).map (fun T => T.sizeof)).sum

/-- The constant `kSizeCoeff` of `slice_start<Index>`:
`apply_to_all_t<sum_size, TypeList, Index>::value`. -/
def kSizeCoeff (TypeList : type_list) (Index : Nat) : Nat :=
  (apply_to_all_t sum_size TypeList Index).getD 0

/-- The constant `kSizePerElement` of `reserve`: the sum of all sizes, stored in `size_type`. -/
def kSizePerElement (TypeList : type_list) : Nat :=
  (apply_to_all_t sum_size TypeList TypeList.size).getD 0 % size_type_mod

/-- The constant `kMinAlign` of `adjust_capacity`. -/
def kMinAlign (TypeList : type_list) : Nat :=
  (apply_to_all_t min_align TypeList TypeList.size).getD 0

/-- The constant `kMaxAlign` of `adjust_capacity`. -/
def kMaxAlign (TypeList : type_list) : Nat :=
  (apply_to_all_t max_align TypeList TypeList.size).getD 0

/-- The constant `kMinIncrement` of `adjust_capacity`. -/
def kMinIncrement (TypeList : type_list) : Nat :=
  if kMaxAlign TypeList > 0 then kMaxAlign TypeList / kMinAlign TypeList else 1

/-- The two `static_assert`s of `adjust_capacity`; a container type whose field list fails
them does not compile. -/
def adjust_capacity_static_asserts (TypeList : type_list) : Prop :=
  kMaxAlign TypeList % kMinAlign TypeList = 0 ∧
    kMinIncrement TypeList &&& (kMinIncrement TypeList - 1) = 0

instance (TypeList : type_list) : Decidable (adjust_capacity_static_asserts TypeList) := by
  unfold adjust_capacity_static_asserts; infer_instance

/-- The member `adjust_capacity`:
`(required + kMinIncrement - 1) & ~(kMinIncrement - 1)`, computed in `size_t` and returned
as `size_type`. -/
def adjust_capacity (TypeList : type_list) (required : Nat) : Nat :=
  (((required + kMinIncrement TypeList - 1) % size_t_mod) &&&
      (size_t_mod - 1 - (kMinIncrement TypeList - 1) % size_t_mod)) % size_type_mod

/-! ## Loops -/

/-- A counted loop `for (i = 0; i < n; ++i) body(i)` over a state. -/
def for_loop {σ : Type} (n : Nat) (body : Nat → σ → σ) (s : σ) : σ :=
  (List.range n).foldl (fun s i => body i s) s

/-- The template `seq_call<N, I>::execute(f)`: calls `f(I)`, then `seq_call<N, I + 1>`;
the first argument is `N - I`. -/
def seq_call {σ : Type} (f : Nat → σ → σ) : Nat → Nat → σ → σ
  | 0, _, s => s
  | k + 1, I, s => seq_call f k (I + 1) (f I s)

/-- The member `for_each_slice`. -/
def for_each_slice {σ : Type} (TypeList : type_list) (f : Nat → σ → σ) (s : σ) : σ :=
  seq_call f TypeList.size 0 s

/-- The template `type_list_element<Index, TypeList>`; the empty list is the
"Index out of range" `static_assert`. -/
def type_list_element : Nat → type_list → Option FieldType
  | _, [] => none
  | 0, First :: _ => some First
  | Index + 1, _ :: Rest => type_list_element Index Rest

/-- The value `sizeof(type_list_element_t<Index, TypeList>)`. -/
def sizeof_element (TypeList : type_list) (Index : Nat) : Nat :=
  match type_list_element Index TypeList with
  | some T => T.sizeof
  | none => 0

/-! ## Memory, pointers and element operations -/

/-- The cells of a memory block, by byte address relative to the block start. -/
abbrev Memory (α : Type) := Int → Option α

/-- A memory block handed out by the allocator: `bytes` is the size requested, and
`overrun` records that some object outside `[0, bytes)` was accessed, which is undefined
behaviour. -/
structure Block (α : Type) where
  bytes : Nat
  cells : Memory α
  overrun : Bool

/-- The null pointer: no storage. -/
def nullptr {α : Type} : Block α := ⟨0, fun _ => none, false⟩

/-- A typed pointer `T *` into an array: the byte address of the array, `sizeof(T)` and the
element index. -/
structure Pointer where
  base : Int
  stride : Nat
  index : Int

/-- The byte address a pointer designates. -/
def Pointer.addr (p : Pointer) : Int := p.base + p.index * p.stride

/-- Pointer arithmetic `p + n`. -/
def Pointer.add (p : Pointer) (n : Int) : Pointer := { p with index := p.index + n }

/-- Pointer arithmetic `p - n`. -/
def Pointer.sub (p : Pointer) (n : Int) : Pointer := { p with index := p.index - n }

/-- A pointer loop `for (p = first; p < last; ++p) body(p)` over one array. -/
def ptr_loop {σ : Type} (first last : Pointer) (body : Pointer → σ → σ) (s : σ) : σ :=
  for_loop (last.index - first.index).toNat (fun i => body (first.add i)) s

/-- The object `*p` lies within a block of `bytes` bytes. -/
def Pointer.within (p : Pointer) (bytes : Nat) : Prop :=
  0 ≤ p.addr ∧ p.addr + (p.stride : Int) ≤ (bytes : Int)

instance (p : Pointer) (bytes : Nat) : Decidable (p.within bytes) := by
  unfold Pointer.within; infer_instance

/-- An access to the object `*p`: outside the block it is recorded as an overrun. -/
def Block.access {α : Type} (b : Block α) (p : Pointer) : Block α :=
  { b with overrun := b.overrun || !decide (p.within b.bytes) }

/-- What the element type does on a move: the state a moved-from object is left in, and the
state an object is left in by a move-assignment to itself. -/
structure ElementOps (α : Type) where
  moved_from : α → α
  self_move_assigned : α → α

/-- Element types for which a move is a copy (scalars). -/
def trivial_ops (α : Type) : ElementOps α := ⟨id, id⟩

/-- The function `construct(mem, args...)`: placement-new of a value. -/
def construct {α : Type} (b : Block α) (mem : Pointer) (v : Option α) : Block α :=
  { b.access mem with cells := Function.update b.cells mem.addr v }

/-- The function `destroy(mem)`. -/
def destroy {α : Type} (b : Block α) (mem : Pointer) : Block α :=
  { b.access mem with cells := Function.update b.cells mem.addr none }

/-- Assignment `*p = v` of a value to an object. -/
def assign {α : Type} (b : Block α) (p : Pointer) (v : Option α) : Block α :=
  { b.access p with cells := Function.update b.cells p.addr v }

/-- An argument `*p` passed as an lvalue: the value is copied, the source is untouched. -/
def pass_lvalue {α : Type} (b : Block α) (p : Pointer) : Option α × Block α :=
  (b.cells p.addr, b.access p)

/-- An argument `std::move(*p)` consumed by a constructor or an assignment of another
object: the value is taken, the source is left moved-from. -/
def pass_rvalue {α : Type} (ops : ElementOps α) (b : Block α) (p : Pointer) :
    Option α × Block α :=
  (b.cells p.addr,
    { b.access p with
      cells := Function.update b.cells p.addr ((b.cells p.addr).map ops.moved_from) })

/-- The call `construct(dst, std::move(*src))` inside one block. -/
def move_construct {α : Type} (ops : ElementOps α) (b : Block α) (dst src : Pointer) :
    Block α :=
  construct (pass_rvalue ops b src).2 dst (pass_rvalue ops b src).1

/-- The statement `*dst = std::move(*src)` inside one block. -/
def move_assign {α : Type} (ops : ElementOps α) (b : Block α) (dst src : Pointer) :
    Block α :=
  if dst.addr = src.addr then
    { b.access dst with
      cells := Function.update b.cells dst.addr ((b.cells dst.addr).map ops.self_move_assigned) }
  else assign (pass_rvalue ops b src).2 dst (pass_rvalue ops b src).1

/-! ## array_view -/

/-- The class `array_view<T>`: a pointer pair. -/
structure array_view where
  mBegin : Pointer
  mEnd : Pointer

/-- The overload `make_array_view(T *start, size_t size)`. -/
def make_array_view (start : Pointer) (size : Nat) : array_view :=
  ⟨start, start.add size⟩

/-- The member `array_view::begin`. -/
def array_view.begin (v : array_view) : Pointer := v.mBegin

/-- The member `array_view::size`: `static_cast<size_type>(mEnd - mBegin)`. -/
def array_view.size (v : array_view) : Nat :=
  ((v.mEnd.index - v.mBegin.index) % (size_t_mod : Int)).toNat

/-- The member `array_view::operator[]`. -/
def array_view.get {α : Type} (m : Memory α) (v : array_view) (pos : Nat) : Option α :=
  m (v.mBegin.add pos).addr

/-- The value of a pointer as the machine holds it: an address of a flat 64-bit address space
in which the storage block starts at address `origin`; pointer arithmetic wraps there. -/
def Pointer.machine (origin : Nat) (p : Pointer) : Nat :=
  (((origin : Int) + p.addr) % (size_t_mod : Int)).toNat

/-- The member `array_view::throw_out_of_range_if`. -/
def array_view.throw_out_of_range_if (condition : Bool) : Except Exn Unit :=
  if condition then .error .out_of_range else .ok ()

/-- The member `array_view::at`. The pointers of `mBegin + pos >= mEnd` are compared as the
machine holds them, and `mBegin[pos]` is the object at the machine address of `mBegin + pos`. -/
def array_view.at_ {α : Type} (origin : Nat) (m : Memory α) (v : array_view) (pos : Nat) :
    Except Exn (Option α) :=
  match array_view.throw_out_of_range_if
      (decide ((v.mBegin.add pos).machine origin ≥ v.mEnd.machine origin)) with
  | .error e => .error e
  | .ok _ => .ok (m (((v.mBegin.add pos).machine origin : Int) - (origin : Int)))

/-- The cells a range-based `for` over the view visits, in order. -/
def array_view.elements {α : Type} (m : Memory α) (v : array_view) : List (Option α) :=
  (List.range v.size).map (fun pos => v.get m pos)

/-! ## The container -/

/-- The traits `default_parallel_vector_traits`; `operator_new_succeeds bytes` tells whether
`::operator new(bytes)` returns storage or throws `std::bad_alloc`. -/
structure default_parallel_vector_traits where
  operator_new_succeeds : Nat → Bool

/-- The member `default_parallel_vector_traits::allocate`. -/
def default_parallel_vector_traits.allocate {α : Type} (Traits : default_parallel_vector_traits)
    (bytes : Nat) : Except Exn (Block α) :=
  if bytes > 0 then
    if Traits.operator_new_succeeds bytes then .ok ⟨bytes, fun _ => none, false⟩
    else .error .bad_alloc
  else .ok nullptr

/-- An allocator whose `::operator new` never throws. -/
def never_fails (Traits : default_parallel_vector_traits) : Prop :=
  ∀ bytes, Traits.operator_new_succeeds bytes = true

/-- The data members of `parallel_vector_impl`. -/
structure parallel_vector_impl (α : Type) where
  mMemory : Block α
  mSize : Nat
  mCapacity : Nat

/-- The data members as their default member initialisers leave them. -/
def parallel_vector_impl.init {α : Type} : parallel_vector_impl α := ⟨nullptr, 0, 0⟩

/-- The member `size`. -/
def parallel_vector_impl.size {α : Type} (self : parallel_vector_impl α) : Nat := self.mSize

/-- The member `capacity`. -/
def parallel_vector_impl.capacity {α : Type} (self : parallel_vector_impl α) : Nat :=
  self.mCapacity

/-- The member `empty`. -/
def parallel_vector_impl.empty {α : Type} (self : parallel_vector_impl α) : Bool :=
  self.mSize == 0

/-- The static member `slice_start<Index>(mem, capacity)`; addresses are relative to `mem`. -/
def slice_start (TypeList : type_list) (Index : Nat) (capacity : Nat) : Pointer :=
  ⟨(capacity : Int) * (kSizeCoeff TypeList Index : Int), sizeof_element TypeList Index, 0⟩

/-- The member `slice<Index>()`. -/
def slice {α : Type} (TypeList : type_list) (self : parallel_vector_impl α) (Index : Nat) :
    array_view :=
  make_array_view (slice_start TypeList Index self.mCapacity) self.mSize

/-- The cells of `slice<Index>()`, in order. -/
def slice_elements {α : Type} (TypeList : type_list) (self : parallel_vector_impl α)
    (Index : Nat) : List (Option α) :=
  (slice TypeList self Index).elements self.mMemory.cells

/-- The byte address of element `k` of slice `Index` in a block laid out for `capacity`
elements: `slice_start<Index>(mem, capacity) + k`. -/
def cell_addr (TypeList : type_list) (capacity Index k : Nat) : Int :=
  ((slice_start TypeList Index capacity).add k).addr

/-- The cell of element `k` of slice `Index` of a container. -/
def cell {α : Type} (TypeList : type_list) (self : parallel_vector_impl α) (Index k : Nat) :
    Option α :=
  self.mMemory.cells (cell_addr TypeList self.mCapacity Index k)

/-- Two memories hold the same cells in the storage of slice `Index`. -/
def agree_on {α : Type} (TypeList : type_list) (capacity Index : Nat) (m n : Memory α) : Prop :=
  ∀ k : Nat, k < capacity → m (cell_addr TypeList capacity Index k) =
    n (cell_addr TypeList capacity Index k)

/-- The size in bytes of one element of every field: the sum of all sizes. -/
def row_size (TypeList : type_list) : Nat := size_before TypeList TypeList.size

/-- The class invariant on the counters: `mSize <= mCapacity`, both values of `size_type`. -/
def parallel_vector_impl.valid {α : Type} (self : parallel_vector_impl α) : Prop :=
  self.mSize ≤ self.mCapacity ∧ self.mCapacity < size_type_mod

instance {α : Type} (self : parallel_vector_impl α) : Decidable self.valid := by
  unfold parallel_vector_impl.valid; infer_instance

/-- The class invariant on the storage: the block has room for `mCapacity` elements of every
field, and no access has left it. -/
def parallel_vector_impl.sound {α : Type} (TypeList : type_list)
    (self : parallel_vector_impl α) : Prop :=
  self.mCapacity * row_size TypeList ≤ self.mMemory.bytes ∧ self.mMemory.overrun = false

instance {α : Type} (TypeList : type_list) (self : parallel_vector_impl α) :
    Decidable (self.sound TypeList) := by
  unfold parallel_vector_impl.sound; infer_instance

/-- The capacity `n`, rounded up to the capacity increment, and the byte count of a block of
that capacity are representable in `size_type`. -/
def representable (TypeList : type_list) (n : Nat) : Prop :=
  n + kMinIncrement TypeList - 1 < size_type_mod ∧
    (n + kMinIncrement TypeList - 1) * row_size TypeList < size_type_mod

instance (TypeList : type_list) (n : Nat) : Decidable (representable TypeList n) := by
  unfold representable; infer_instance

/-- The functor `reserve` hands to `for_each_slice`: relocation of one slice from the old
block (first component) to the new one (second component). -/
def reserve_slice {α : Type} (ops : ElementOps α) (TypeList : type_list)
    (mSize mCapacity capacity : Nat) (sliceIndex : Nat) (st : Block α × Block α) :
    Block α × Block α :=
  let sliceFrom := slice_start TypeList sliceIndex mCapacity
  let sliceTo := slice_start TypeList sliceIndex capacity
  for_loop mSize (fun i st =>
    (destroy (pass_rvalue ops st.1 (sliceFrom.add i)).2 (sliceFrom.add i),
      construct st.2 (sliceTo.add i) (pass_rvalue ops st.1 (sliceFrom.add i)).1)) st

/-- The member `reserve`; an overrun of the old block stays recorded in the new one. -/
def reserve {α : Type} (ops : ElementOps α) (Traits : default_parallel_vector_traits)
    (TypeList : type_list) (capacity : Nat) (self : parallel_vector_impl α) :
    Except Exn (parallel_vector_impl α) :=
  if capacity ≤ self.mCapacity then .ok self
  else
    match Traits.allocate
        (size_type_mul (adjust_capacity TypeList capacity) (kSizePerElement TypeList)) with
    | .error e => .error e
    | .ok mem =>
      .ok { mMemory :=
              { (for_each_slice TypeList
                  (reserve_slice ops TypeList self.mSize self.mCapacity
                    (adjust_capacity TypeList capacity))
                  (self.mMemory, mem)).2 with
                overrun :=
                  (for_each_slice TypeList
                    (reserve_slice ops TypeList self.mSize self.mCapacity
                      (adjust_capacity TypeList capacity))
                    (self.mMemory, mem)).1.overrun ||
                  (for_each_slice TypeList
                    (reserve_slice ops TypeList self.mSize self.mCapacity
                      (adjust_capacity TypeList capacity))
                    (self.mMemory, mem)).2.overrun }
            mSize := self.mSize
            mCapacity := adjust_capacity TypeList capacity }

/-- The constructor `parallel_vector_impl(size_type capacity = 0)`. -/
def parallel_vector_impl.new {α : Type} (ops : ElementOps α)
    (Traits : default_parallel_vector_traits) (TypeList : type_list) (capacity : Nat) :
    Except Exn (parallel_vector_impl α) :=
  reserve ops Traits TypeList capacity parallel_vector_impl.init

/-- The member `clear`. -/
def clear {α : Type} (TypeList : type_list) (self : parallel_vector_impl α) :
    parallel_vector_impl α :=
  { self with
    mMemory := for_each_slice TypeList (fun sliceIndex b =>
      for_loop self.mSize
        (fun i b => destroy b ((slice_start TypeList sliceIndex self.mCapacity).add i)) b)
      self.mMemory }

/-- The member `auto_grow`. -/
def auto_grow {α : Type} (ops : ElementOps α) (Traits : default_parallel_vector_traits)
    (TypeList : type_list) (self : parallel_vector_impl α) :
    Except Exn (parallel_vector_impl α) :=
  reserve ops Traits TypeList
    (max (size_type_add (size_type_mul 2 self.mCapacity) 1) (size_type_add self.mCapacity 20))
    self

/-- The member `push_back`; `args` holds one value per field. -/
def push_back {α : Type} (ops : ElementOps α) (Traits : default_parallel_vector_traits)
    (TypeList : type_list) (args : List α) (self : parallel_vector_impl α) :
    Except Exn (parallel_vector_impl α) :=
  match (if self.mSize = self.mCapacity then auto_grow ops Traits TypeList self
      else .ok self) with
  | .error e => .error e
  | .ok self =>
    .ok { self with
          mMemory := for_each_slice TypeList (fun sliceIndex b =>
            construct b ((slice_start TypeList sliceIndex self.mCapacity).add self.mSize)
              (args.get? sliceIndex))
            self.mMemory
          mSize := size_type_add self.mSize 1 }

/-- The functor `erase` hands to `for_each_slice`. -/
def erase_slice {α : Type} (ops : ElementOps α) (TypeList : type_list)
    (mSize mCapacity begin numRemoved : Nat) (sliceIndex : Nat) (b : Block α) : Block α :=
  let slice := slice_start TypeList sliceIndex mCapacity
  let sliceEnd := slice.add mSize
  let firstUninit := sliceEnd.sub numRemoved
  ptr_loop firstUninit sliceEnd (fun p b => destroy b p)
    (ptr_loop (slice.add begin) firstUninit
      (fun p b => move_assign ops b p (p.add numRemoved)) b)

/-- The member `erase`. -/
def erase {α : Type} (ops : ElementOps α) (TypeList : type_list) (begin end_ : Nat)
    (self : parallel_vector_impl α) : parallel_vector_impl α :=
  { self with
    mMemory := for_each_slice TypeList
      (erase_slice ops TypeList self.mSize self.mCapacity begin (size_type_sub end_ begin))
      self.mMemory
    mSize := size_type_sub self.mSize (size_type_sub end_ begin) }

/-- The member `pop_back`. -/
def pop_back {α : Type} (ops : ElementOps α) (TypeList : type_list)
    (self : parallel_vector_impl α) : parallel_vector_impl α :=
  erase ops TypeList (size_type_sub self.mSize 1) self.mSize self

/-- A `TransformFunctor` applied to `*their` and consumed by a constructor or an assignment:
the value handed over and the source block afterwards. -/
abbrev TransformFunctor (α : Type) := Block α → Pointer → Option α × Block α

/-- The functor `insert_impl` hands to `for_each_slice`; the state is the block of this
container and the block of `other`. `self` is this container after the call of `reserve`. -/
def insert_slice {α : Type} (ops : ElementOps α) (TypeList : type_list)
    (transform : TransformFunctor α) (self other : parallel_vector_impl α)
    (end_ numInserted newSize numConstructedDisplaced numAssignedDisplaced
      numConstructedInserted numAssignedInserted : Nat)
    (sliceIndex : Nat) (st : Block α × Block α) : Block α × Block α :=
  let my := ((slice_start TypeList sliceIndex self.mCapacity).add newSize).sub 1
  let s1 := for_loop numConstructedDisplaced
    (fun _ (s : Block α × Pointer) =>
      (move_construct ops s.1 s.2 (s.2.sub numInserted), s.2.sub 1)) (st.1, my)
  let s2 := for_loop numAssignedDisplaced
    (fun _ (s : Block α × Pointer) =>
      (move_assign ops s.1 s.2 (s.2.sub numInserted), s.2.sub 1)) s1
  let their := (((slice TypeList other sliceIndex).begin).add end_).sub 1
  let s3 := for_loop numConstructedInserted
    (fun _ (s : (Block α × Block α) × (Pointer × Pointer)) =>
      ((construct s.1.1 s.2.1 (transform s.1.2 s.2.2).1, (transform s.1.2 s.2.2).2),
        (s.2.1.sub 1, s.2.2.sub 1)))
    ((s2.1, st.2), (s2.2, their))
  let s4 := for_loop numAssignedInserted
    (fun _ (s : (Block α × Block α) × (Pointer × Pointer)) =>
      ((assign s.1.1 s.2.1 (transform s.1.2 s.2.2).1, (transform s.1.2 s.2.2).2),
        (s.2.1.sub 1, s.2.2.sub 1)))
    s3
  s4.1

/-- The member `insert_impl`; returns this container and `other`. -/
def insert_impl {α : Type} (ops : ElementOps α) (Traits : default_parallel_vector_traits)
    (TypeList : type_list) (insertionPoint : Nat) (other : parallel_vector_impl α)
    (begin end_ : Nat) (transform : TransformFunctor α) (self : parallel_vector_impl α) :
    Except Exn (parallel_vector_impl α × parallel_vector_impl α) :=
  let numDisplaced := size_type_sub self.mSize insertionPoint
  let numInserted := size_type_sub end_ begin
  let newSize := size_type_add self.mSize numInserted
  match (if newSize > self.mCapacity then reserve ops Traits TypeList newSize self
      else .ok self) with
  | .error e => .error e
  | .ok self =>
    let numConstructedDisplaced := min numDisplaced numInserted
    let numAssignedDisplaced := size_type_sub numDisplaced numConstructedDisplaced
    let numAssignedInserted := numConstructedDisplaced
    let numConstructedInserted := size_type_sub numInserted numAssignedInserted
    let st := for_each_slice TypeList
      (insert_slice ops TypeList transform self other end_ numInserted newSize
        numConstructedDisplaced numAssignedDisplaced numConstructedInserted
        numAssignedInserted)
      (self.mMemory, other.mMemory)
    .ok ({ self with mMemory := st.1, mSize := newSize }, { other with mMemory := st.2 })

/-- The member `insert_copy`; returns this container and `other`. -/
def insert_copy {α : Type} (ops : ElementOps α) (Traits : default_parallel_vector_traits)
    (TypeList : type_list) (insertionPoint : Nat) (other : parallel_vector_impl α)
    (begin end_ : Nat) (self : parallel_vector_impl α) :
    Except Exn (parallel_vector_impl α × parallel_vector_impl α) :=
  insert_impl ops Traits TypeList insertionPoint other begin end_ pass_lvalue self

/-- The member `insert_move`; returns this container and `other`. -/
def insert_move {α : Type} (ops : ElementOps α) (Traits : default_parallel_vector_traits)
    (TypeList : type_list) (insertionPoint : Nat) (other : parallel_vector_impl α)
    (begin end_ : Nat) (self : parallel_vector_impl α) :
    Except Exn (parallel_vector_impl α × parallel_vector_impl α) :=
  match insert_impl ops Traits TypeList insertionPoint other begin end_ (pass_rvalue ops)
      self with
  | .error e => .error e
  | .ok (self, other) => .ok (self, erase ops TypeList begin end_ other)

/-- The copy assignment `operator=(const parallel_vector_impl &rhs)`; returns this container
and `rhs`. -/
def copy_assignment {α : Type} (ops : ElementOps α) (Traits : default_parallel_vector_traits)
    (TypeList : type_list) (rhs self : parallel_vector_impl α) :
    Except Exn (parallel_vector_impl α × parallel_vector_impl α) :=
  insert_copy ops Traits TypeList 0 rhs 0 rhs.mSize (clear TypeList self)

/-! ## Lookup of a field by its type -/

/-- The static assertions of the type-list templates: "Index out of range" of
`type_list_element` and "Type is not unique" of `find_type_index`. -/
inductive StaticAssert where
  | index_out_of_range
  | type_is_not_unique
deriving DecidableEq

/-- The template `find_type_index<Type, TypeList>`: its `value`, or the static assertion that
fails when it is instantiated. The partial specialisations match on the identity of the first
type of the list, so the list is one of types told apart by identity. -/
def find_type_index {τ : Type} [DecidableEq τ] (T : τ) : List τ → Except StaticAssert Nat
  | [] => .ok 0
  | First :: Rest =>
    if First = T then
      match find_type_index T Rest with
      | .error e => .error e
      | .ok value => if value = Rest.length then .ok 0 else .error .type_is_not_unique
    else
      match find_type_index T Rest with
      | .error e => .error e
      | .ok value => .ok (1 + value)

/-- The member `slice<Type>()`: `slice<find_type_index<Type, TypeList>::value>()`, where
`slice_start<Index>` names `type_list_element_t<Index, TypeList>`. `Types` are the field
types and `layout` gives the size and alignment of each. -/
def slice_of_type {τ α : Type} [DecidableEq τ] (layout : τ → FieldType) (Types : List τ)
    (self : parallel_vector_impl α) (T : τ) : Except StaticAssert array_view :=
  match find_type_index T Types with
  | .error e => .error e
  | .ok Index =>
    match type_list_element Index (Types.map layout) with
    | none => .error .index_out_of_range
    | some _ => .ok (slice (Types.map layout) self Index)

/-! ## The calls with the state an exception leaves

The members above return the containers of a call that returns.  Below the same members are
followed statement by statement, so that a call left by an exception still has its
containers: the ones the statements executed so far have produced. -/

/-- How a call is left: the containers at that moment, and the exception in flight, if any. -/
structure Exit (σ : Type) where
  state : σ
  thrown : Option Exn

/-- The statements of `reserve` after the allocation: the relocation into `mem`, then the
assignments to `mMemory` and `mCapacity`; `capacity` is the adjusted capacity. -/
def reserve_relocate {α : Type} (ops : ElementOps α) (TypeList : type_list) (capacity : Nat)
    (mem : Block α) (self : parallel_vector_impl α) : parallel_vector_impl α :=
  { mMemory :=
      { (for_each_slice TypeList
          (reserve_slice ops TypeList self.mSize self.mCapacity capacity)
          (self.mMemory, mem)).2 with
        overrun :=
          (for_each_slice TypeList
            (reserve_slice ops TypeList self.mSize self.mCapacity capacity)
            (self.mMemory, mem)).1.overrun ||
          (for_each_slice TypeList
            (reserve_slice ops TypeList self.mSize self.mCapacity capacity)
            (self.mMemory, mem)).2.overrun }
    mSize := self.mSize
    mCapacity := capacity }

/-- The member `reserve`: the early return, the adjustment of the local `capacity`, the call
of `allocate`, which can throw, and the statements after it. -/
def reserve_call {α : Type} (ops : ElementOps α) (Traits : default_parallel_vector_traits)
    (TypeList : type_list) (capacity : Nat) (self : parallel_vector_impl α) :
    Exit (parallel_vector_impl α) :=
  if capacity ≤ self.mCapacity then ⟨self, none⟩
  else
    match Traits.allocate
        (size_type_mul (adjust_capacity TypeList capacity) (kSizePerElement TypeList)) with
    | .error e => ⟨self, some e⟩
    | .ok mem =>
      ⟨reserve_relocate ops TypeList (adjust_capacity TypeList capacity) mem self, none⟩

/-- The member `auto_grow`. -/
def auto_grow_call {α : Type} (ops : ElementOps α) (Traits : default_parallel_vector_traits)
    (TypeList : type_list) (self : parallel_vector_impl α) : Exit (parallel_vector_impl α) :=
  reserve_call ops Traits TypeList
    (max (size_type_add (size_type_mul 2 self.mCapacity) 1) (size_type_add self.mCapacity 20))
    self

/-- The statements of `push_back` after the growth: the construction of the new element in
every slice, then `++mSize`. -/
def push_back_construct {α : Type} (TypeList : type_list) (args : List α)
    (self : parallel_vector_impl α) : parallel_vector_impl α :=
  { self with
    mMemory := for_each_slice TypeList (fun sliceIndex b =>
      construct b ((slice_start TypeList sliceIndex self.mCapacity).add self.mSize)
        (args.get? sliceIndex))
      self.mMemory
    mSize := size_type_add self.mSize 1 }

/-- The member `push_back`: an exception that leaves `auto_grow` leaves `push_back` at once. -/
def push_back_call {α : Type} (ops : ElementOps α) (Traits : default_parallel_vector_traits)
    (TypeList : type_list) (args : List α) (self : parallel_vector_impl α) :
    Exit (parallel_vector_impl α) :=
  match (if self.mSize = self.mCapacity then auto_grow_call ops Traits TypeList self
      else ⟨self, none⟩) with
  | ⟨self, some e⟩ => ⟨self, some e⟩
  | ⟨self, none⟩ => ⟨push_back_construct TypeList args self, none⟩

/-- The statements of `insert_impl` after the growth: the four loops in every slice, then
`mSize = newSize`; the counts are those computed before the growth. -/
def insert_impl_fill {α : Type} (ops : ElementOps α) (TypeList : type_list)
    (other : parallel_vector_impl α) (end_ : Nat) (transform : TransformFunctor α)
    (numDisplaced numInserted newSize : Nat) (self : parallel_vector_impl α) :
    parallel_vector_impl α × parallel_vector_impl α :=
  let numConstructedDisplaced := min numDisplaced numInserted
  let numAssignedDisplaced := size_type_sub numDisplaced numConstructedDisplaced
  let numAssignedInserted := numConstructedDisplaced
  let numConstructedInserted := size_type_sub numInserted numAssignedInserted
  let st := for_each_slice TypeList
    (insert_slice ops TypeList transform self other end_ numInserted newSize
      numConstructedDisplaced numAssignedDisplaced numConstructedInserted
      numAssignedInserted)
    (self.mMemory, other.mMemory)
  ({ self with mMemory := st.1, mSize := newSize }, { other with mMemory := st.2 })

/-- The member `insert_impl` on this container and `other`: an exception that leaves
`reserve` leaves `insert_impl` at once. -/
def insert_impl_call {α : Type} (ops : ElementOps α) (Traits : default_parallel_vector_traits)
    (TypeList : type_list) (insertionPoint : Nat) (other : parallel_vector_impl α)
    (begin end_ : Nat) (transform : TransformFunctor α) (self : parallel_vector_impl α) :
    Exit (parallel_vector_impl α × parallel_vector_impl α) :=
  let numDisplaced := size_type_sub self.mSize insertionPoint
  let numInserted := size_type_sub end_ begin
  let newSize := size_type_add self.mSize numInserted
  match (if newSize > self.mCapacity then reserve_call ops Traits TypeList newSize self
      else ⟨self, none⟩) with
  | ⟨self, some e⟩ => ⟨(self, other), some e⟩
  | ⟨self, none⟩ =>
    ⟨insert_impl_fill ops TypeList other end_ transform numDisplaced numInserted newSize self,
      none⟩

/-- The member `insert_copy`. -/
def insert_copy_call {α : Type} (ops : ElementOps α) (Traits : default_parallel_vector_traits)
    (TypeList : type_list) (insertionPoint : Nat) (other : parallel_vector_impl α)
    (begin end_ : Nat) (self : parallel_vector_impl α) :
    Exit (parallel_vector_impl α × parallel_vector_impl α) :=
  insert_impl_call ops Traits TypeList insertionPoint other begin end_ pass_lvalue self

/-- The member `insert_move`: `other.erase` is only reached when `insert_impl` returns. -/
def insert_move_call {α : Type} (ops : ElementOps α) (Traits : default_parallel_vector_traits)
    (TypeList : type_list) (insertionPoint : Nat) (other : parallel_vector_impl α)
    (begin end_ : Nat) (self : parallel_vector_impl α) :
    Exit (parallel_vector_impl α × parallel_vector_impl α) :=
  match insert_impl_call ops Traits TypeList insertionPoint other begin end_ (pass_rvalue ops)
      self with
  | ⟨st, some e⟩ => ⟨st, some e⟩
  | ⟨(self, other), none⟩ => ⟨(self, erase ops TypeList begin end_ other), none⟩

/-- The call `allocate` inside `reserve(capacity)` throws: it asks `::operator new` for a
positive byte count and is refused. -/
def allocation_fails (Traits : default_parallel_vector_traits) (TypeList : type_list)
    (capacity : Nat) : Prop :=
  0 < size_type_mul (adjust_capacity TypeList capacity) (kSizePerElement TypeList) ∧
    Traits.operator_new_succeeds
      (size_type_mul (adjust_capacity TypeList capacity) (kSizePerElement TypeList)) = false

instance (Traits : default_parallel_vector_traits) (TypeList : type_list) (capacity : Nat) :
    Decidable (allocation_fails Traits TypeList capacity) := by
  unfold allocation_fails; infer_instance

/-- The value a call that returns hands back, or the exception that has left it. -/
def Exit.result {σ : Type} (x : Exit σ) : Except Exn σ :=
  match x.thrown with
  | some e => .error e
  | none => .ok x.state

/-! ## The writes of insert_impl -/

/-- The kind of a write to a slot: by a constructor (placement new, for a slot that holds no
object) or by an assignment (for a slot that holds one). -/
inductive Write where
  | constructed
  | assigned
deriving DecidableEq

/-- The functor `insert_impl` hands to `for_each_slice`, with the body of each of the four
loops reduced to the kind of its write and the pointer `my` it writes through; the writes are
listed in the order they are made. -/
def insert_slice_writes (TypeList : type_list) (mCapacity newSize numConstructedDisplaced
    numAssignedDisplaced numConstructedInserted numAssignedInserted : Nat)
    (sliceIndex : Nat) : List (Write × Pointer) :=
  let my := ((slice_start TypeList sliceIndex mCapacity).add newSize).sub 1
  let s1 := for_loop numConstructedDisplaced
    (fun _ (s : List (Write × Pointer) × Pointer) =>
      (s.1 ++ [(Write.constructed, s.2)], s.2.sub 1)) ([], my)
  let s2 := for_loop numAssignedDisplaced
    (fun _ (s : List (Write × Pointer) × Pointer) =>
      (s.1 ++ [(Write.assigned, s.2)], s.2.sub 1)) s1
  let s3 := for_loop numConstructedInserted
    (fun _ (s : List (Write × Pointer) × Pointer) =>
      (s.1 ++ [(Write.constructed, s.2)], s.2.sub 1)) s2
  let s4 := for_loop numAssignedInserted
    (fun _ (s : List (Write × Pointer) × Pointer) =>
      (s.1 ++ [(Write.assigned, s.2)], s.2.sub 1)) s3
  s4.1

/-- The writes `insert_impl` makes in one slice, as kind and slot index; `self` is this
container when the loops start (after the call of `reserve`, which keeps `mSize`). -/
def insert_impl_writes {α : Type} (TypeList : type_list) (insertionPoint begin end_ : Nat)
    (self : parallel_vector_impl α) (sliceIndex : Nat) : List (Write × Int) :=
  let numDisplaced := size_type_sub self.mSize insertionPoint
  let numInserted := size_type_sub end_ begin
  let newSize := size_type_add self.mSize numInserted
  let numConstructedDisplaced := min numDisplaced numInserted
  let numAssignedDisplaced := size_type_sub numDisplaced numConstructedDisplaced
  let numAssignedInserted := numConstructedDisplaced
  let numConstructedInserted := size_type_sub numInserted numAssignedInserted
  (insert_slice_writes TypeList self.mCapacity newSize numConstructedDisplaced
    numAssignedDisplaced numConstructedInserted numAssignedInserted sliceIndex).map
    (fun w => (w.1, w.2.index))

/-- A slot of a container of `size` elements holds an object. -/
def live (size : Nat) (slot : Int) : Prop := 0 ≤ slot ∧ slot < size

/-- The writes the description of `insert_impl` asks for in one slice of a container of `size`
elements, for `count` elements inserted at `insertionPoint`: every slot of
`[insertionPoint, size + count)` once, from the last one down, by construction from slot `size`
on and by assignment below it. -/
def descending_writes (size count insertionPoint : Nat) : List (Write × Int) :=
  (List.range (size + count - insertionPoint)).map (fun (t : Nat) =>
    ((if (size : Int) ≤ ((size + count : Nat) : Int) - 1 - (t : Int) then Write.constructed
      else Write.assigned), ((size + count : Nat) : Int) - 1 - (t : Int)))

/-! ## Auxiliary definitions for the proofs

The operations above restricted to the cells of the blocks, with the bookkeeping of
overruns left out; the proofs about contents are carried out on them. -/

/-- A block of `bytes` bytes no access has left. -/
def Block.intact {α : Type} (b : Block α) (bytes : Nat) : Prop :=
  b.bytes = bytes ∧ b.overrun = false

/-- The cells of a pair of blocks. -/
def cells2 {α : Type} (st : Block α × Block α) : Memory α × Memory α :=
  (st.1.cells, st.2.cells)

/-- A transform functor that leaves `residue v` in a source cell that held `v`. -/
def residue_transform {α : Type} (residue : Option α → Option α) : TransformFunctor α :=
  fun b p => (b.cells p.addr,
    { b.access p with cells := Function.update b.cells p.addr (residue (b.cells p.addr)) })

namespace bare

/-- The function `construct` on the cells. -/
def construct {α : Type} (m : Memory α) (mem : Pointer) (v : Option α) : Memory α :=
  Function.update m mem.addr v

/-- The function `destroy` on the cells. -/
def destroy {α : Type} (m : Memory α) (mem : Pointer) : Memory α :=
  Function.update m mem.addr none

/-- Assignment on the cells. -/
def assign {α : Type} (m : Memory α) (p : Pointer) (v : Option α) : Memory α :=
  Function.update m p.addr v

/-- An lvalue argument on the cells. -/
def pass_lvalue {α : Type} (m : Memory α) (p : Pointer) : Option α × Memory α :=
  (m p.addr, m)

/-- An rvalue argument on the cells. -/
def pass_rvalue {α : Type} (ops : ElementOps α) (m : Memory α) (p : Pointer) :
    Option α × Memory α :=
  (m p.addr, Function.update m p.addr ((m p.addr).map ops.moved_from))

/-- Move construction on the cells. -/
def move_construct {α : Type} (ops : ElementOps α) (m : Memory α) (dst src : Pointer) :
    Memory α :=
  construct (pass_rvalue ops m src).2 dst (pass_rvalue ops m src).1

/-- Move assignment on the cells. -/
def move_assign {α : Type} (ops : ElementOps α) (m : Memory α) (dst src : Pointer) :
    Memory α :=
  if dst.addr = src.addr then
    Function.update m dst.addr ((m dst.addr).map ops.self_move_assigned)
  else assign (pass_rvalue ops m src).2 dst (pass_rvalue ops m src).1

/-- A transform functor on the cells. -/
abbrev TransformFunctor (α : Type) := Memory α → Pointer → Option α × Memory α

/-- The functor of `reserve` on the cells. -/
def reserve_slice {α : Type} (ops : ElementOps α) (TypeList : type_list)
    (mSize mCapacity capacity : Nat) (sliceIndex : Nat) (st : Memory α × Memory α) :
    Memory α × Memory α :=
  let sliceFrom := slice_start TypeList sliceIndex mCapacity
  let sliceTo := slice_start TypeList sliceIndex capacity
  for_loop mSize (fun i st =>
    (destroy (pass_rvalue ops st.1 (sliceFrom.add i)).2 (sliceFrom.add i),
      construct st.2 (sliceTo.add i) (pass_rvalue ops st.1 (sliceFrom.add i)).1)) st

/-- The functor of `erase` on the cells. -/
def erase_slice {α : Type} (ops : ElementOps α) (TypeList : type_list)
    (mSize mCapacity begin numRemoved : Nat) (sliceIndex : Nat) (m : Memory α) : Memory α :=
  let slice := slice_start TypeList sliceIndex mCapacity
  let sliceEnd := slice.add mSize
  let firstUninit := sliceEnd.sub numRemoved
  ptr_loop firstUninit sliceEnd (fun p m => destroy m p)
    (ptr_loop (slice.add begin) firstUninit
      (fun p m => move_assign ops m p (p.add numRemoved)) m)

/-- The functor of `insert_impl` on the cells. -/
def insert_slice {α : Type} (ops : ElementOps α) (TypeList : type_list)
    (transform : TransformFunctor α) (self other : parallel_vector_impl α)
    (end_ numInserted newSize numConstructedDisplaced numAssignedDisplaced
      numConstructedInserted numAssignedInserted : Nat)
    (sliceIndex : Nat) (st : Memory α × Memory α) : Memory α × Memory α :=
  let my := ((slice_start TypeList sliceIndex self.mCapacity).add newSize).sub 1
  let s1 := for_loop numConstructedDisplaced
    (fun _ (s : Memory α × Pointer) =>
      (move_construct ops s.1 s.2 (s.2.sub numInserted), s.2.sub 1)) (st.1, my)
  let s2 := for_loop numAssignedDisplaced
    (fun _ (s : Memory α × Pointer) =>
      (move_assign ops s.1 s.2 (s.2.sub numInserted), s.2.sub 1)) s1
  let their := (((slice TypeList other sliceIndex).begin).add end_).sub 1
  let s3 := for_loop numConstructedInserted
    (fun _ (s : (Memory α × Memory α) × (Pointer × Pointer)) =>
      ((construct s.1.1 s.2.1 (transform s.1.2 s.2.2).1, (transform s.1.2 s.2.2).2),
        (s.2.1.sub 1, s.2.2.sub 1)))
    ((s2.1, st.2), (s2.2, their))
  let s4 := for_loop numAssignedInserted
    (fun _ (s : (Memory α × Memory α) × (Pointer × Pointer)) =>
      ((assign s.1.1 s.2.1 (transform s.1.2 s.2.2).1, (transform s.1.2 s.2.2).2),
        (s.2.1.sub 1, s.2.2.sub 1)))
    s3
  s4.1

/-- One displaced element moved from address `src` to address `dst`. -/
def move_cell {α : Type} (ops : ElementOps α) (m : Memory α) (dst src : Int) : Memory α :=
  Function.update (Function.update m src ((m src).map ops.moved_from)) dst (m src)

/-- A transform functor that leaves `residue v` in a source cell that held `v`. -/
def residue_transform {α : Type} (residue : Option α → Option α) : TransformFunctor α :=
  fun o p => (o p.addr, Function.update o p.addr (residue (o p.addr)))

/-- One inserted element taken from address `src` of the second memory to address `dst` of
the first one. -/
def transfer_cell {α : Type} (residue : Option α → Option α) (s : Memory α × Memory α)
    (dst src : Int) : Memory α × Memory α :=
  (Function.update s.1 dst (s.2 src), Function.update s.2 src (residue (s.2 src)))

/-- The `for_each_slice` call of `insert_impl` for `n` inserted elements ending at `e` and
`size - ip` displaced ones, with the counts of the four phases written out. -/
def insert_slices {α : Type} (ops : ElementOps α) (L : type_list)
    (residue : Option α → Option α) (self other : parallel_vector_impl α)
    (size ip e n : Nat) (st : Memory α × Memory α) : Memory α × Memory α :=
  for_each_slice L
    (insert_slice ops L (residue_transform residue) self other e n (size + n)
      (min (size - ip) n) (size - ip - min (size - ip) n) (n - min (size - ip) n)
      (min (size - ip) n)) st

end bare

/-! ## Small instances used in the examples -/

/-- The type `char`. -/
def char_t : FieldType := ⟨1, 1, by decide, by decide, by decide, by decide⟩

/-- The type `int`. -/
def int_t : FieldType := ⟨4, 4, by decide, by decide, by decide, by decide⟩

/-- The type `double`. -/
def double_t : FieldType := ⟨8, 8, by decide, by decide, by decide, by decide⟩

/-- An allocator that never fails. -/
def unlimited : default_parallel_vector_traits := ⟨fun _ => true⟩

/-- The result of an operation, or a default when it threw. -/
def Except.getD {ε β : Type} (d : β) : Except ε β → β
  | .ok b => b
  | .error _ => d

/-- The field list `int, char` of the insertion example. -/
def demo_layout : type_list := [int_t, char_t]

/-- The container `A = [(1,'a'), (2,'b'), (3,'c')]`, built with `push_back`. -/
def demo_A : parallel_vector_impl Nat :=
  Except.getD parallel_vector_impl.init (do
    let a ← parallel_vector_impl.new (trivial_ops Nat) unlimited demo_layout 0
    let a ← push_back (trivial_ops Nat) unlimited demo_layout [1, 97] a
    let a ← push_back (trivial_ops Nat) unlimited demo_layout [2, 98] a
    push_back (trivial_ops Nat) unlimited demo_layout [3, 99] a)

/-- The container `B = [(10,'x'), (11,'y')]`, built with `push_back`. -/
def demo_B : parallel_vector_impl Nat :=
  Except.getD parallel_vector_impl.init (do
    let b ← parallel_vector_impl.new (trivial_ops Nat) unlimited demo_layout 0
    let b ← push_back (trivial_ops Nat) unlimited demo_layout [10, 120] b
    push_back (trivial_ops Nat) unlimited demo_layout [11, 121] b)

/-- The two containers after `A.insert_copy(1, B, 0, 2)`. -/
def demo_copy : parallel_vector_impl Nat × parallel_vector_impl Nat :=
  Except.getD (demo_A, demo_B)
    (insert_copy (trivial_ops Nat) unlimited demo_layout 1 demo_B 0 2 demo_A)

/-- The two containers after `A.insert_move(1, B, 0, 2)`. -/
def demo_move : parallel_vector_impl Nat × parallel_vector_impl Nat :=
  Except.getD (demo_A, demo_B)
    (insert_move (trivial_ops Nat) unlimited demo_layout 1 demo_B 0 2 demo_A)

/-- The type `std::string` (its size and alignment on a 64-bit platform). -/
def string_t : FieldType := ⟨32, 8, by decide, by decide, by decide, by decide⟩

/-- The moves of `std::string` as libstdc++ implements them: a moved-from string is empty,
and so is a string move-assigned to itself. -/
def string_ops : ElementOps String := ⟨fun _ => "", fun _ => ""⟩

/-- The container `["a", "b", "c"]` of one `std::string` field, built with `push_back`. -/
def demo_strings : parallel_vector_impl String :=
  Except.getD parallel_vector_impl.init (do
    let a ← parallel_vector_impl.new string_ops unlimited [string_t] 0
    let a ← push_back string_ops unlimited [string_t] ["a"] a
    let a ← push_back string_ops unlimited [string_t] ["b"] a
    push_back string_ops unlimited [string_t] ["c"] a)

/-- The container `[(1, 2)]` with a `char` and a `double` field, built with `push_back`. -/
def demo_mixed : parallel_vector_impl Nat :=
  Except.getD parallel_vector_impl.init (do
    let a ← parallel_vector_impl.new (trivial_ops Nat) unlimited [char_t, double_t] 0
    push_back (trivial_ops Nat) unlimited [char_t, double_t] [1, 2] a)

/-- Successive calls of `reserve`, one per requested capacity. -/
def reserve_each {α : Type} (ops : ElementOps α) (Traits : default_parallel_vector_traits)
    (L : type_list) : List Nat → parallel_vector_impl α → Except Exn (parallel_vector_impl α)
  | [], self => .ok self
  | capacity :: rest, self =>
    match reserve ops Traits L capacity self with
    | .error e => .error e
    | .ok self => reserve_each ops Traits L rest self

/-! ## Sequences of calls -/

/-- One call of a mutating member; `other` is the source container of an insertion. -/
inductive Operation (α : Type) where
  | reserve (capacity : Nat)
  | push_back (args : List α)
  | insert_copy (insertionPoint : Nat) (other : parallel_vector_impl α) (begin end_ : Nat)
  | insert_move (insertionPoint : Nat) (other : parallel_vector_impl α) (begin end_ : Nat)
  | erase (begin end_ : Nat)
  | pop_back
  | clear

/-- The call made on a container. -/
def Operation.call {α : Type} (ops : ElementOps α) (Traits : default_parallel_vector_traits)
    (L : type_list) : Operation α → parallel_vector_impl α → Except Exn (parallel_vector_impl α)
  | .reserve capacity, self => utl.reserve ops Traits L capacity self
  | .push_back args, self => utl.push_back ops Traits L args self
  | .insert_copy insertionPoint other begin end_, self =>
    match utl.insert_copy ops Traits L insertionPoint other begin end_ self with
    | .error e => .error e
    | .ok r => .ok r.1
  | .insert_move insertionPoint other begin end_, self =>
    match utl.insert_move ops Traits L insertionPoint other begin end_ self with
    | .error e => .error e
    | .ok r => .ok r.1
  | .erase begin end_, self => .ok (utl.erase ops L begin end_ self)
  | .pop_back, self => .ok (utl.pop_back ops L self)
  | .clear, self => .ok (utl.clear L self)

/-- The container after a call: an exception is thrown by `allocate` before the call has
modified anything, so it leaves the container as it was. -/
def Operation.step {α : Type} (ops : ElementOps α) (Traits : default_parallel_vector_traits)
    (L : type_list) (op : Operation α) (self : parallel_vector_impl α) :
    parallel_vector_impl α :=
  Except.getD self (op.call ops Traits L self)

/-- The container after a sequence of calls. -/
def run {α : Type} (ops : ElementOps α) (Traits : default_parallel_vector_traits)
    (L : type_list) : List (Operation α) → parallel_vector_impl α → parallel_vector_impl α
  | [], self => self
  | op :: rest, self => run ops Traits L rest (op.step ops Traits L self)

/-- A condition on each call of a sequence, in the state the call is made in. -/
def holds_along {α : Type} (ops : ElementOps α) (Traits : default_parallel_vector_traits)
    (L : type_list) (P : Operation α → parallel_vector_impl α → Prop) :
    List (Operation α) → parallel_vector_impl α → Prop
  | [], _ => True
  | op :: rest, self => P op self ∧ holds_along ops Traits L P rest (op.step ops Traits L self)

/-- The documented preconditions: `insertionPoint <= size`, `begin <= end <= size` of the
indexed container (a source is a container in its own right, with its class invariant),
`pop_back` only when non-empty. -/
def Operation.precondition {α : Type} (L : type_list) :
    Operation α → parallel_vector_impl α → Prop
  | .insert_copy insertionPoint other begin end_, self =>
    insertionPoint ≤ self.size ∧ begin ≤ end_ ∧ end_ ≤ other.size ∧ other.valid ∧ other.sound L
  | .insert_move insertionPoint other begin end_, self =>
    insertionPoint ≤ self.size ∧ begin ≤ end_ ∧ end_ ≤ other.size ∧ other.valid ∧ other.sound L
  | .erase begin end_, self => begin ≤ end_ ∧ end_ ≤ self.size
  | .pop_back, self => self.size ≠ 0
  | _, _ => True

/-- The capacity `n` is already there, or it is representable. -/
def fits {α : Type} (L : type_list) (self : parallel_vector_impl α) (n : Nat) : Prop :=
  n ≤ self.capacity ∨ representable L n

instance {α : Type} (L : type_list) (self : parallel_vector_impl α) (n : Nat) :
    Decidable (fits L self n) := by
  unfold fits; infer_instance

/-- The capacity a call needs is there or is representable. -/
def Operation.in_range {α : Type} (L : type_list) :
    Operation α → parallel_vector_impl α → Prop
  | .reserve capacity, self => fits L self capacity
  | .push_back _, self =>
    self.size = self.capacity →
      representable L (max (2 * self.capacity + 1) (self.capacity + 20))
  | .insert_copy _ _ begin end_, self => fits L self (self.size + (end_ - begin))
  | .insert_move _ _ begin end_, self => fits L self (self.size + (end_ - begin))
  | _, _ => True

/-- An allocator whose `::operator new` always throws. -/
def exhausted : default_parallel_vector_traits := ⟨fun _ => false⟩

/-- The type `long double` (its size and alignment on x86-64). -/
def long_double_t : FieldType := ⟨16, 16, by decide, by decide, by decide, by decide⟩

/-- A view of `n` elements of type `char` that starts at the block start. -/
def char_view (n : Nat) : array_view := make_array_view ⟨0, 1, 0⟩ n

/-- The container `['x']` of one `char` field, built with `push_back`. -/
def one_char : parallel_vector_impl Nat :=
  Except.getD parallel_vector_impl.init (do
    let b ← parallel_vector_impl.new (trivial_ops Nat) unlimited [char_t] 0
    push_back (trivial_ops Nat) unlimited [char_t] [120] b)

/-- A full container of `2^32 - 1` elements of type `char`. -/
def full_range : parallel_vector_impl Nat :=
  ⟨⟨4294967295, fun a => if 0 ≤ a ∧ a < 4294967295 then some 0 else none, false⟩,
    4294967295, 4294967295⟩

/-- The type `float`. -/
def float_t : FieldType := ⟨4, 4, by decide, by decide, by decide, by decide⟩

/-- Some types of C++, told apart by identity. -/
inductive cpp_type where
  | char_
  | int_
  | float_
  | double_
deriving DecidableEq

/-- The size and alignment of a type. -/
def cpp_type.layout : cpp_type → FieldType
  | .char_ => char_t
  | .int_ => int_t
  | .float_ => float_t
  | .double_ => double_t

/-- The container `["x", "y"]` of one `std::string` field, built with `push_back`. -/
def demo_words : parallel_vector_impl String :=
  Except.getD parallel_vector_impl.init (do
    let a ← parallel_vector_impl.new string_ops unlimited [string_t] 0
    let a ← push_back string_ops unlimited [string_t] ["x"] a
    push_back string_ops unlimited [string_t] ["y"] a)

/-! ## Bit arithmetic -/

theorem pow_two_of_and_pred : ∀ n : Nat, n ≠ 0 → n &&& (n - 1) = 0 → ∃ d, n = 2 ^ d := by
  intro n
  induction n using Nat.strong_induction_on with
  | _ n ih =>
    intro hn h
    by_cases h1 : n = 1
    · exact ⟨0, by simp [h1]⟩
    · have hs : (n &&& (n - 1)) / 2 = 0 := by rw [h]
      rw [Nat.and_div_two] at hs
      rcases Nat.even_or_odd n with he | ho
      · obtain ⟨m, hm⟩ := he
        have hm2 : n / 2 = m := by omega
        have hm3 : (n - 1) / 2 = m - 1 := by omega
        rw [hm2, hm3] at hs
        obtain ⟨d, hd⟩ := ih m (by omega) (by omega) hs
        exact ⟨d + 1, by rw [pow_succ, ← hd]; omega⟩
      · obtain ⟨m, hm⟩ := ho
        have hm2 : n / 2 = m := by omega
        have hm3 : (n - 1) / 2 = m := by omega
        rw [hm2, hm3, Nat.and_self] at hs
        omega

theorem and_not_mask (x d : Nat) (hd : d ≤ 64) (hx : x < 2 ^ 64) :
    x &&& (2 ^ 64 - 1 - (2 ^ d - 1)) = x - x % 2 ^ d := by
  have h1 : 2 ^ 64 - 1 - (2 ^ d - 1) = 2 ^ d * (2 ^ (64 - d) - 1) := by
    have : 2 ^ 64 = 2 ^ d * 2 ^ (64 - d) := by rw [← pow_add]; congr 1; omega
    have hp : 0 < 2 ^ d := Nat.two_pow_pos d
    rw [Nat.mul_sub, ← this]; omega
  have h2 : x - x % 2 ^ d = 2 ^ d * (x / 2 ^ d) := by
    have := Nat.div_add_mod x (2 ^ d); omega
  rw [h1, h2]
  apply Nat.eq_of_testBit_eq
  intro j
  rw [Nat.testBit_and, Nat.testBit_mul_pow_two, Nat.testBit_mul_pow_two, Nat.testBit_two_pow_sub_one,
    ← Nat.shiftRight_eq_div_pow, Nat.testBit_shiftRight]
  by_cases hj : d ≤ j
  · by_cases hj2 : j < 64
    · have : j - d < 64 - d := by omega
      have h3 : d + (j - d) = j := by omega
      simp [hj, this, h3]
    · have : x.testBit j = false := Nat.testBit_lt_two_pow (lt_of_lt_of_le hx (Nat.pow_le_pow_right (by decide) (by omega)))
      have h3 : d + (j - d) = j := by omega
      simp [hj, this, h3]
  · simp [hj]

/-! ## Type lists -/

theorem apply_to_all_impl_sum (L : type_list) : ∀ (N s : Nat), N ≤ L.length →
    apply_to_all_impl sum_size.type N s L = some (s + size_before L N) := by
  induction L with
  | nil =>
    intro N s h
    have : N = 0 := by simpa using h
    subst this
    simp [apply_to_all_impl, size_before]
  | cons T L ih =>
    intro N s h
    cases N with
    | zero => simp [apply_to_all_impl, size_before]
    | succ N =>
      have h2 : N ≤ L.length := by simpa using h
      rw [apply_to_all_impl, ih N _ h2]
      simp [size_before, sum_size, Nat.add_assoc]

theorem kSizeCoeff_eq (L : type_list) (i : Nat) (h : i ≤ L.length) :
    kSizeCoeff L i = size_before L i := by
  have := apply_to_all_impl_sum L i 0 h
  simp only [kSizeCoeff, apply_to_all_t]
  rw [show sum_size.initial = 0 from rfl, this]
  simp

theorem apply_to_all_impl_all {S : Type} (f : S → FieldType → S) (L : type_list) : ∀ s : S,
    apply_to_all_impl f L.length s L = some (L.foldl f s) := by
  induction L with
  | nil => intro s; simp [apply_to_all_impl]
  | cons T L ih => intro s; simp [apply_to_all_impl, ih]

theorem type_list_element_eq (L : type_list) : ∀ i, type_list_element i L = L.get? i := by
  induction L with
  | nil => intro i; simp [type_list_element]
  | cons T L ih =>
    intro i
    cases i with
    | zero => simp [type_list_element]
    | succ i => simp [type_list_element, ih]

theorem sizeof_element_pos (L : type_list) (i : Nat) (h : i < L.length) :
    0 < sizeof_element L i := by
  simp only [sizeof_element, type_list_element_eq]
  rw [List.get?_eq_get h]
  exact (L.get ⟨i, h⟩).sizeof_pos

theorem size_before_succ (L : type_list) (i : Nat) (h : i < L.length) :
    size_before L (i + 1) = size_before L i + sizeof_element L i := by
  simp only [size_before, sizeof_element, type_list_element_eq]
  rw [List.get?_eq_get h, List.take_succ, List.getElem?_eq_getElem h, List.map_append,
    List.sum_append]
  simp [List.get_eq_getElem]

theorem size_before_mono (L : type_list) (i j : Nat) (h : i ≤ j) :
    size_before L i ≤ size_before L j := by
  obtain ⟨k, rfl⟩ := Nat.exists_eq_add_of_le h
  simp only [size_before]
  rw [List.take_add, List.map_append, List.sum_append]
  omega

theorem size_before_next_le (L : type_list) (i j : Nat) (hj : j ≤ L.length) (h : i < j) :
    size_before L i + sizeof_element L i ≤ size_before L j := by
  rw [← size_before_succ L i (by omega)]
  exact size_before_mono L _ _ h

/-! ## adjust_capacity -/

theorem foldl_max_align_lt (L : type_list) : ∀ s, s < size_t_mod →
    L.foldl max_align.type s < size_t_mod := by
  induction L with
  | nil => intro s h; simpa using h
  | cons T L ih =>
    intro s h
    simp only [List.foldl_cons]
    apply ih
    simp only [max_align]
    split
    · exact h
    · exact T.alignof_lt

theorem kMaxAlign_lt (L : type_list) : kMaxAlign L < size_t_mod := by
  simp only [kMaxAlign, apply_to_all_t, type_list.size, apply_to_all_impl_all, Option.getD_some]
  exact foldl_max_align_lt L _ (by decide)

theorem kMinIncrement_pos (L : type_list) (hL : adjust_capacity_static_asserts L) :
    0 < kMinIncrement L := by
  obtain ⟨h1, _⟩ := hL
  unfold kMinIncrement
  split
  · next hpos =>
    have hdvd : kMinAlign L ∣ kMaxAlign L := Nat.dvd_of_mod_eq_zero h1
    have hle : kMinAlign L ≤ kMaxAlign L := Nat.le_of_dvd hpos hdvd
    have hmin : 0 < kMinAlign L := by
      rcases Nat.eq_zero_or_pos (kMinAlign L) with h0 | h0
      · rw [h0] at hdvd; have := Nat.eq_zero_of_zero_dvd hdvd; omega
      · exact h0
    exact Nat.div_pos hle hmin
  · decide

theorem kMinIncrement_lt (L : type_list) : kMinIncrement L < size_t_mod := by
  unfold kMinIncrement
  split
  · exact lt_of_le_of_lt (Nat.div_le_self _ _) (kMaxAlign_lt L)
  · decide

theorem kMinIncrement_pow (L : type_list) (hL : adjust_capacity_static_asserts L) :
    ∃ d, d < 64 ∧ kMinIncrement L = 2 ^ d := by
  obtain ⟨d, hd⟩ := pow_two_of_and_pred _ (Nat.pos_iff_ne_zero.mp (kMinIncrement_pos L hL)) hL.2
  refine ⟨d, ?_, hd⟩
  have h := kMinIncrement_lt L
  rw [hd] at h
  exact (Nat.pow_lt_pow_iff_right (by decide : 1 < 2)).mp h

/-- Rounding up in `adjust_capacity`, before the conversion to `size_type`. -/
theorem adjust_capacity_eq (L : type_list) (hL : adjust_capacity_static_asserts L) (r : Nat)
    (hr : r < size_type_mod) :
    adjust_capacity L r =
      ((r + kMinIncrement L - 1) / kMinIncrement L * kMinIncrement L) % size_type_mod := by
  obtain ⟨d, hd, hinc⟩ := kMinIncrement_pow L hL
  have hpos : 0 < 2 ^ d := Nat.two_pow_pos d
  have hle : 2 ^ d ≤ 2 ^ 63 := Nat.pow_le_pow_right (by decide) (by omega)
  have h63 : (2:Nat) ^ 63 = 9223372036854775808 := by norm_num
  have hx : r + 2 ^ d - 1 < 2 ^ 64 := by
    have : (2:Nat) ^ 64 = 18446744073709551616 := by norm_num
    simp only [size_type_mod] at hr
    omega
  unfold adjust_capacity
  rw [hinc]
  have hm : size_t_mod = 2 ^ 64 := by norm_num [size_t_mod]
  rw [hm, Nat.mod_eq_of_lt hx, Nat.mod_eq_of_lt (by omega : 2 ^ d - 1 < 2 ^ 64),
    and_not_mask _ d (by omega) hx]
  congr 1
  have := Nat.div_add_mod (r + 2 ^ d - 1) (2 ^ d)
  rw [Nat.mul_comm] at this
  omega

theorem adjust_capacity_bounds (L : type_list) (hL : adjust_capacity_static_asserts L) (r : Nat)
    (hr : r + kMinIncrement L - 1 < size_type_mod) :
    r ≤ adjust_capacity L r ∧ adjust_capacity L r < r + kMinIncrement L ∧
      adjust_capacity L r < size_type_mod ∧ kMinIncrement L ∣ adjust_capacity L r := by
  have hpos := kMinIncrement_pos L hL
  have hr2 : r < size_type_mod := by omega
  rw [adjust_capacity_eq L hL r hr2]
  have h1 := Nat.div_add_mod (r + kMinIncrement L - 1) (kMinIncrement L)
  have h2 := Nat.mod_lt (r + kMinIncrement L - 1) hpos
  rw [Nat.mul_comm] at h1
  have h3 : (r + kMinIncrement L - 1) / kMinIncrement L * kMinIncrement L < size_type_mod := by
    omega
  rw [Nat.mod_eq_of_lt h3]
  refine ⟨by omega, by omega, h3, Dvd.intro_left _ rfl⟩

/-! ## Loops -/

theorem for_loop_zero {σ : Type} (body : Nat → σ → σ) (s : σ) : for_loop 0 body s = s := rfl

theorem for_loop_succ {σ : Type} (n : Nat) (body : Nat → σ → σ) (s : σ) :
    for_loop (n + 1) body s = body n (for_loop n body s) := by
  simp [for_loop, List.range_succ]

theorem seq_call_eq_for_loop {σ : Type} (f : Nat → σ → σ) : ∀ (k I : Nat) (s : σ),
    seq_call f k I s = for_loop k (fun j => f (I + j)) s := by
  intro k
  induction k with
  | zero => intro I s; rfl
  | succ k ih =>
    intro I s
    rw [seq_call, ih]
    simp only [for_loop, List.range_succ_eq_map, List.foldl_cons, List.foldl_map]
    congr 1
    funext s j
    congr 1
    omega

theorem for_each_slice_eq {σ : Type} (L : type_list) (f : Nat → σ → σ) (s : σ) :
    for_each_slice L f s = for_loop L.length f s := by
  simp [for_each_slice, type_list.size, seq_call_eq_for_loop]

/-- A loop whose pointer is decremented once per iteration: the pointer can be computed from
the iteration number. -/
theorem for_loop_ptr {μ : Type} (step : μ → Pointer → μ) : ∀ (n : Nat) (m : μ) (p : Pointer),
    for_loop n (fun _ (s : μ × Pointer) => (step s.1 s.2, s.2.sub 1)) (m, p) =
      (for_loop n (fun i m => step m (p.sub i)) m, p.sub n) := by
  intro n
  induction n with
  | zero => intro m p; simp [for_loop_zero, Pointer.sub]
  | succ n ih =>
    intro m p
    rw [for_loop_succ, ih, for_loop_succ]
    simp only [Pointer.sub, Prod.mk.injEq, Pointer.mk.injEq, true_and, and_true]
    push_cast
    omega

/-- The same for two memories and two pointers. -/
theorem for_loop_ptr2 {μ : Type} (step : μ → Pointer → Pointer → μ) :
    ∀ (n : Nat) (m : μ) (p q : Pointer),
    for_loop n (fun _ (s : μ × (Pointer × Pointer)) =>
        (step s.1 s.2.1 s.2.2, (s.2.1.sub 1, s.2.2.sub 1))) (m, (p, q)) =
      (for_loop n (fun i m => step m (p.sub i) (q.sub i)) m, (p.sub n, q.sub n)) := by
  intro n
  induction n with
  | zero => intro m p q; simp [for_loop_zero, Pointer.sub]
  | succ n ih =>
    intro m p q
    rw [for_loop_succ, ih, for_loop_succ]
    simp only [Pointer.sub, Prod.mk.injEq, Pointer.mk.injEq, true_and, and_true]
    push_cast
    constructor <;> omega

/-- Slices are processed one after the other; when the functor of slice `j` leaves everything
slice `i` depends on alone, and the functor of slice `i` respects that dependence, slice `i`
ends up as if only its own functor had run. -/
theorem for_loop_local {σ : Type} (E : σ → σ → Prop) (hrefl : ∀ s, E s s)
    (htrans : ∀ a b c, E a b → E b c → E a c)
    (f : Nat → σ → σ) (i N : Nat)
    (hframe : ∀ j s, j < N → j ≠ i → E (f j s) s)
    (hlocal : ∀ s t, E s t → E (f i s) (f i t)) (s : σ) :
    ∀ n, n ≤ N → (n ≤ i → E (for_loop n f s) s) ∧ (i < n → E (for_loop n f s) (f i s)) := by
  intro n
  induction n with
  | zero => exact fun _ => ⟨fun _ => hrefl _, fun h => absurd h (Nat.not_lt_zero _)⟩
  | succ n ih =>
    intro hn
    have ih := ih (by omega)
    rw [for_loop_succ]
    constructor
    · intro h
      exact htrans _ _ _ (hframe n _ (by omega) (by omega)) (ih.1 (by omega))
    · intro h
      by_cases hn : n = i
      · subst hn
        exact hlocal _ _ (ih.1 (le_refl _))
      · exact htrans _ _ _ (hframe n _ (by omega) hn) (ih.2 (by omega))

/-- What `for_each_slice` leaves in the storage slice `i` depends on. -/
theorem for_each_slice_local {σ : Type} (L : type_list) (E : σ → σ → Prop) (hrefl : ∀ s, E s s)
    (htrans : ∀ a b c, E a b → E b c → E a c)
    (f : Nat → σ → σ) (i : Nat) (hi : i < L.length)
    (hframe : ∀ j s, j < L.length → j ≠ i → E (f j s) s)
    (hlocal : ∀ s t, E s t → E (f i s) (f i t)) (s : σ) :
    E (for_each_slice L f s) (f i s) := by
  rw [for_each_slice_eq]
  exact (for_loop_local E hrefl htrans f i L.length hframe hlocal s L.length (le_refl _)).2 hi

/-! ## Addresses -/

theorem cell_addr_eq (L : type_list) (cap i k : Nat) :
    cell_addr L cap i k = (cap : Int) * (kSizeCoeff L i : Int) + (k : Int) * (sizeof_element L i : Int) := by
  simp [cell_addr, slice_start, Pointer.add, Pointer.addr]

theorem addr_eq_cell_addr (L : type_list) (cap i : Nat) (p : Pointer) (k : Nat)
    (hb : p.base = (cap : Int) * (kSizeCoeff L i : Int)) (hs : p.stride = sizeof_element L i)
    (hi : p.index = k) : p.addr = cell_addr L cap i k := by
  simp [cell_addr_eq, Pointer.addr, hb, hs, hi]

theorem cell_addr_inj (L : type_list) (cap i : Nat) (hi : i < L.length) (k l : Nat)
    (h : cell_addr L cap i k = cell_addr L cap i l) : k = l := by
  simp only [cell_addr_eq, add_right_inj] at h
  have hpos := sizeof_element_pos L i hi
  have h2 : k * sizeof_element L i = l * sizeof_element L i := by exact_mod_cast h
  exact Nat.eq_of_mul_eq_mul_right hpos h2

theorem cell_addr_lt (L : type_list) (cap i j : Nat) (hj : j ≤ L.length) (hij : i < j)
    (k l : Nat) (hk : k < cap) :
    cell_addr L cap i k < cell_addr L cap j l := by
  simp only [cell_addr_eq]
  rw [kSizeCoeff_eq L i (by omega), kSizeCoeff_eq L j hj]
  have h1 := size_before_next_le L i j hj hij
  have hpos := sizeof_element_pos L i (by omega)
  have h2 : k * sizeof_element L i < cap * sizeof_element L i :=
    Nat.mul_lt_mul_of_pos_right hk hpos
  have h3 : cap * (size_before L i + sizeof_element L i) ≤ cap * size_before L j :=
    Nat.mul_le_mul_left _ h1
  have h4 : cap * size_before L i + k * sizeof_element L i < cap * size_before L j := by
    rw [Nat.mul_add] at h3; omega
  have h5 : (0 : Int) ≤ (l : Int) * (sizeof_element L j : Int) := by positivity
  have h6 : ((cap * size_before L i + k * sizeof_element L i : Nat) : Int) <
      ((cap * size_before L j : Nat) : Int) := by exact_mod_cast h4
  push_cast at h6
  omega

theorem cell_addr_ne (L : type_list) (cap i j : Nat) (hi : i < L.length) (hj : j < L.length)
    (hij : i ≠ j) (k l : Nat) (hk : k < cap) (hl : l < cap) :
    cell_addr L cap i k ≠ cell_addr L cap j l := by
  rcases Nat.lt_or_gt_of_ne hij with h | h
  · exact ne_of_lt (cell_addr_lt L cap i j (by omega) h k l hk)
  · exact ne_of_gt (cell_addr_lt L cap j i (by omega) h l k hl)

theorem agree_on_refl {α : Type} (L : type_list) (cap i : Nat) (m : Memory α) :
    agree_on L cap i m m := fun _ _ => rfl

theorem agree_on_trans {α : Type} (L : type_list) (cap i : Nat) (a b c : Memory α)
    (h1 : agree_on L cap i a b) (h2 : agree_on L cap i b c) : agree_on L cap i a c :=
  fun k hk => (h1 k hk).trans (h2 k hk)

/-! ## Slices as lists -/

theorem valid_size_lt {α : Type} (c : parallel_vector_impl α) (hv : c.valid) :
    c.mSize < size_t_mod := by
  obtain ⟨h1, h2⟩ := hv
  simp only [size_type_mod, size_t_mod] at *
  omega


theorem length_slice_elements {α : Type} (L : type_list) (c : parallel_vector_impl α) (i : Nat)
    (h : c.mSize < size_t_mod) : (slice_elements L c i).length = c.mSize := by
  simp only [slice_elements, array_view.elements, List.length_map, List.length_range,
    array_view.size, slice, make_array_view, Pointer.add, add_sub_cancel_left]
  rw [Int.emod_eq_of_lt (by positivity) (by exact_mod_cast h)]
  simp

theorem slice_elements_eq {α : Type} (L : type_list) (c : parallel_vector_impl α) (i : Nat)
    (h : c.mSize < size_t_mod) :
    slice_elements L c i = (List.range c.mSize).map (fun k => cell L c i k) := by
  have hl := length_slice_elements L c i h
  simp only [slice_elements, array_view.elements, List.length_map, List.length_range] at hl
  simp only [slice_elements, array_view.elements, hl]
  rfl

theorem getElem_slice_elements {α : Type} (L : type_list) (c : parallel_vector_impl α) (i : Nat)
    (h : c.mSize < size_t_mod) (k : Nat) (hk : k < (slice_elements L c i).length) :
    (slice_elements L c i)[k] = cell L c i k := by
  simp [slice_elements_eq L c i h]

theorem slice_elements_ext {α : Type} (L : type_list) (c : parallel_vector_impl α) (i : Nat)
    (h : c.mSize < size_t_mod) (l : List (Option α)) (hl : l.length = c.mSize)
    (hcell : ∀ k (hk : k < l.length), cell L c i k = l[k]) : slice_elements L c i = l := by
  apply List.ext_getElem
  · rw [length_slice_elements L c i h, hl]
  · intro k h1 h2
    rw [getElem_slice_elements L c i h k h1]
    exact hcell k h2

theorem slice_elements_congr {α : Type} (L : type_list) (c r : parallel_vector_impl α)
    (hc : c.valid) (hsize : r.mSize = c.mSize) (i : Nat)
    (h : ∀ k, k < c.mSize → cell L r i k = cell L c i k) :
    slice_elements L r i = slice_elements L c i := by
  have hs := valid_size_lt c hc
  have hlen := length_slice_elements L c i hs
  apply slice_elements_ext L _ i (by rw [hsize]; exact hs)
  · rw [hlen, hsize]
  · intro k hk
    rw [getElem_slice_elements L c i hs, h k (by rw [← hlen]; exact hk)]

theorem slice_size {α : Type} (L : type_list) (c : parallel_vector_impl α) (hv : c.valid)
    (Index : Nat) : (slice L c Index).size = c.size := by
  have h := valid_size_lt c hv
  simp only [array_view.size, slice, make_array_view, Pointer.add, add_sub_cancel_left,
    parallel_vector_impl.size]
  rw [Int.emod_eq_of_lt (by positivity) (by exact_mod_cast h)]
  simp

theorem insert_slice_elements {α : Type} (L : type_list) (A B A' : parallel_vector_impl α)
    (ip b e : Nat) (hA : A.valid) (hB : B.valid) (hA' : A'.valid) (hip : ip ≤ A.mSize)
    (hbe : b ≤ e) (he : e ≤ B.mSize) (hsize : A'.mSize = A.mSize + (e - b))
    (i : Nat)
    (h1 : ∀ k, k < ip → cell L A' i k = cell L A i k)
    (h2 : ∀ k, ip ≤ k → k < ip + (e - b) → cell L A' i k = cell L B i (b + (k - ip)))
    (h3 : ∀ k, ip + (e - b) ≤ k → k < A.mSize + (e - b) →
      cell L A' i k = cell L A i (k - (e - b))) :
    slice_elements L A' i =
      (slice_elements L A i).take ip ++ ((slice_elements L B i).drop b).take (e - b) ++
        (slice_elements L A i).drop ip := by
  have hsA := valid_size_lt A hA
  have hsB := valid_size_lt B hB
  have hsA' := valid_size_lt A' hA'
  have hlA := length_slice_elements L A i hsA
  have hlB := length_slice_elements L B i hsB
  have hl1 : ((slice_elements L A i).take ip).length = ip := by
    rw [List.length_take, hlA]; omega
  have hl2 : (((slice_elements L B i).drop b).take (e - b)).length = e - b := by
    rw [List.length_take, List.length_drop, hlB]; omega
  have hl3 : ((slice_elements L A i).drop ip).length = A.mSize - ip := by
    rw [List.length_drop, hlA]
  apply slice_elements_ext L _ i hsA'
  · rw [List.length_append, List.length_append, hl1, hl2, hl3, hsize]; omega
  · intro k hk
    rw [List.length_append, List.length_append, hl1, hl2, hl3] at hk
    by_cases hk1 : k < ip
    · rw [List.getElem_append_left (by rw [List.length_append, hl1, hl2]; omega),
        List.getElem_append_left (by rw [hl1]; exact hk1), List.getElem_take,
        getElem_slice_elements L A i hsA, h1 k hk1]
    · by_cases hk2 : k < ip + (e - b)
      · rw [List.getElem_append_left (by rw [List.length_append, hl1, hl2]; omega),
          List.getElem_append_right (by rw [hl1]; omega), List.getElem_take,
          List.getElem_drop, getElem_slice_elements L B i hsB, h2 k (by omega) hk2]
        congr 1
        rw [hl1]
      · rw [List.getElem_append_right (by rw [List.length_append, hl1, hl2]; omega),
          List.getElem_drop, getElem_slice_elements L A i hsA, h3 k (by omega) (by omega)]
        congr 1
        rw [List.length_append, hl1, hl2]
        omega


theorem removed_slice_elements {α : Type} (L : type_list) (B B' : parallel_vector_impl α)
    (b e : Nat) (hB : B.valid) (hbe : b ≤ e) (he : e ≤ B.mSize)
    (hsize : B'.mSize = B.mSize - (e - b)) (i : Nat)
    (h1 : ∀ k, k < b → cell L B' i k = cell L B i k)
    (h2 : ∀ k, b ≤ k → k < B.mSize - (e - b) → cell L B' i k = cell L B i (k + (e - b))) :
    slice_elements L B' i = (slice_elements L B i).take b ++ (slice_elements L B i).drop e := by
  have hs := valid_size_lt B hB
  have hlen := length_slice_elements L B i hs
  have hs2 : B'.mSize < size_t_mod := by rw [hsize]; omega
  apply slice_elements_ext L _ i hs2
  · rw [List.length_append, List.length_take, List.length_drop, hlen, hsize]; omega
  · intro k hk
    rw [List.length_append, List.length_take, List.length_drop, hlen] at hk
    by_cases hkb : k < b
    · rw [List.getElem_append_left (by rw [List.length_take, hlen]; omega), List.getElem_take,
        getElem_slice_elements L B i hs, h1 k hkb]
    · rw [List.getElem_append_right (by rw [List.length_take, hlen]; omega), List.getElem_drop,
        getElem_slice_elements L B i hs, h2 k (by omega) (by omega)]
      congr 1
      rw [List.length_take, hlen]
      omega

theorem slice_elements_push {α : Type} (L : type_list) (c r : parallel_vector_impl α)
    (hc : c.valid) (hr : r.mSize < size_t_mod) (hsize : r.mSize = c.mSize + 1) (i : Nat)
    (v : Option α) (h1 : cell L r i c.mSize = v)
    (h2 : ∀ k, k < c.mSize → cell L r i k = cell L c i k) :
    slice_elements L r i = slice_elements L c i ++ [v] := by
  have hs := valid_size_lt c hc
  have hlen := length_slice_elements L c i hs
  apply slice_elements_ext L _ i hr
  · rw [List.length_append, hlen, hsize]; rfl
  · intro k hk
    rw [List.length_append, hlen] at hk
    by_cases hk1 : k < c.mSize
    · rw [List.getElem_append_left (by rw [hlen]; exact hk1), getElem_slice_elements L c i hs,
        h2 k hk1]
    · have hk2 : k = c.mSize := by simp at hk; omega
      subst hk2
      rw [List.getElem_append_right (by rw [hlen]), h1]
      simp [hlen]

/-! ## Loops and pointers, continued -/


theorem for_loop_congr {σ : Type} (f g : Nat → σ → σ) (s : σ) :
    ∀ n, (∀ t, t < n → ∀ s, f t s = g t s) → for_loop n f s = for_loop n g s := by
  intro n
  induction n with
  | zero => intro _; rfl
  | succ n ih =>
    intro h
    rw [for_loop_succ, for_loop_succ, ih (fun t ht => h t (by omega)), h n (by omega)]

theorem for_loop_congr2 {σ : Type} (f g : Nat → σ → σ) (s s' : σ) (n : Nat) (hs : s = s')
    (h : ∀ t, t < n → ∀ s, f t s = g t s) : for_loop n f s = for_loop n g s' := by
  rw [hs]; exact for_loop_congr f g s' n h

theorem for_loop_add {σ : Type} (f : Nat → σ → σ) (a : Nat) (s : σ) :
    ∀ b, for_loop b (fun t => f (a + t)) (for_loop a f s) = for_loop (a + b) f s := by
  intro b
  induction b with
  | zero => rfl
  | succ b ih => rw [for_loop_succ, ih, ← Nat.add_assoc, for_loop_succ]

theorem Pointer.sub_sub (p : Pointer) (a b : Nat) :
    (p.sub (a : Int)).sub (b : Int) = p.sub ((a + b : Nat) : Int) := by
  simp only [Pointer.sub, Pointer.mk.injEq, true_and]; push_cast; omega

theorem ptr_addr_ne (p : Pointer) (hs : 0 < p.stride) (n : Nat) (hn : 0 < n) :
    p.addr ≠ (p.sub n).addr := by
  simp only [Pointer.addr, Pointer.sub]
  intro h
  have h1 : (0 : Int) < (n : Int) * (p.stride : Int) := by positivity
  have h2 : (p.index - (n : Int)) * (p.stride : Int) =
      p.index * (p.stride : Int) - (n : Int) * (p.stride : Int) := by ring
  rw [h2] at h
  omega

theorem size_type_sub_eq (a b : Nat) (hb : b ≤ a) (ha : a < size_type_mod) :
    size_type_sub a b = a - b := by
  simp only [size_type_sub, size_type_mod] at *
  omega

theorem size_type_add_eq (a b : Nat) (h : a + b < size_type_mod) : size_type_add a b = a + b := by
  simp only [size_type_add]; exact Nat.mod_eq_of_lt h

/-! ## Alignment and slice ranges -/

theorem foldl_min_align_pow (rest : List FieldType)
    (hpow : ∀ T, T ∈ rest → ∃ k, T.alignof = 2 ^ k) :
    ∀ p, ∃ a, rest.foldl min_align.type (2 ^ p) = 2 ^ a ∧ a ≤ p ∧
      ∀ T, T ∈ rest → 2 ^ a ∣ T.alignof := by
  induction rest with
  | nil => intro p; exact ⟨p, rfl, le_refl _, fun T hT => absurd hT (List.not_mem_nil _)⟩
  | cons T rest ih =>
    intro p
    obtain ⟨k, hk⟩ := hpow T (List.mem_cons_self _ _)
    have hstep : min_align.type (2 ^ p) T = 2 ^ (min p k) := by
      simp only [min_align, hk]
      by_cases h : p < k
      · rw [if_pos (Nat.pow_lt_pow_right (by decide) h), Nat.min_eq_left (by omega)]
      · rw [if_neg (by
          intro h'
          exact h ((Nat.pow_lt_pow_iff_right (by decide : 1 < 2)).mp h')),
          Nat.min_eq_right (by omega)]
    obtain ⟨a, ha1, ha2, ha3⟩ := ih (fun U hU => hpow U (List.mem_cons_of_mem _ hU)) (min p k)
    refine ⟨a, by rw [List.foldl_cons, hstep, ha1], by omega, ?_⟩
    intro U hU
    rcases List.mem_cons.mp hU with h | h
    · rw [h, hk]; exact pow_dvd_pow 2 (by omega)
    · exact ha3 U h

theorem foldl_max_align_pow (rest : List FieldType)
    (hpow : ∀ T, T ∈ rest → ∃ k, T.alignof = 2 ^ k) :
    ∀ p, ∃ b, rest.foldl max_align.type (2 ^ p) = 2 ^ b ∧ p ≤ b ∧
      ∀ T, T ∈ rest → T.alignof ∣ 2 ^ b := by
  induction rest with
  | nil => intro p; exact ⟨p, rfl, le_refl _, fun T hT => absurd hT (List.not_mem_nil _)⟩
  | cons T rest ih =>
    intro p
    obtain ⟨k, hk⟩ := hpow T (List.mem_cons_self _ _)
    have hstep : max_align.type (2 ^ p) T = 2 ^ (max p k) := by
      simp only [max_align, hk]
      by_cases h : k < p
      · rw [if_pos (Nat.pow_lt_pow_right (by decide) h), Nat.max_eq_left (by omega)]
      · rw [if_neg (by
          intro h'
          exact h ((Nat.pow_lt_pow_iff_right (by decide : 1 < 2)).mp h')),
          Nat.max_eq_right (by omega)]
    obtain ⟨b, hb1, hb2, hb3⟩ := ih (fun U hU => hpow U (List.mem_cons_of_mem _ hU)) (max p k)
    refine ⟨b, by rw [List.foldl_cons, hstep, hb1], by omega, ?_⟩
    intro U hU
    rcases List.mem_cons.mp hU with h | h
    · rw [h, hk]; exact pow_dvd_pow 2 (by omega)
    · exact hb3 U h

/-- The extreme alignments of a non-empty list of power-of-two alignments. -/
theorem align_pow (L : type_list) (hne : L ≠ [])
    (hpow : ∀ T, T ∈ L → ∃ k, T.alignof = 2 ^ k) :
    ∃ a b, a ≤ b ∧ kMinAlign L = 2 ^ a ∧ kMaxAlign L = 2 ^ b ∧
      ∀ T, T ∈ L → 2 ^ a ∣ T.alignof ∧ T.alignof ∣ 2 ^ b := by
  cases L with
  | nil => exact absurd rfl hne
  | cons T rest =>
    obtain ⟨k, hk⟩ := hpow T (List.mem_cons_self _ _)
    have hlt := T.alignof_lt
    have h1 : min_align.type min_align.initial T = 2 ^ k := by
      simp only [min_align, hk]
      rw [if_neg (by rw [hk] at hlt; simp only [size_t_mod] at hlt ⊢; omega)]
    have h2 : max_align.type max_align.initial T = 2 ^ k := by
      simp only [max_align, hk]
      rw [if_neg (by omega)]
    obtain ⟨a, ha1, ha2, ha3⟩ :=
      foldl_min_align_pow rest (fun U hU => hpow U (List.mem_cons_of_mem _ hU)) k
    obtain ⟨b, hb1, hb2, hb3⟩ :=
      foldl_max_align_pow rest (fun U hU => hpow U (List.mem_cons_of_mem _ hU)) k
    refine ⟨a, b, by omega, ?_, ?_, ?_⟩
    · simp only [kMinAlign, apply_to_all_t, type_list.size, apply_to_all_impl_all,
        Option.getD_some, List.foldl_cons, h1, ha1]
    · simp only [kMaxAlign, apply_to_all_t, type_list.size, apply_to_all_impl_all,
        Option.getD_some, List.foldl_cons, h2, hb1]
    · intro U hU
      rcases List.mem_cons.mp hU with h | h
      · rw [h, hk]; exact ⟨pow_dvd_pow 2 ha2, pow_dvd_pow 2 hb2⟩
      · exact ⟨ha3 U h, hb3 U h⟩

theorem size_before_dvd (L : type_list) (m : Nat) (h : ∀ T, T ∈ L → m ∣ T.sizeof) (i : Nat) :
    m ∣ size_before L i := by
  unfold size_before
  apply List.dvd_sum
  intro x hx
  obtain ⟨T, hT, rfl⟩ := List.mem_map.mp hx
  exact h T (List.mem_of_mem_take hT)

theorem adjust_capacity_dvd (L : type_list) (hL : adjust_capacity_static_asserts L) (r : Nat)
    (hr : r < size_type_mod) : kMinIncrement L ∣ adjust_capacity L r := by
  obtain ⟨d, hd, hinc⟩ := kMinIncrement_pow L hL
  rw [adjust_capacity_eq L hL r hr, hinc]
  have hM : size_type_mod = 2 ^ 32 := by norm_num [size_type_mod]
  rw [hM]
  by_cases h : d ≤ 32
  · exact (Nat.dvd_mod_iff (pow_dvd_pow 2 h)).mpr (Dvd.intro_left _ rfl)
  · have h2 : (2 : Nat) ^ 32 ∣ (r + 2 ^ d - 1) / 2 ^ d * 2 ^ d :=
      Dvd.dvd.mul_left (pow_dvd_pow 2 (by omega)) _
    rw [Nat.mod_eq_zero_of_dvd h2]
    exact dvd_zero _

theorem static_asserts_of_pow (L : type_list) (hne : L ≠ [])
    (hpow : ∀ T, T ∈ L → ∃ k, T.alignof = 2 ^ k) :
    adjust_capacity_static_asserts L ∧
      ∃ a b, a ≤ b ∧ kMinIncrement L = 2 ^ (b - a) ∧
        ∀ T, T ∈ L → 2 ^ a ∣ T.alignof ∧ T.alignof ∣ 2 ^ b := by
  obtain ⟨a, b, hab, hmin, hmax, hall⟩ := align_pow L hne hpow
  have hinc : kMinIncrement L = 2 ^ (b - a) := by
    unfold kMinIncrement
    rw [hmax, hmin, if_pos (Nat.two_pow_pos b), Nat.pow_div hab (by decide)]
  refine ⟨⟨?_, ?_⟩, a, b, hab, hinc, hall⟩
  · rw [hmax, hmin]
    exact Nat.mod_eq_zero_of_dvd (pow_dvd_pow 2 hab)
  · rw [hinc, Nat.and_pow_two_sub_one_eq_mod, Nat.mod_self]

theorem slice_range_le (L : type_list) (capacity i j : Nat) (hj : j < L.length) (hij : i < j) :
    capacity * kSizeCoeff L i + capacity * sizeof_element L i ≤ capacity * kSizeCoeff L j := by
  rw [kSizeCoeff_eq L i (by omega), kSizeCoeff_eq L j (by omega), ← Nat.mul_add]
  exact Nat.mul_le_mul_left _ (size_before_next_le L i j (by omega) hij)

/-! ## The loops on the cells -/

namespace bare


theorem reserve_slice_spec {α : Type} (ops : ElementOps α) (L : type_list)
    (capOld capNew i : Nat) (hi : i < L.length) (st : Memory α × Memory α) (t : Nat) :
    (∀ k, k < t → (reserve_slice ops L t capOld capNew i st).2 (cell_addr L capNew i k) =
        st.1 (cell_addr L capOld i k)) ∧
    (∀ a, (∀ k, k < t → a ≠ cell_addr L capNew i k) →
        (reserve_slice ops L t capOld capNew i st).2 a = st.2 a) ∧
    (∀ k, k < t → (reserve_slice ops L t capOld capNew i st).1 (cell_addr L capOld i k) = none) ∧
    (∀ a, (∀ k, k < t → a ≠ cell_addr L capOld i k) →
        (reserve_slice ops L t capOld capNew i st).1 a = st.1 a) := by
  induction t with
  | zero =>
    simp [reserve_slice, for_loop_zero]
  | succ t ih =>
    obtain ⟨ih1, ih2, ih3, ih4⟩ := ih
    have hstep : reserve_slice ops L (t + 1) capOld capNew i st =
        (Function.update (reserve_slice ops L t capOld capNew i st).1 (cell_addr L capOld i t) none,
          Function.update (reserve_slice ops L t capOld capNew i st).2 (cell_addr L capNew i t)
            ((reserve_slice ops L t capOld capNew i st).1 (cell_addr L capOld i t))) := by
      simp only [reserve_slice, for_loop_succ, destroy, construct, pass_rvalue, cell_addr,
        Function.update_idem]
    have hread : (reserve_slice ops L t capOld capNew i st).1 (cell_addr L capOld i t) =
        st.1 (cell_addr L capOld i t) :=
      ih4 _ (fun k hk h => by have := cell_addr_inj L capOld i hi _ _ h; omega)
    rw [hstep]
    refine ⟨?_, ?_, ?_, ?_⟩
    · intro k hk
      simp only [Function.update_apply]
      split
      · next h => rw [cell_addr_inj L capNew i hi _ _ h, hread]
      · next h => exact ih1 k (by
          rcases Nat.lt_succ_iff_lt_or_eq.mp hk with h' | h'
          · exact h'
          · exact absurd (by rw [h']) h)
    · intro a ha
      simp only [Function.update_apply]
      rw [if_neg (ha t (by omega))]
      exact ih2 a (fun k hk => ha k (by omega))
    · intro k hk
      simp only [Function.update_apply]
      split
      · rfl
      · next h => exact ih3 k (by
          rcases Nat.lt_succ_iff_lt_or_eq.mp hk with h' | h'
          · exact h'
          · exact absurd (by rw [h']) h)
    · intro a ha
      simp only [Function.update_apply]
      rw [if_neg (ha t (by omega))]
      exact ih4 a (fun k hk => ha k (by omega))

theorem reserve_relocated {α : Type} (ops : ElementOps α) (L : type_list)
    (size capOld capNew : Nat) (h1 : size ≤ capOld) (h2 : size ≤ capNew)
    (old new : Memory α) (i : Nat) (hi : i < L.length) (k : Nat) (hk : k < size) :
    (for_each_slice L (reserve_slice ops L size capOld capNew) (old, new)).2
        (cell_addr L capNew i k) = old (cell_addr L capOld i k) := by
  have key := for_each_slice_local L
    (fun s t : Memory α × Memory α => agree_on L capOld i s.1 t.1 ∧ agree_on L capNew i s.2 t.2)
    (fun s => ⟨agree_on_refl _ _ _ _, agree_on_refl _ _ _ _⟩)
    (fun a b c h h' => ⟨agree_on_trans _ _ _ _ _ _ h.1 h'.1, agree_on_trans _ _ _ _ _ _ h.2 h'.2⟩)
    (reserve_slice ops L size capOld capNew) i hi ?_ ?_ (old, new)
  · rw [key.2 k (by omega)]
    exact (reserve_slice_spec ops L capOld capNew i hi (old, new) size).1 k hk
  · intro j s hj hne
    obtain ⟨_, s2, _, s4⟩ := reserve_slice_spec ops L capOld capNew j hj s size
    constructor
    · intro k hk
      exact s4 _ (fun k' hk' => cell_addr_ne L capOld i j hi hj (Ne.symm hne) k k' hk (by omega))
    · intro k hk
      exact s2 _ (fun k' hk' => cell_addr_ne L capNew i j hi hj (Ne.symm hne) k k' hk (by omega))
  · intro s t hst
    obtain ⟨s1, s2, s3, s4⟩ := reserve_slice_spec ops L capOld capNew i hi s size
    obtain ⟨t1, t2, t3, t4⟩ := reserve_slice_spec ops L capOld capNew i hi t size
    constructor
    · intro k hk
      by_cases hks : k < size
      · rw [s3 k hks, t3 k hks]
      · have hne : ∀ k', k' < size → cell_addr L capOld i k ≠ cell_addr L capOld i k' :=
          fun k' hk' h => by have := cell_addr_inj L capOld i hi _ _ h; omega
        rw [s4 _ hne, t4 _ hne]
        exact hst.1 k hk
    · intro k hk
      by_cases hks : k < size
      · rw [s1 k hks, t1 k hks]
        exact hst.1 k (by omega)
      · have hne : ∀ k', k' < size → cell_addr L capNew i k ≠ cell_addr L capNew i k' :=
          fun k' hk' h => by have := cell_addr_inj L capNew i hi _ _ h; omega
        rw [s2 _ hne, t2 _ hne]
        exact hst.2 k hk


theorem push_back_cells {α : Type} (L : type_list) (cap size : Nat) (hs : size < cap)
    (args : List α) (m : Memory α) (n : Nat) (hn : n ≤ L.length) :
    (∀ j, j < n → for_loop n (fun sliceIndex m =>
        construct m ((slice_start L sliceIndex cap).add size) (args.get? sliceIndex)) m
        (cell_addr L cap j size) = args.get? j) ∧
    (∀ a, (∀ j, j < n → a ≠ cell_addr L cap j size) → for_loop n (fun sliceIndex m =>
        construct m ((slice_start L sliceIndex cap).add size) (args.get? sliceIndex)) m a = m a) := by
  induction n with
  | zero => simp [for_loop_zero]
  | succ n ih =>
    obtain ⟨ih1, ih2⟩ := ih (by omega)
    rw [for_loop_succ]
    simp only [construct, Function.update_apply]
    have haddr : ((slice_start L n cap).add size).addr = cell_addr L cap n size := rfl
    rw [haddr]
    constructor
    · intro j hj
      split
      · next h =>
        by_cases hjn : j = n
        · rw [hjn]
        · exact absurd h (cell_addr_ne L cap j n (by omega) (by omega) hjn _ _ hs hs)
      · next h =>
        exact ih1 j (by
          rcases Nat.lt_succ_iff_lt_or_eq.mp hj with h' | h'
          · exact h'
          · exact absurd (by rw [h']) h)
    · intro a ha
      rw [if_neg (ha n (by omega))]
      exact ih2 a (fun j hj => ha j (by omega))


theorem move_assign_ne {α : Type} (ops : ElementOps α) (m : Memory α) (dst src : Pointer)
    (h : dst.addr ≠ src.addr) :
    move_assign ops m dst src =
      Function.update (Function.update m src.addr ((m src.addr).map ops.moved_from)) dst.addr
        (m src.addr) := by
  simp [move_assign, h, assign, pass_rvalue]

theorem move_construct_eq {α : Type} (ops : ElementOps α) (m : Memory α) (dst src : Pointer) :
    move_construct ops m dst src =
      Function.update (Function.update m src.addr ((m src.addr).map ops.moved_from)) dst.addr
        (m src.addr) := by
  simp [move_construct, construct, pass_rvalue]

/-- The first loop of `erase` for a non-empty range, after `t` iterations. -/
theorem erase_shift {α : Type} (ops : ElementOps α) (L : type_list) (cap i : Nat)
    (hi : i < L.length) (begin n : Nat) (hn : 0 < n) (m : Memory α) (t : Nat) :
    (∀ k, begin ≤ k → k < begin + t →
      for_loop t (fun j m => move_assign ops m (((slice_start L i cap).add begin).add j)
        ((((slice_start L i cap).add begin).add j).add n)) m (cell_addr L cap i k) =
        m (cell_addr L cap i (k + n))) ∧
    (∀ a, (∀ k, begin ≤ k → k < begin + t + n → a ≠ cell_addr L cap i k) →
      for_loop t (fun j m => move_assign ops m (((slice_start L i cap).add begin).add j)
        ((((slice_start L i cap).add begin).add j).add n)) m a = m a) := by
  induction t with
  | zero => exact ⟨fun k h1 h2 => by omega, fun a _ => rfl⟩
  | succ t ih =>
    obtain ⟨ih1, ih2⟩ := ih
    have hd : (((slice_start L i cap).add begin).add t).addr = cell_addr L cap i (begin + t) :=
      addr_eq_cell_addr L cap i _ _ rfl rfl (by simp [Pointer.add, slice_start])
    have hs : ((((slice_start L i cap).add begin).add t).add n).addr =
        cell_addr L cap i (begin + t + n) :=
      addr_eq_cell_addr L cap i _ _ rfl rfl (by simp [Pointer.add, slice_start])
    have hne : cell_addr L cap i (begin + t) ≠ cell_addr L cap i (begin + t + n) :=
      fun h => by have := cell_addr_inj L cap i hi _ _ h; omega
    rw [for_loop_succ, move_assign_ne ops _ _ _ (by rw [hd, hs]; exact hne), hd, hs]
    have hread := ih2 (cell_addr L cap i (begin + t + n))
      (fun k _ hk h => by have := cell_addr_inj L cap i hi _ _ h; omega)
    constructor
    · intro k hk1 hk2
      simp only [Function.update_apply]
      by_cases hk : k = begin + t
      · subst hk
        rw [if_pos rfl, hread]
      · rw [if_neg (fun h => hk (cell_addr_inj L cap i hi _ _ h)),
          if_neg (fun h => by have := cell_addr_inj L cap i hi _ _ h; omega)]
        exact ih1 k hk1 (by omega)
    · intro a ha
      simp only [Function.update_apply]
      rw [if_neg (ha _ (by omega) (by omega)), if_neg (ha _ (by omega) (by omega))]
      exact ih2 a (fun k hk1 hk2 => ha k hk1 (by omega))

/-- The second loop of `erase`, after `t` iterations. -/
theorem erase_destroy {α : Type} (L : type_list) (cap i : Nat) (hi : i < L.length)
    (first : Nat) (p : Pointer) (hp : ∀ j : Nat, (p.add j).addr = cell_addr L cap i (first + j))
    (m : Memory α) (t : Nat) :
    (∀ k, first ≤ k → k < first + t →
      for_loop t (fun j m => destroy m (p.add j)) m (cell_addr L cap i k) = none) ∧
    (∀ a, (∀ k, first ≤ k → k < first + t → a ≠ cell_addr L cap i k) →
      for_loop t (fun j m => destroy m (p.add j)) m a = m a) := by
  induction t with
  | zero => exact ⟨fun k h1 h2 => by omega, fun a _ => rfl⟩
  | succ t ih =>
    obtain ⟨ih1, ih2⟩ := ih
    rw [for_loop_succ]
    simp only [destroy, hp, Function.update_apply] at ih1 ih2 ⊢
    constructor
    · intro k hk1 hk2
      by_cases hk : k = first + t
      · subst hk
        rw [if_pos rfl]
      · rw [if_neg (fun h => hk (cell_addr_inj L cap i hi _ _ h))]
        exact ih1 k hk1 (by omega)
    · intro a ha
      rw [if_neg (ha _ (by omega) (by omega))]
      exact ih2 a (fun k hk1 hk2 => ha k hk1 (by omega))

theorem erase_slice_spec {α : Type} (ops : ElementOps α) (L : type_list) (size cap i : Nat)
    (hi : i < L.length) (begin n : Nat) (hn : 0 < n) (hbn : begin + n ≤ size) (m : Memory α) :
    (∀ k, begin ≤ k → k < size - n →
      erase_slice ops L size cap begin n i m (cell_addr L cap i k) =
        m (cell_addr L cap i (k + n))) ∧
    (∀ k, size - n ≤ k → k < size →
      erase_slice ops L size cap begin n i m (cell_addr L cap i k) = none) ∧
    (∀ a, (∀ k, begin ≤ k → k < size → a ≠ cell_addr L cap i k) →
      erase_slice ops L size cap begin n i m a = m a) := by
  have hc1 : ((((slice_start L i cap).add size).sub n).index
      - ((slice_start L i cap).add begin).index).toNat = size - n - begin := by
    simp only [Pointer.add, Pointer.sub, slice_start]; omega
  have hc2 : (((slice_start L i cap).add size).index
      - (((slice_start L i cap).add size).sub n).index).toNat = n := by
    simp only [Pointer.add, Pointer.sub, slice_start]; omega
  have hp : ∀ j : Nat, ((((slice_start L i cap).add size).sub n).add j).addr =
      cell_addr L cap i (size - n + j) := fun j =>
    addr_eq_cell_addr L cap i _ _ rfl rfl (by
      simp only [Pointer.add, Pointer.sub, slice_start]; push_cast; omega)
  obtain ⟨a1, a2⟩ := erase_shift ops L cap i hi begin n hn m (size - n - begin)
  obtain ⟨b1, b2⟩ := erase_destroy L cap i hi (size - n) _ hp
    (for_loop (size - n - begin) (fun j m =>
      move_assign ops m (((slice_start L i cap).add begin).add j)
        ((((slice_start L i cap).add begin).add j).add n)) m) n
  have hform : erase_slice ops L size cap begin n i m =
      for_loop n (fun j m => destroy m ((((slice_start L i cap).add size).sub n).add j))
        (for_loop (size - n - begin) (fun j m =>
          move_assign ops m (((slice_start L i cap).add begin).add j)
            ((((slice_start L i cap).add begin).add j).add n)) m) := by
    simp only [erase_slice, ptr_loop, hc1, hc2]
  rw [hform]
  refine ⟨?_, ?_, ?_⟩
  · intro k hk1 hk2
    rw [b2 _ (fun k' h1 h2 h => by have := cell_addr_inj L cap i hi _ _ h; omega)]
    exact a1 k hk1 (by omega)
  · intro k hk1 hk2
    exact b1 k hk1 (by omega)
  · intro a ha
    rw [b2 a (fun k h1 h2 => ha k (by omega) (by omega))]
    exact a2 a (fun k h1 h2 => ha k h1 (by omega))

theorem erase_cells {α : Type} (ops : ElementOps α) (L : type_list) (size cap : Nat)
    (hsc : size ≤ cap) (begin n : Nat) (hn : 0 < n) (hbn : begin + n ≤ size) (m : Memory α)
    (i : Nat) (hi : i < L.length) :
    (∀ k, k < begin →
      for_each_slice L (erase_slice ops L size cap begin n) m (cell_addr L cap i k) =
        m (cell_addr L cap i k)) ∧
    (∀ k, begin ≤ k → k < size - n →
      for_each_slice L (erase_slice ops L size cap begin n) m (cell_addr L cap i k) =
        m (cell_addr L cap i (k + n))) ∧
    (∀ k, size - n ≤ k → k < size →
      for_each_slice L (erase_slice ops L size cap begin n) m (cell_addr L cap i k) = none) := by
  have key := for_each_slice_local L (agree_on (α := α) L cap i) (agree_on_refl L cap i)
    (agree_on_trans L cap i) (erase_slice ops L size cap begin n) i hi ?_ ?_ m
  · obtain ⟨s1, s2, s3⟩ := erase_slice_spec ops L size cap i hi begin n hn hbn m
    refine ⟨?_, ?_, ?_⟩
    · intro k hk
      rw [key k (by omega)]
      exact s3 _ (fun k' h1 h2 h => by have := cell_addr_inj L cap i hi _ _ h; omega)
    · intro k hk1 hk2
      rw [key k (by omega)]
      exact s1 k hk1 hk2
    · intro k hk1 hk2
      rw [key k (by omega)]
      exact s2 k hk1 hk2
  · intro j s hj hne k hk
    exact (erase_slice_spec ops L size cap j hj begin n hn hbn s).2.2 _
      (fun k' h1 h2 => cell_addr_ne L cap i j hi hj (Ne.symm hne) k k' hk (by omega))
  · intro s t hst k hk
    obtain ⟨s1, s2, s3⟩ := erase_slice_spec ops L size cap i hi begin n hn hbn s
    obtain ⟨t1, t2, t3⟩ := erase_slice_spec ops L size cap i hi begin n hn hbn t
    by_cases h1 : begin ≤ k ∧ k < size
    · by_cases h2 : k < size - n
      · rw [s1 k h1.1 h2, t1 k h1.1 h2]
        exact hst _ (by omega)
      · rw [s2 k (by omega) h1.2, t2 k (by omega) h1.2]
    · have hne : ∀ k', begin ≤ k' → k' < size → cell_addr L cap i k ≠ cell_addr L cap i k' :=
        fun k' h2 h3 h => by have := cell_addr_inj L cap i hi _ _ h; omega
      rw [s3 _ hne, t3 _ hne]
      exact hst k hk

theorem pass_lvalue_residue {α : Type} : (pass_lvalue : TransformFunctor α) = residue_transform id := by
  funext o p
  simp [pass_lvalue, residue_transform]

theorem insert_slice_form {α : Type} (ops : ElementOps α) (L : type_list)
    (ρ : Option α → Option α) (self other : parallel_vector_impl α) (i : Nat)
    (hi : i < L.length) (size ip e n : Nat) (hn : 0 < n) (hip : ip ≤ size) (hen : n ≤ e)
    (st : Memory α × Memory α) :
    insert_slice ops L (residue_transform ρ) self other e n (size + n) (min (size - ip) n)
        (size - ip - min (size - ip) n) (n - min (size - ip) n) (min (size - ip) n) i st =
      for_loop n (fun t s => transfer_cell ρ s (cell_addr L self.mCapacity i (ip + n - 1 - t))
          (cell_addr L other.mCapacity i (e - 1 - t)))
        (for_loop (size - ip) (fun t m => move_cell ops m
            (cell_addr L self.mCapacity i (size + n - 1 - t))
            (cell_addr L self.mCapacity i (size - 1 - t))) st.1, st.2) := by
  have hstr : 0 < (slice_start L i self.mCapacity).stride := sizeof_element_pos L i hi
  generalize hmy : ((slice_start L i self.mCapacity).add ((size + n : Nat) : Int)).sub 1 = my
  generalize hth : (((slice L other i).begin).add (e : Int)).sub 1 = their
  have hmyaddr : ∀ t : Nat, t < size + n → (my.sub t).addr =
      cell_addr L self.mCapacity i (size + n - 1 - t) := fun t ht =>
    addr_eq_cell_addr L _ i _ _ (by rw [← hmy]; rfl) (by rw [← hmy]; rfl) (by
      rw [← hmy]; simp only [Pointer.add, Pointer.sub, slice_start]; omega)
  have hmyaddr2 : ∀ t : Nat, t < size - ip → ((my.sub t).sub n).addr =
      cell_addr L self.mCapacity i (size - 1 - t) := fun t ht =>
    addr_eq_cell_addr L _ i _ _ (by rw [← hmy]; rfl) (by rw [← hmy]; rfl) (by
      rw [← hmy]; simp only [Pointer.add, Pointer.sub, slice_start]; omega)
  have hthaddr : ∀ t : Nat, t < n → (their.sub t).addr =
      cell_addr L other.mCapacity i (e - 1 - t) := fun t ht =>
    addr_eq_cell_addr L _ i _ _ (by rw [← hth]; rfl) (by rw [← hth]; rfl) (by
      rw [← hth]
      simp only [Pointer.add, Pointer.sub, slice_start, slice, make_array_view, array_view.begin]
      omega)
  have hstrmy : ∀ t : Nat, 0 < (my.sub t).stride := fun t => by rw [← hmy]; exact hstr
  -- the two loops over the displaced elements
  have l1 := for_loop_ptr (fun (m : Memory α) p => move_construct ops m p (p.sub n))
    (min (size - ip) n) st.1 my
  have l2 := for_loop_ptr (fun (m : Memory α) p => move_assign ops m p (p.sub n))
    (size - ip - min (size - ip) n)
    (for_loop (min (size - ip) n) (fun t m => move_construct ops m (my.sub t) ((my.sub t).sub n))
      st.1) (my.sub (min (size - ip) n : Nat))
  have c1 : for_loop (min (size - ip) n)
      (fun t m => move_construct ops m (my.sub t) ((my.sub t).sub n)) st.1 =
      for_loop (min (size - ip) n) (fun t m => move_cell ops m
        (cell_addr L self.mCapacity i (size + n - 1 - t))
        (cell_addr L self.mCapacity i (size - 1 - t))) st.1 :=
    for_loop_congr _ _ _ _ (fun t ht m => by
      rw [move_construct_eq, hmyaddr t (by omega), hmyaddr2 t (by omega)]; rfl)
  have c2 : ∀ m0 : Memory α, for_loop (size - ip - min (size - ip) n)
      (fun t m => move_assign ops m ((my.sub (min (size - ip) n : Nat)).sub t)
        (((my.sub (min (size - ip) n : Nat)).sub t).sub n)) m0 =
      for_loop (size - ip - min (size - ip) n) (fun t m => move_cell ops m
        (cell_addr L self.mCapacity i (size + n - 1 - (min (size - ip) n + t)))
        (cell_addr L self.mCapacity i (size - 1 - (min (size - ip) n + t)))) m0 := fun m0 =>
    for_loop_congr _ _ _ _ (fun t ht m => by
      have e1 : (my.sub (min (size - ip) n : Nat)).sub t = my.sub ((min (size - ip) n + t : Nat)) := by
        simp only [Pointer.sub, Pointer.mk.injEq, true_and]; push_cast; omega
      rw [e1, move_assign_ne ops _ _ _ (ptr_addr_ne _ (hstrmy _) n hn),
        hmyaddr _ (by omega), hmyaddr2 _ (by omega)]; rfl)
  have l3 := for_loop_ptr2
    (fun (s : Memory α × Memory α) p q =>
      (construct s.1 p ((residue_transform ρ) s.2 q).1, ((residue_transform ρ) s.2 q).2))
  have l4 := for_loop_ptr2
    (fun (s : Memory α × Memory α) p q =>
      (assign s.1 p ((residue_transform ρ) s.2 q).1, ((residue_transform ρ) s.2 q).2))
  beta_reduce at l1 l2 l3 l4
  simp only [insert_slice]
  rw [hmy, hth, l1]
  rw [l2, l3]
  rw [l4]
  dsimp only
  have hA := for_loop_add (fun t (m : Memory α) => move_cell ops m
      (cell_addr L self.mCapacity i (size + n - 1 - t))
      (cell_addr L self.mCapacity i (size - 1 - t))) (min (size - ip) n) st.1
      (size - ip - min (size - ip) n)
  beta_reduce at hA
  rw [show min (size - ip) n + (size - ip - min (size - ip) n) = size - ip by omega] at hA
  have hB := for_loop_add (fun t (s : Memory α × Memory α) => transfer_cell ρ s
      (cell_addr L self.mCapacity i (ip + n - 1 - t))
      (cell_addr L other.mCapacity i (e - 1 - t))) (n - min (size - ip) n)
      (for_loop (size - ip) (fun t m => move_cell ops m
            (cell_addr L self.mCapacity i (size + n - 1 - t))
            (cell_addr L self.mCapacity i (size - 1 - t))) st.1, st.2) (min (size - ip) n)
  beta_reduce at hB
  rw [show n - min (size - ip) n + min (size - ip) n = n by omega] at hB
  rw [← hB]
  apply for_loop_congr2
  · apply for_loop_congr2
    · rw [c2, c1, hA]
    · intro t ht s
      simp only [construct, residue_transform, transfer_cell, Pointer.sub_sub]
      rw [hmyaddr (min (size - ip) n + (size - ip - min (size - ip) n) + t) (by omega),
        hthaddr t (by omega)]
      rw [show size + n - 1 - (min (size - ip) n + (size - ip - min (size - ip) n) + t) =
        ip + n - 1 - t by omega]
  · intro t ht s
    simp only [assign, residue_transform, transfer_cell, Pointer.sub_sub]
    rw [hmyaddr (min (size - ip) n + (size - ip - min (size - ip) n) + (n - min (size - ip) n) + t)
        (by omega),
      hthaddr (n - min (size - ip) n + t) (by omega)]
    rw [show size + n - 1 - (min (size - ip) n + (size - ip - min (size - ip) n) +
        (n - min (size - ip) n) + t) = ip + n - 1 - (n - min (size - ip) n + t) by omega]

/-- The displaced elements, after `t` of them were moved up by `n`. -/
theorem insert_shift {α : Type} (ops : ElementOps α) (L : type_list) (cap i : Nat)
    (hi : i < L.length) (size n : Nat) (hn : 0 < n) (m : Memory α) (t : Nat) (ht : t ≤ size) :
    (∀ k, size + n - t ≤ k → k < size + n →
      for_loop t (fun t m => move_cell ops m (cell_addr L cap i (size + n - 1 - t))
        (cell_addr L cap i (size - 1 - t))) m (cell_addr L cap i k) =
        m (cell_addr L cap i (k - n))) ∧
    (∀ a, (∀ k, size - t ≤ k → k < size + n → a ≠ cell_addr L cap i k) →
      for_loop t (fun t m => move_cell ops m (cell_addr L cap i (size + n - 1 - t))
        (cell_addr L cap i (size - 1 - t))) m a = m a) := by
  induction t with
  | zero => exact ⟨fun k h1 h2 => by omega, fun a _ => rfl⟩
  | succ t ih =>
    obtain ⟨ih1, ih2⟩ := ih (by omega)
    rw [for_loop_succ]
    have hread := ih2 (cell_addr L cap i (size - 1 - t))
      (fun k _ hk h => by have := cell_addr_inj L cap i hi _ _ h; omega)
    simp only [move_cell, Function.update_apply] at hread ih1 ih2 ⊢
    constructor
    · intro k hk1 hk2
      by_cases hk : k = size + n - 1 - t
      · subst hk
        rw [if_pos rfl, hread]
        congr 2
        omega
      · rw [if_neg (fun h => hk (cell_addr_inj L cap i hi _ _ h)),
          if_neg (fun h => by have := cell_addr_inj L cap i hi _ _ h; omega)]
        exact ih1 k (by omega) hk2
    · intro a ha
      rw [if_neg (ha _ (by omega) (by omega)), if_neg (ha _ (by omega) (by omega))]
      exact ih2 a (fun k hk1 hk2 => ha k (by omega) hk2)

/-- The inserted elements, after `t` of them were taken from the source. -/
theorem insert_transfer {α : Type} (ρ : Option α → Option α) (L : type_list)
    (cap capO i : Nat) (hi : i < L.length) (ip e n : Nat) (hen : n ≤ e)
    (s : Memory α × Memory α) (t : Nat) (ht : t ≤ n) :
    (∀ k, ip + n - t ≤ k → k < ip + n →
      (for_loop t (fun t s => transfer_cell ρ s (cell_addr L cap i (ip + n - 1 - t))
        (cell_addr L capO i (e - 1 - t))) s).1 (cell_addr L cap i k) =
        s.2 (cell_addr L capO i (k + e - (ip + n)))) ∧
    (∀ a, (∀ k, ip + n - t ≤ k → k < ip + n → a ≠ cell_addr L cap i k) →
      (for_loop t (fun t s => transfer_cell ρ s (cell_addr L cap i (ip + n - 1 - t))
        (cell_addr L capO i (e - 1 - t))) s).1 a = s.1 a) ∧
    (∀ k, e - t ≤ k → k < e →
      (for_loop t (fun t s => transfer_cell ρ s (cell_addr L cap i (ip + n - 1 - t))
        (cell_addr L capO i (e - 1 - t))) s).2 (cell_addr L capO i k) =
        ρ (s.2 (cell_addr L capO i k))) ∧
    (∀ a, (∀ k, e - t ≤ k → k < e → a ≠ cell_addr L capO i k) →
      (for_loop t (fun t s => transfer_cell ρ s (cell_addr L cap i (ip + n - 1 - t))
        (cell_addr L capO i (e - 1 - t))) s).2 a = s.2 a) := by
  induction t with
  | zero =>
    exact ⟨fun k h1 h2 => by omega, fun a _ => rfl, fun k h1 h2 => by omega, fun a _ => rfl⟩
  | succ t ih =>
    obtain ⟨ih1, ih2, ih3, ih4⟩ := ih (by omega)
    rw [for_loop_succ]
    have hread := ih4 (cell_addr L capO i (e - 1 - t))
      (fun k _ hk h => by have := cell_addr_inj L capO i hi _ _ h; omega)
    simp only [transfer_cell, Function.update_apply] at hread ih1 ih2 ih3 ih4 ⊢
    refine ⟨?_, ?_, ?_, ?_⟩
    · intro k hk1 hk2
      by_cases hk : k = ip + n - 1 - t
      · subst hk
        rw [if_pos rfl, hread, show ip + n - 1 - t + e - (ip + n) = e - 1 - t by omega]
      · rw [if_neg (fun h => hk (cell_addr_inj L cap i hi _ _ h))]
        exact ih1 k (by omega) hk2
    · intro a ha
      rw [if_neg (ha _ (by omega) (by omega))]
      exact ih2 a (fun k hk1 hk2 => ha k (by omega) hk2)
    · intro k hk1 hk2
      by_cases hk : k = e - 1 - t
      · subst hk
        rw [if_pos rfl, hread]
      · rw [if_neg (fun h => hk (cell_addr_inj L capO i hi _ _ h))]
        exact ih3 k (by omega) hk2
    · intro a ha
      rw [if_neg (ha _ (by omega) (by omega))]
      exact ih4 a (fun k hk1 hk2 => ha k (by omega) hk2)

theorem insert_slice_spec {α : Type} (ops : ElementOps α) (L : type_list)
    (ρ : Option α → Option α) (self other : parallel_vector_impl α) (i : Nat)
    (hi : i < L.length) (size ip e n : Nat) (hn : 0 < n) (hip : ip ≤ size) (hen : n ≤ e)
    (st : Memory α × Memory α) :
    (∀ k, ip ≤ k → k < ip + n →
      (insert_slice ops L (residue_transform ρ) self other e n (size + n) (min (size - ip) n)
        (size - ip - min (size - ip) n) (n - min (size - ip) n) (min (size - ip) n) i st).1
        (cell_addr L self.mCapacity i k) =
        st.2 (cell_addr L other.mCapacity i (k + e - (ip + n)))) ∧
    (∀ k, ip + n ≤ k → k < size + n →
      (insert_slice ops L (residue_transform ρ) self other e n (size + n) (min (size - ip) n)
        (size - ip - min (size - ip) n) (n - min (size - ip) n) (min (size - ip) n) i st).1
        (cell_addr L self.mCapacity i k) = st.1 (cell_addr L self.mCapacity i (k - n))) ∧
    (∀ a, (∀ k, ip ≤ k → k < size + n → a ≠ cell_addr L self.mCapacity i k) →
      (insert_slice ops L (residue_transform ρ) self other e n (size + n) (min (size - ip) n)
        (size - ip - min (size - ip) n) (n - min (size - ip) n) (min (size - ip) n) i st).1 a =
        st.1 a) ∧
    (∀ k, e - n ≤ k → k < e →
      (insert_slice ops L (residue_transform ρ) self other e n (size + n) (min (size - ip) n)
        (size - ip - min (size - ip) n) (n - min (size - ip) n) (min (size - ip) n) i st).2
        (cell_addr L other.mCapacity i k) = ρ (st.2 (cell_addr L other.mCapacity i k))) ∧
    (∀ a, (∀ k, e - n ≤ k → k < e → a ≠ cell_addr L other.mCapacity i k) →
      (insert_slice ops L (residue_transform ρ) self other e n (size + n) (min (size - ip) n)
        (size - ip - min (size - ip) n) (n - min (size - ip) n) (min (size - ip) n) i st).2 a =
        st.2 a) := by
  rw [insert_slice_form ops L ρ self other i hi size ip e n hn hip hen st]
  obtain ⟨a1, a2⟩ := insert_shift ops L self.mCapacity i hi size n hn st.1 (size - ip) (by omega)
  obtain ⟨b1, b2, b3, b4⟩ := insert_transfer ρ L self.mCapacity other.mCapacity i hi ip e n hen
    (for_loop (size - ip) (fun t m => move_cell ops m
      (cell_addr L self.mCapacity i (size + n - 1 - t))
      (cell_addr L self.mCapacity i (size - 1 - t))) st.1, st.2) n (le_refl _)
  refine ⟨?_, ?_, ?_, ?_, ?_⟩
  · intro k hk1 hk2
    exact b1 k (by omega) hk2
  · intro k hk1 hk2
    rw [b2 _ (fun k' h1 h2 h => by
      have := cell_addr_inj L self.mCapacity i hi _ _ h; omega)]
    exact a1 k (by omega) hk2
  · intro a ha
    rw [b2 a (fun k h1 h2 => ha k (by omega) (by omega))]
    exact a2 a (fun k h1 h2 => ha k (by omega) h2)
  · intro k hk1 hk2
    exact b3 k (by omega) hk2
  · intro a ha
    exact b4 a (fun k h1 h2 => ha k (by omega) h2)

theorem insert_cells {α : Type} (ops : ElementOps α) (L : type_list)
    (ρ : Option α → Option α) (self other : parallel_vector_impl α)
    (size ip e n : Nat) (hn : 0 < n) (hip : ip ≤ size) (hen : n ≤ e)
    (hcap : size + n ≤ self.mCapacity) (hcapO : e ≤ other.mCapacity)
    (st : Memory α × Memory α) (i : Nat) (hi : i < L.length) :
    (∀ k, k < ip → (insert_slices ops L ρ self other size ip e n st).1
        (cell_addr L self.mCapacity i k) = st.1 (cell_addr L self.mCapacity i k)) ∧
    (∀ k, ip ≤ k → k < ip + n → (insert_slices ops L ρ self other size ip e n st).1
        (cell_addr L self.mCapacity i k) =
        st.2 (cell_addr L other.mCapacity i (k + e - (ip + n)))) ∧
    (∀ k, ip + n ≤ k → k < size + n → (insert_slices ops L ρ self other size ip e n st).1
        (cell_addr L self.mCapacity i k) = st.1 (cell_addr L self.mCapacity i (k - n))) ∧
    (∀ k, e - n ≤ k → k < e → (insert_slices ops L ρ self other size ip e n st).2
        (cell_addr L other.mCapacity i k) = ρ (st.2 (cell_addr L other.mCapacity i k))) ∧
    (∀ k, k < other.mCapacity → ¬ (e - n ≤ k ∧ k < e) →
      (insert_slices ops L ρ self other size ip e n st).2
        (cell_addr L other.mCapacity i k) = st.2 (cell_addr L other.mCapacity i k)) := by
  have key := for_each_slice_local L
    (fun s t : Memory α × Memory α =>
      agree_on L self.mCapacity i s.1 t.1 ∧ agree_on L other.mCapacity i s.2 t.2)
    (fun s => ⟨agree_on_refl _ _ _ _, agree_on_refl _ _ _ _⟩)
    (fun a b c h h' => ⟨agree_on_trans _ _ _ _ _ _ h.1 h'.1, agree_on_trans _ _ _ _ _ _ h.2 h'.2⟩)
    (insert_slice ops L (residue_transform ρ) self other e n (size + n)
      (min (size - ip) n) (size - ip - min (size - ip) n) (n - min (size - ip) n)
      (min (size - ip) n)) i hi ?_ ?_ st
  · obtain ⟨s1, s2, s3, s4, s5⟩ :=
      insert_slice_spec ops L ρ self other i hi size ip e n hn hip hen st
    refine ⟨?_, ?_, ?_, ?_, ?_⟩
    · intro k hk
      rw [insert_slices, key.1 k (by omega)]
      exact s3 _ (fun k' h1 h2 h => by
        have := cell_addr_inj L self.mCapacity i hi _ _ h; omega)
    · intro k hk1 hk2
      rw [insert_slices, key.1 k (by omega)]
      exact s1 k hk1 hk2
    · intro k hk1 hk2
      rw [insert_slices, key.1 k (by omega)]
      exact s2 k hk1 hk2
    · intro k hk1 hk2
      rw [insert_slices, key.2 k (by omega)]
      exact s4 k hk1 hk2
    · intro k hk1 hk2
      rw [insert_slices, key.2 k hk1]
      exact s5 _ (fun k' h1 h2 h => by
        have := cell_addr_inj L other.mCapacity i hi _ _ h; omega)
  · intro j s hj hne
    obtain ⟨_, _, s3, _, s5⟩ :=
      insert_slice_spec ops L ρ self other j hj size ip e n hn hip hen s
    exact ⟨fun k hk => s3 _ (fun k' _ h2 =>
        cell_addr_ne L self.mCapacity i j hi hj (Ne.symm hne) k k' hk (by omega)),
      fun k hk => s5 _ (fun k' _ h2 =>
        cell_addr_ne L other.mCapacity i j hi hj (Ne.symm hne) k k' hk (by omega))⟩
  · intro s t hst
    obtain ⟨s1, s2, s3, s4, s5⟩ :=
      insert_slice_spec ops L ρ self other i hi size ip e n hn hip hen s
    obtain ⟨t1, t2, t3, t4, t5⟩ :=
      insert_slice_spec ops L ρ self other i hi size ip e n hn hip hen t
    constructor
    · intro k hk
      by_cases h1 : ip ≤ k ∧ k < size + n
      · by_cases h2 : k < ip + n
        · rw [s1 k h1.1 h2, t1 k h1.1 h2]
          exact hst.2 _ (by omega)
        · rw [s2 k (by omega) h1.2, t2 k (by omega) h1.2]
          exact hst.1 _ (by omega)
      · have hne : ∀ k', ip ≤ k' → k' < size + n →
            cell_addr L self.mCapacity i k ≠ cell_addr L self.mCapacity i k' :=
          fun k' h2 h3 h => by have := cell_addr_inj L self.mCapacity i hi _ _ h; omega
        rw [s3 _ hne, t3 _ hne]
        exact hst.1 k hk
    · intro k hk
      by_cases h1 : e - n ≤ k ∧ k < e
      · rw [s4 k h1.1 h1.2, t4 k h1.1 h1.2, hst.2 k hk]
      · have hne : ∀ k', e - n ≤ k' → k' < e →
            cell_addr L other.mCapacity i k ≠ cell_addr L other.mCapacity i k' :=
          fun k' h2 h3 h => by have := cell_addr_inj L other.mCapacity i hi _ _ h; omega
        rw [s5 _ hne, t5 _ hne]
        exact hst.2 k hk

/-- The copying functor never writes to the source. -/
theorem insert_slice_copy_snd {α : Type} (ops : ElementOps α) (L : type_list)
    (self other : parallel_vector_impl α) (e n newSize a b c d i : Nat)
    (st : Memory α × Memory α) :
    (insert_slice ops L pass_lvalue self other e n newSize a b c d i st).2 = st.2 := by
  have h : ∀ (f : Memory α → Pointer → Option α → Memory α) (k : Nat)
      (s : (Memory α × Memory α) × (Pointer × Pointer)),
      (for_loop k (fun _ (s : (Memory α × Memory α) × (Pointer × Pointer)) =>
        ((f s.1.1 s.2.1 (pass_lvalue s.1.2 s.2.2).1, (pass_lvalue s.1.2 s.2.2).2),
          (s.2.1.sub 1, s.2.2.sub 1))) s).1.2 = s.1.2 := by
    intro f k
    induction k with
    | zero => intro s; rfl
    | succ k ih => intro s; rw [for_loop_succ]; exact ih s
  simp only [insert_slice]
  rw [h assign, h construct]

end bare

/-! ## Blocks and their cells -/

/-- A map of the state commutes with a loop when it commutes with the body. -/
theorem for_loop_map {σ τ : Type} (φ : σ → τ) (f : Nat → σ → σ) (g : Nat → τ → τ)
    (h : ∀ t s, φ (f t s) = g t (φ s)) (s : σ) :
    ∀ n, φ (for_loop n f s) = for_loop n g (φ s) := by
  intro n
  induction n with
  | zero => rfl
  | succ n ih => rw [for_loop_succ, for_loop_succ, h, ih]

/-- An invariant of the iterations is an invariant of the loop. -/
theorem for_loop_inv {σ : Type} (P : Nat → σ → Prop) (f : Nat → σ → σ) (s : σ) (n : Nat)
    (h0 : P 0 s) (hstep : ∀ t, t < n → ∀ s, P t s → P (t + 1) (f t s)) :
    P n (for_loop n f s) := by
  induction n with
  | zero => exact h0
  | succ n ih =>
    rw [for_loop_succ]
    exact hstep n (by omega) _ (ih (fun t ht s hs => hstep t (by omega) s hs))

theorem for_each_slice_map {σ τ : Type} (L : type_list) (φ : σ → τ) (f : Nat → σ → σ)
    (g : Nat → τ → τ) (h : ∀ t s, φ (f t s) = g t (φ s)) (s : σ) :
    φ (for_each_slice L f s) = for_each_slice L g (φ s) := by
  rw [for_each_slice_eq, for_each_slice_eq]
  exact for_loop_map φ f g h s _

theorem for_each_slice_inv {σ : Type} (L : type_list) (P : σ → Prop) (f : Nat → σ → σ) (s : σ)
    (h0 : P s) (hstep : ∀ i, i < L.length → ∀ s, P s → P (f i s)) :
    P (for_each_slice L f s) := by
  rw [for_each_slice_eq]
  exact for_loop_inv (fun _ => P) f s _ h0 hstep

theorem move_assign_cells {α : Type} (ops : ElementOps α) (b : Block α) (dst src : Pointer) :
    (move_assign ops b dst src).cells = bare.move_assign ops b.cells dst src := by
  unfold move_assign bare.move_assign
  split <;> rfl

theorem reserve_slice_cells {α : Type} (ops : ElementOps α) (L : type_list)
    (size capOld capNew i : Nat) (st : Block α × Block α) :
    cells2 (reserve_slice ops L size capOld capNew i st) =
      bare.reserve_slice ops L size capOld capNew i (cells2 st) :=
  for_loop_map cells2 _ _ (fun _ _ => rfl) st size

theorem erase_slice_cells {α : Type} (ops : ElementOps α) (L : type_list)
    (size cap begin n i : Nat) (b : Block α) :
    (erase_slice ops L size cap begin n i b).cells =
      bare.erase_slice ops L size cap begin n i b.cells := by
  unfold erase_slice bare.erase_slice ptr_loop
  exact (for_loop_map Block.cells _ _ (fun _ _ => rfl) _ _).trans
    (congrArg _ (for_loop_map Block.cells _ _ (fun _ _ => move_assign_cells ops _ _ _) _ _))

theorem insert_slice_cells {α : Type} (ops : ElementOps α) (L : type_list)
    (ρ : Option α → Option α) (self other : parallel_vector_impl α)
    (e n newSize a b c d i : Nat) (st : Block α × Block α) :
    cells2 (insert_slice ops L (residue_transform ρ) self other e n newSize a b c d i st) =
      bare.insert_slice ops L (bare.residue_transform ρ) self other e n newSize a b c d i
        (cells2 st) := by
  unfold insert_slice bare.insert_slice
  have E12 := (for_loop_map (fun s : Block α × Pointer => (s.1.cells, s.2))
    (fun _ (s : Block α × Pointer) => (move_assign ops s.1 s.2 (s.2.sub n), s.2.sub 1))
    (fun _ (s : Memory α × Pointer) => (bare.move_assign ops s.1 s.2 (s.2.sub n), s.2.sub 1))
    (fun _ s => by simp only [move_assign_cells])
    (for_loop a
      (fun _ (s : Block α × Pointer) => (move_construct ops s.1 s.2 (s.2.sub n), s.2.sub 1))
      (st.1, ((slice_start L i self.mCapacity).add newSize).sub 1)) b).trans
    (congrArg (for_loop b (fun _ (s : Memory α × Pointer) =>
        (bare.move_assign ops s.1 s.2 (s.2.sub n), s.2.sub 1)))
      (for_loop_map (fun s : Block α × Pointer => (s.1.cells, s.2))
        (fun _ (s : Block α × Pointer) => (move_construct ops s.1 s.2 (s.2.sub n), s.2.sub 1))
        (fun _ (s : Memory α × Pointer) =>
          (bare.move_construct ops s.1 s.2 (s.2.sub n), s.2.sub 1))
        (fun _ _ => rfl) (st.1, ((slice_start L i self.mCapacity).add newSize).sub 1) a))
  simp only [cells2] at E12 ⊢
  rw [← E12]
  exact congrArg Prod.fst ((for_loop_map
    (fun s : (Block α × Block α) × (Pointer × Pointer) => ((s.1.1.cells, s.1.2.cells), s.2))
    (fun _ (s : (Block α × Block α) × (Pointer × Pointer)) =>
      ((assign s.1.1 s.2.1 (residue_transform ρ s.1.2 s.2.2).1,
          (residue_transform ρ s.1.2 s.2.2).2), (s.2.1.sub 1, s.2.2.sub 1)))
    (fun _ (s : (Memory α × Memory α) × (Pointer × Pointer)) =>
      ((bare.assign s.1.1 s.2.1 (bare.residue_transform ρ s.1.2 s.2.2).1,
          (bare.residue_transform ρ s.1.2 s.2.2).2), (s.2.1.sub 1, s.2.2.sub 1)))
    (fun _ _ => rfl) _ d).trans
    (congrArg (for_loop d (fun _ (s : (Memory α × Memory α) × (Pointer × Pointer)) =>
      ((bare.assign s.1.1 s.2.1 (bare.residue_transform ρ s.1.2 s.2.2).1,
          (bare.residue_transform ρ s.1.2 s.2.2).2), (s.2.1.sub 1, s.2.2.sub 1))))
      (for_loop_map
        (fun s : (Block α × Block α) × (Pointer × Pointer) =>
          ((s.1.1.cells, s.1.2.cells), s.2))
        (fun _ (s : (Block α × Block α) × (Pointer × Pointer)) =>
          ((construct s.1.1 s.2.1 (residue_transform ρ s.1.2 s.2.2).1,
              (residue_transform ρ s.1.2 s.2.2).2), (s.2.1.sub 1, s.2.2.sub 1)))
        (fun _ (s : (Memory α × Memory α) × (Pointer × Pointer)) =>
          ((bare.construct s.1.1 s.2.1 (bare.residue_transform ρ s.1.2 s.2.2).1,
              (bare.residue_transform ρ s.1.2 s.2.2).2), (s.2.1.sub 1, s.2.2.sub 1)))
        (fun _ _ => rfl) _ c)))

/-! ## Accesses inside a block -/

/-- Every element of every slice lies within a block with room for `cap` elements. -/
theorem cell_within (L : type_list) (cap i : Nat) (hi : i < L.length) (B : Nat)
    (hB : cap * row_size L ≤ B) (p : Pointer)
    (hb : p.base = (cap : Int) * (kSizeCoeff L i : Int)) (hs : p.stride = sizeof_element L i)
    (h0 : 0 ≤ p.index) (h1 : p.index < cap) : p.within B := by
  obtain ⟨k, hk⟩ := Int.eq_ofNat_of_zero_le h0
  have hk1 : k < cap := by omega
  have e1 := kSizeCoeff_eq L i (by omega)
  have e2 := size_before_next_le L i L.length (le_refl _) hi
  have e3 : cap * (size_before L i + sizeof_element L i) ≤ cap * row_size L :=
    Nat.mul_le_mul_left _ e2
  have e4 : (k + 1) * sizeof_element L i ≤ cap * sizeof_element L i :=
    Nat.mul_le_mul_right _ (by omega)
  have e5 : cap * kSizeCoeff L i + (k + 1) * sizeof_element L i ≤ B := by
    rw [e1]
    rw [Nat.mul_add] at e3
    omega
  have e6 : ((cap * kSizeCoeff L i + (k + 1) * sizeof_element L i : Nat) : Int) ≤ (B : Int) := by
    exact_mod_cast e5
  push_cast at e6
  unfold Pointer.within Pointer.addr
  rw [hb, hs, hk]
  constructor
  · positivity
  · linarith

theorem access_intact {α : Type} (b : Block α) (B : Nat) (p : Pointer) (h : b.intact B)
    (hp : p.within B) : b.access p = b := by
  cases b with
  | mk bytes cells overrun =>
    obtain ⟨h1, h2⟩ := h
    simp only at h1 h2
    subst h1 h2
    simp [Block.access, hp]

theorem construct_intact {α : Type} (b : Block α) (B : Nat) (p : Pointer) (v : Option α)
    (h : b.intact B) (hp : p.within B) : (construct b p v).intact B := by
  unfold construct
  rw [access_intact b B p h hp]
  exact h

theorem destroy_intact {α : Type} (b : Block α) (B : Nat) (p : Pointer)
    (h : b.intact B) (hp : p.within B) : (destroy b p).intact B := by
  unfold destroy
  rw [access_intact b B p h hp]
  exact h

theorem assign_intact {α : Type} (b : Block α) (B : Nat) (p : Pointer) (v : Option α)
    (h : b.intact B) (hp : p.within B) : (assign b p v).intact B := by
  unfold assign
  rw [access_intact b B p h hp]
  exact h

theorem residue_transform_intact {α : Type} (ρ : Option α → Option α) (b : Block α) (B : Nat)
    (p : Pointer) (h : b.intact B) (hp : p.within B) : (residue_transform ρ b p).2.intact B := by
  unfold residue_transform
  simp only
  rw [access_intact b B p h hp]
  exact h

theorem pass_rvalue_intact {α : Type} (ops : ElementOps α) (b : Block α) (B : Nat)
    (p : Pointer) (h : b.intact B) (hp : p.within B) : (pass_rvalue ops b p).2.intact B :=
  residue_transform_intact (Option.map ops.moved_from) b B p h hp

theorem move_construct_intact {α : Type} (ops : ElementOps α) (b : Block α) (B : Nat)
    (dst src : Pointer) (h : b.intact B) (hd : dst.within B) (hs : src.within B) :
    (move_construct ops b dst src).intact B :=
  construct_intact _ B dst _ (pass_rvalue_intact ops b B src h hs) hd

theorem move_assign_intact {α : Type} (ops : ElementOps α) (b : Block α) (B : Nat)
    (dst src : Pointer) (h : b.intact B) (hd : dst.within B) (hs : src.within B) :
    (move_assign ops b dst src).intact B := by
  unfold move_assign
  split
  · rw [access_intact b B dst h hd]
    exact h
  · exact assign_intact _ B dst _ (pass_rvalue_intact ops b B src h hs) hd

theorem pass_lvalue_eq {α : Type} : (pass_lvalue : TransformFunctor α) = residue_transform id := by
  funext b p
  cases b
  simp [pass_lvalue, residue_transform, Block.access]

theorem pass_rvalue_eq {α : Type} (ops : ElementOps α) :
    (pass_rvalue ops : TransformFunctor α) = residue_transform (Option.map ops.moved_from) := rfl

theorem reserve_slice_intact {α : Type} (ops : ElementOps α) (L : type_list)
    (size capOld capNew i : Nat) (hi : i < L.length) (h1 : size ≤ capOld) (h2 : size ≤ capNew)
    (B1 B2 : Nat) (hB1 : capOld * row_size L ≤ B1) (hB2 : capNew * row_size L ≤ B2)
    (st : Block α × Block α) (hst : st.1.intact B1 ∧ st.2.intact B2) :
    (reserve_slice ops L size capOld capNew i st).1.intact B1 ∧
      (reserve_slice ops L size capOld capNew i st).2.intact B2 := by
  unfold reserve_slice
  refine for_loop_inv (fun _ (s : Block α × Block α) => s.1.intact B1 ∧ s.2.intact B2) _ st size
    hst ?_
  intro t ht s hs
  have w1 : ((slice_start L i capOld).add t).within B1 :=
    cell_within L capOld i hi B1 hB1 _ rfl rfl (by simp [Pointer.add, slice_start])
      (by simp [Pointer.add, slice_start]; omega)
  have w2 : ((slice_start L i capNew).add t).within B2 :=
    cell_within L capNew i hi B2 hB2 _ rfl rfl (by simp [Pointer.add, slice_start])
      (by simp [Pointer.add, slice_start]; omega)
  exact ⟨destroy_intact _ B1 _ (pass_rvalue_intact ops _ B1 _ hs.1 w1) w1,
    construct_intact _ B2 _ _ hs.2 w2⟩

theorem erase_slice_intact {α : Type} (ops : ElementOps α) (L : type_list)
    (size cap begin n i : Nat) (hi : i < L.length) (hsc : size ≤ cap) (hbn : begin + n ≤ size)
    (B : Nat) (hB : cap * row_size L ≤ B) (b : Block α) (hb : b.intact B) :
    (erase_slice ops L size cap begin n i b).intact B := by
  unfold erase_slice ptr_loop
  simp only
  refine for_loop_inv (fun _ (s : Block α) => s.intact B) _ _ _ ?_ ?_
  · refine for_loop_inv (fun _ (s : Block α) => s.intact B) _ _ _ hb ?_
    intro t ht s hs
    simp only [Pointer.add, Pointer.sub, slice_start] at ht
    refine move_assign_intact ops s B _ _ hs ?_ ?_
    · exact cell_within L cap i hi B hB _ rfl rfl (by simp [Pointer.add, slice_start]; omega)
        (by simp [Pointer.add, slice_start]; omega)
    · exact cell_within L cap i hi B hB _ rfl rfl (by simp [Pointer.add, slice_start]; omega)
        (by simp [Pointer.add, slice_start]; omega)
  · intro t ht s hs
    simp only [Pointer.add, Pointer.sub, slice_start] at ht
    exact destroy_intact s B _ hs
      (cell_within L cap i hi B hB _ rfl rfl
        (by simp [Pointer.add, Pointer.sub, slice_start]; omega)
        (by simp [Pointer.add, Pointer.sub, slice_start]; omega))

theorem insert_slice_intact {α : Type} (ops : ElementOps α) (L : type_list)
    (ρ : Option α → Option α) (self other : parallel_vector_impl α) (i : Nat)
    (hi : i < L.length) (size ip e n : Nat) (hip : ip ≤ size) (hen : n ≤ e)
    (hcap : size + n ≤ self.mCapacity) (hcapO : e ≤ other.mCapacity)
    (B1 B2 : Nat) (hB1 : self.mCapacity * row_size L ≤ B1)
    (hB2 : other.mCapacity * row_size L ≤ B2)
    (st : Block α × Block α) (hst : st.1.intact B1 ∧ st.2.intact B2) :
    (insert_slice ops L (residue_transform ρ) self other e n (size + n) (min (size - ip) n)
        (size - ip - min (size - ip) n) (n - min (size - ip) n) (min (size - ip) n) i st).1.intact
        B1 ∧
    (insert_slice ops L (residue_transform ρ) self other e n (size + n) (min (size - ip) n)
        (size - ip - min (size - ip) n) (n - min (size - ip) n) (min (size - ip) n) i st).2.intact
        B2 := by
  generalize hmy : ((slice_start L i self.mCapacity).add ((size + n : Nat) : Int)).sub 1 = my
  generalize hth : (((slice L other i).begin).add (e : Int)).sub 1 = their
  have hmyw : ∀ p : Pointer, p.base = my.base → p.stride = my.stride →
      0 ≤ p.index → p.index < size + n → p.within B1 := fun p h1 h2 h3 h4 =>
    cell_within L self.mCapacity i hi B1 hB1 p (by rw [h1, ← hmy]; rfl) (by rw [h2, ← hmy]; rfl)
      h3 (by omega)
  have hthw : ∀ p : Pointer, p.base = their.base → p.stride = their.stride →
      0 ≤ p.index → p.index < e → p.within B2 := fun p h1 h2 h3 h4 =>
    cell_within L other.mCapacity i hi B2 hB2 p (by rw [h1, ← hth]; rfl) (by rw [h2, ← hth]; rfl)
      h3 (by omega)
  have hmyi : my.index = (size : Int) + n - 1 := by
    rw [← hmy]; simp only [Pointer.add, Pointer.sub, slice_start]; push_cast; omega
  have hthi : their.index = (e : Int) - 1 := by
    rw [← hth]
    simp only [Pointer.add, Pointer.sub, slice_start, slice, make_array_view, array_view.begin]
    omega
  have l1 := for_loop_ptr (fun (m : Block α) p => move_construct ops m p (p.sub n))
    (min (size - ip) n) st.1 my
  have l2 := for_loop_ptr (fun (m : Block α) p => move_assign ops m p (p.sub n))
    (size - ip - min (size - ip) n)
    (for_loop (min (size - ip) n) (fun t m => move_construct ops m (my.sub t) ((my.sub t).sub n))
      st.1) (my.sub (min (size - ip) n : Nat))
  have l3 := for_loop_ptr2
    (fun (s : Block α × Block α) p q =>
      (construct s.1 p ((residue_transform ρ) s.2 q).1, ((residue_transform ρ) s.2 q).2))
  have l4 := for_loop_ptr2
    (fun (s : Block α × Block α) p q =>
      (assign s.1 p ((residue_transform ρ) s.2 q).1, ((residue_transform ρ) s.2 q).2))
  beta_reduce at l1 l2 l3 l4
  simp only [insert_slice]
  rw [hmy, hth, l1]
  rw [l2, l3]
  rw [l4]
  dsimp only
  refine for_loop_inv (fun _ (s : Block α × Block α) => s.1.intact B1 ∧ s.2.intact B2) _ _ _ ?_ ?_
  · refine for_loop_inv (fun _ (s : Block α × Block α) => s.1.intact B1 ∧ s.2.intact B2)
      _ _ _ ?_ ?_
    · refine ⟨?_, hst.2⟩
      refine for_loop_inv (fun _ (s : Block α) => s.intact B1) _ _ _ ?_ ?_
      · refine for_loop_inv (fun _ (s : Block α) => s.intact B1) _ _ _ hst.1 ?_
        intro t ht s hs
        exact move_construct_intact ops s B1 _ _ hs
          (hmyw _ rfl rfl (by simp only [Pointer.sub]; omega) (by simp only [Pointer.sub]; omega))
          (hmyw _ rfl rfl (by simp only [Pointer.sub]; omega) (by simp only [Pointer.sub]; omega))
      · intro t ht s hs
        exact move_assign_intact ops s B1 _ _ hs
          (hmyw _ rfl rfl (by simp only [Pointer.sub]; push_cast; omega)
            (by simp only [Pointer.sub]; push_cast; omega))
          (hmyw _ rfl rfl (by simp only [Pointer.sub]; push_cast; omega)
            (by simp only [Pointer.sub]; push_cast; omega))
    · intro t ht s hs
      exact ⟨construct_intact _ B1 _ _ hs.1
          (hmyw _ rfl rfl (by simp only [Pointer.sub]; push_cast; omega)
            (by simp only [Pointer.sub]; push_cast; omega)),
        residue_transform_intact ρ _ B2 _ hs.2
          (hthw _ rfl rfl (by simp only [Pointer.sub]; omega)
            (by simp only [Pointer.sub]; omega))⟩
  · intro t ht s hs
    exact ⟨assign_intact _ B1 _ _ hs.1
        (hmyw _ rfl rfl (by simp only [Pointer.sub]; push_cast; omega)
          (by simp only [Pointer.sub]; push_cast; omega)),
      residue_transform_intact ρ _ B2 _ hs.2
        (hthw _ rfl rfl (by simp only [Pointer.sub]; omega)
          (by simp only [Pointer.sub]; omega))⟩

/-! ## reserve -/

theorem allocate_cells {α : Type} (Traits : default_parallel_vector_traits) (bytes : Nat)
    (mem : Block α) (h : Traits.allocate bytes = .ok mem) : mem.cells = fun _ => none := by
  unfold default_parallel_vector_traits.allocate at h
  split at h
  · split at h
    · cases h; rfl
    · cases h
  · cases h; rfl

theorem allocate_intact {α : Type} (Traits : default_parallel_vector_traits) (bytes : Nat)
    (mem : Block α) (h : Traits.allocate bytes = .ok mem) : mem.intact bytes := by
  unfold default_parallel_vector_traits.allocate at h
  split at h
  · split at h
    · cases h; exact ⟨rfl, rfl⟩
    · cases h
  · cases h
    exact ⟨by simp only [nullptr]; omega, rfl⟩

theorem allocate_total {α : Type} (Traits : default_parallel_vector_traits)
    (hnf : never_fails Traits) (bytes : Nat) :
    ∃ mem : Block α, Traits.allocate bytes = .ok mem := by
  unfold default_parallel_vector_traits.allocate
  split
  · rw [hnf bytes]; exact ⟨_, rfl⟩
  · exact ⟨_, rfl⟩

theorem reserve_noop {α : Type} (ops : ElementOps α) (Traits : default_parallel_vector_traits)
    (L : type_list) (n : Nat) (c : parallel_vector_impl α) (h : n ≤ c.mCapacity) :
    reserve ops Traits L n c = .ok c := by
  simp [reserve, h]

theorem reserve_total {α : Type} (ops : ElementOps α) (Traits : default_parallel_vector_traits)
    (hnf : never_fails Traits) (L : type_list) (n : Nat) (c : parallel_vector_impl α) :
    ∃ r, reserve ops Traits L n c = .ok r := by
  unfold reserve
  split
  · exact ⟨_, rfl⟩
  · obtain ⟨mem, hmem⟩ := allocate_total (α := α) Traits hnf
      (size_type_mul (adjust_capacity L n) (kSizePerElement L))
    rw [hmem]
    exact ⟨_, rfl⟩

/-- The slices relocated by `reserve` stay inside the two blocks. -/
theorem reserve_slices_intact {α : Type} (ops : ElementOps α) (L : type_list)
    (size capOld capNew : Nat) (h1 : size ≤ capOld) (h2 : size ≤ capNew)
    (B1 B2 : Nat) (hB1 : capOld * row_size L ≤ B1) (hB2 : capNew * row_size L ≤ B2)
    (st : Block α × Block α) (hst : st.1.intact B1 ∧ st.2.intact B2) :
    (for_each_slice L (reserve_slice ops L size capOld capNew) st).1.intact B1 ∧
      (for_each_slice L (reserve_slice ops L size capOld capNew) st).2.intact B2 :=
  for_each_slice_inv L (fun s : Block α × Block α => s.1.intact B1 ∧ s.2.intact B2) _ st hst
    (fun i hi s hs => reserve_slice_intact ops L size capOld capNew i hi h1 h2 B1 B2 hB1 hB2 s hs)

theorem reserve_grow {α : Type} (ops : ElementOps α) (Traits : default_parallel_vector_traits)
    (L : type_list) (n : Nat) (c r : parallel_vector_impl α) (hn : c.mCapacity < n)
    (h : reserve ops Traits L n c = .ok r) :
    r.mSize = c.mSize ∧ r.mCapacity = adjust_capacity L n ∧
      (c.mSize ≤ c.mCapacity → c.mSize ≤ adjust_capacity L n →
        ∀ i, i < L.length → ∀ k, k < c.mSize → cell L r i k = cell L c i k) ∧
      (c.mSize ≤ c.mCapacity → c.mSize ≤ adjust_capacity L n → c.sound L →
        adjust_capacity L n * row_size L ≤
          size_type_mul (adjust_capacity L n) (kSizePerElement L) → r.sound L) := by
  unfold reserve at h
  rw [if_neg (by omega)] at h
  split at h
  · cases h
  · next mem hmem =>
    have hcells := allocate_cells Traits _ mem hmem
    have hint := allocate_intact Traits _ mem hmem
    cases h
    refine ⟨rfl, rfl, ?_, ?_⟩
    · intro h1 h2 i hi k hk
      simp only [cell]
      have e := for_each_slice_map L cells2 _ _
        (reserve_slice_cells ops L c.mSize c.mCapacity (adjust_capacity L n)) (c.mMemory, mem)
      have e2 := congrArg Prod.snd e
      simp only [cells2] at e2
      rw [e2]
      exact bare.reserve_relocated ops L c.mSize c.mCapacity _ h1 h2 _ _ i hi k hk
    · intro h1 h2 hs hb
      obtain ⟨i1, i2⟩ := reserve_slices_intact ops L c.mSize c.mCapacity (adjust_capacity L n)
        h1 h2 c.mMemory.bytes _ hs.1 hb (c.mMemory, mem) ⟨⟨rfl, hs.2⟩, hint⟩
      refine ⟨?_, ?_⟩
      · simp only
        rw [i2.1]
        exact hb
      · simp only
        rw [i1.2, i2.2]
        rfl

/-- A representable capacity: the byte count `reserve` asks for is exact. -/
theorem representable_bytes (L : type_list) (hL : adjust_capacity_static_asserts L) (n : Nat)
    (hn : representable L n) :
    adjust_capacity L n * row_size L ≤
      size_type_mul (adjust_capacity L n) (kSizePerElement L) := by
  obtain ⟨h1, h2⟩ := hn
  obtain ⟨b1, b2, b3, _⟩ := adjust_capacity_bounds L hL n h1
  have hinc := kMinIncrement_pos L hL
  have hle : adjust_capacity L n * row_size L ≤ (n + kMinIncrement L - 1) * row_size L :=
    Nat.mul_le_mul_right _ (by omega)
  have hk : kSizeCoeff L L.size = row_size L := kSizeCoeff_eq L L.length (le_refl _)
  by_cases h0 : adjust_capacity L n = 0
  · rw [h0]; simp
  · have hrow : row_size L < size_type_mod := by
      have : row_size L ≤ adjust_capacity L n * row_size L :=
        Nat.le_mul_of_pos_left _ (by omega)
      omega
    have hks : kSizePerElement L = row_size L := by
      have : kSizePerElement L = kSizeCoeff L L.size % size_type_mod := rfl
      rw [this, hk, Nat.mod_eq_of_lt hrow]
    rw [hks]
    unfold size_type_mul
    rw [Nat.mod_eq_of_lt (by omega)]

theorem reserve_ok {α : Type} (ops : ElementOps α) (Traits : default_parallel_vector_traits)
    (L : type_list) (hL : adjust_capacity_static_asserts L) (n : Nat)
    (c r : parallel_vector_impl α) (hv : c.valid) (hs : c.sound L)
    (hn : n ≤ c.mCapacity ∨ representable L n)
    (h : reserve ops Traits L n c = .ok r) :
    r.valid ∧ r.sound L ∧ r.mSize = c.mSize ∧ n ≤ r.mCapacity ∧ c.mCapacity ≤ r.mCapacity ∧
      (∀ i, i < L.length → ∀ k, k < c.mSize → cell L r i k = cell L c i k) := by
  by_cases hle : n ≤ c.mCapacity
  · rw [reserve_noop ops Traits L n c hle] at h
    cases h
    exact ⟨hv, hs, rfl, hle, le_refl _, fun _ _ _ _ => rfl⟩
  · have hn2 : representable L n := by
      rcases hn with h' | h'
      · exact absurd h' hle
      · exact h'
    obtain ⟨hv1, hv2⟩ := hv
    have hb := adjust_capacity_bounds L hL n hn2.1
    obtain ⟨g1, g2, g3, g4⟩ := reserve_grow ops Traits L n c r (by omega) h
    refine ⟨⟨by omega, by omega⟩, g4 hv1 (by omega) hs (representable_bytes L hL n hn2), g1,
      by omega, by omega, g3 hv1 (by omega)⟩

/-! ## push_back -/

theorem push_back_ok {α : Type} (ops : ElementOps α) (Traits : default_parallel_vector_traits)
    (L : type_list) (hL : adjust_capacity_static_asserts L) (args : List α)
    (c r : parallel_vector_impl α) (hv : c.valid) (hs : c.sound L)
    (hgrow : c.mSize = c.mCapacity →
      representable L (max (2 * c.mCapacity + 1) (c.mCapacity + 20)))
    (h : push_back ops Traits L args c = .ok r) :
    r.mSize = c.mSize + 1 ∧ r.mSize ≤ r.mCapacity ∧ r.mCapacity < size_type_mod ∧
      c.mCapacity ≤ r.mCapacity ∧
      (∀ i, i < L.length → cell L r i c.mSize = args.get? i) ∧
      (∀ i, i < L.length → ∀ k, k < c.mSize → cell L r i k = cell L c i k) ∧
      r.sound L := by
  obtain ⟨hv1, hv2⟩ := hv
  have hpos := kMinIncrement_pos L hL
  -- the container after the optional growth
  have hmid : ∃ c1 : parallel_vector_impl α,
      (if c.mSize = c.mCapacity then auto_grow ops Traits L c else .ok c) = .ok c1 ∧
      c1.mSize = c.mSize ∧ c.mSize < c1.mCapacity ∧ c1.mCapacity < size_type_mod ∧
      c.mCapacity ≤ c1.mCapacity ∧
      (∀ i, i < L.length → ∀ k, k < c.mSize → cell L c1 i k = cell L c i k) ∧
      c1.sound L := by
    unfold push_back at h
    split at h
    · cases h
    · next c1 hc1 =>
      refine ⟨c1, hc1, ?_⟩
      by_cases hfull : c.mSize = c.mCapacity
      · rw [if_pos hfull] at hc1
        have hrep := hgrow hfull
        have hg := hrep.1
        simp only [size_type_mod] at hg hv2
        have e1 : size_type_add (size_type_mul 2 c.mCapacity) 1 = 2 * c.mCapacity + 1 := by
          simp only [size_type_add, size_type_mul, size_type_mod]; omega
        have e2 : size_type_add c.mCapacity 20 = c.mCapacity + 20 := by
          simp only [size_type_add, size_type_mod]; omega
        unfold auto_grow at hc1
        rw [e1, e2] at hc1
        have hb := adjust_capacity_bounds L hL (max (2 * c.mCapacity + 1) (c.mCapacity + 20))
          (by simp only [size_type_mod]; omega)
        obtain ⟨g1, g2, g3, g4⟩ := reserve_grow ops Traits L _ c c1 (by omega) hc1
        refine ⟨g1, by omega, by omega, by omega, ?_, ?_⟩
        · exact g3 (by omega) (by omega)
        · exact g4 (by omega) (by omega) hs (representable_bytes L hL _ hrep)
      · rw [if_neg hfull] at hc1
        cases hc1
        exact ⟨rfl, by omega, hv2, le_refl _, fun _ _ _ _ => rfl, hs⟩
  obtain ⟨c1, hc1, m1, m2, m3, m4, m5, m6⟩ := hmid
  unfold push_back at h
  rw [hc1] at h
  simp only [Except.ok.injEq] at h
  subst h
  have hcells := bare.push_back_cells L c1.mCapacity c1.mSize (by omega) args c1.mMemory.cells
    L.length (le_refl _)
  have hbr := for_each_slice_map L Block.cells
    (fun sliceIndex (b : Block α) =>
      construct b ((slice_start L sliceIndex c1.mCapacity).add c1.mSize) (args.get? sliceIndex))
    (fun sliceIndex (m : Memory α) =>
      bare.construct m ((slice_start L sliceIndex c1.mCapacity).add c1.mSize)
        (args.get? sliceIndex))
    (fun _ _ => rfl) c1.mMemory
  simp only [size_type_mod] at m3
  refine ⟨?_, ?_, m3, m4, ?_, ?_, ?_⟩
  · simp only [size_type_add, size_type_mod]; omega
  · simp only [size_type_add, size_type_mod]; omega
  · intro i hi
    simp only [cell]
    rw [hbr, for_each_slice_eq, ← m1]
    exact hcells.1 i hi
  · intro i hi k hk
    rw [← m5 i hi k hk]
    simp only [cell]
    rw [hbr, for_each_slice_eq]
    apply hcells.2
    intro j hj heq
    by_cases hij : i = j
    · subst hij
      have := cell_addr_inj L c1.mCapacity i hi _ _ heq
      omega
    · exact cell_addr_ne L c1.mCapacity i j hi hj hij _ _ (by omega) (by omega) heq
  · have hin := for_each_slice_inv L (fun s : Block α => s.intact c1.mMemory.bytes)
      (fun sliceIndex (b : Block α) =>
        construct b ((slice_start L sliceIndex c1.mCapacity).add c1.mSize)
          (args.get? sliceIndex))
      c1.mMemory ⟨rfl, m6.2⟩
      (fun i hi s hs => construct_intact s _ _ _ hs
        (cell_within L c1.mCapacity i hi _ m6.1 _ rfl rfl
          (by simp [Pointer.add, slice_start]) (by simp [Pointer.add, slice_start]; omega)))
    refine ⟨?_, hin.2⟩
    simp only
    rw [hin.1]
    exact m6.1

theorem push_back_total {α : Type} (ops : ElementOps α) (Traits : default_parallel_vector_traits)
    (hnf : never_fails Traits) (L : type_list) (args : List α) (c : parallel_vector_impl α) :
    ∃ r, push_back ops Traits L args c = .ok r := by
  unfold push_back
  split
  · next e he =>
    split at he
    · obtain ⟨r, hr⟩ := reserve_total ops Traits hnf L
        (max (size_type_add (size_type_mul 2 c.mCapacity) 1) (size_type_add c.mCapacity 20)) c
      unfold auto_grow at he
      rw [hr] at he
      cases he
    · cases he
  · exact ⟨_, rfl⟩

/-! ## erase -/

theorem erase_memory_cells {α : Type} (ops : ElementOps α) (L : type_list) (begin end_ : Nat)
    (c : parallel_vector_impl α) :
    (erase ops L begin end_ c).mMemory.cells =
      for_each_slice L
        (bare.erase_slice ops L c.mSize c.mCapacity begin (size_type_sub end_ begin))
        c.mMemory.cells :=
  for_each_slice_map L Block.cells _ _
    (fun i b => erase_slice_cells ops L c.mSize c.mCapacity begin _ i b) c.mMemory

theorem erase_ok {α : Type} (ops : ElementOps α) (L : type_list) (begin end_ : Nat)
    (c : parallel_vector_impl α) (hv : c.valid) (hbe : begin < end_) (he : end_ ≤ c.mSize) :
    (erase ops L begin end_ c).mSize = c.mSize - (end_ - begin) ∧
    (erase ops L begin end_ c).mCapacity = c.mCapacity ∧
    ∀ i, i < L.length →
      (∀ k, k < begin → cell L (erase ops L begin end_ c) i k = cell L c i k) ∧
      (∀ k, begin ≤ k → k < c.mSize - (end_ - begin) →
        cell L (erase ops L begin end_ c) i k = cell L c i (k + (end_ - begin))) := by
  obtain ⟨hv1, hv2⟩ := hv
  have e1 : size_type_sub end_ begin = end_ - begin :=
    size_type_sub_eq _ _ (by omega) (by omega)
  have e2 : size_type_sub c.mSize (end_ - begin) = c.mSize - (end_ - begin) :=
    size_type_sub_eq _ _ (by omega) (by omega)
  refine ⟨?_, rfl, ?_⟩
  · simp only [erase, e1, e2]
  · intro i hi
    obtain ⟨s1, s2, _⟩ := bare.erase_cells ops L c.mSize c.mCapacity hv1 begin (end_ - begin)
      (by omega) (by omega) c.mMemory.cells i hi
    simp only [cell, erase_memory_cells, e1]
    exact ⟨s1, s2⟩

theorem erase_sound {α : Type} (ops : ElementOps α) (L : type_list) (begin end_ : Nat)
    (c : parallel_vector_impl α) (hv : c.valid) (hs : c.sound L) (hbe : begin ≤ end_)
    (he : end_ ≤ c.mSize) : (erase ops L begin end_ c).sound L := by
  obtain ⟨hv1, hv2⟩ := hv
  have e1 : size_type_sub end_ begin = end_ - begin :=
    size_type_sub_eq _ _ (by omega) (by omega)
  have hin := for_each_slice_inv L (fun s : Block α => s.intact c.mMemory.bytes)
    (erase_slice ops L c.mSize c.mCapacity begin (size_type_sub end_ begin))
    c.mMemory ⟨rfl, hs.2⟩
    (fun i hi s hs' => erase_slice_intact ops L c.mSize c.mCapacity begin _ i hi hv1
      (by rw [e1]; omega) _ hs.1 s hs')
  refine ⟨?_, hin.2⟩
  show c.mCapacity * row_size L ≤ _
  rw [show (erase ops L begin end_ c).mMemory.bytes = c.mMemory.bytes from hin.1]
  exact hs.1

theorem clear_sound {α : Type} (L : type_list) (c : parallel_vector_impl α) (hv : c.valid)
    (hs : c.sound L) : (clear L c).sound L := by
  have hin := for_each_slice_inv L (fun s : Block α => s.intact c.mMemory.bytes)
    (fun sliceIndex (b : Block α) => for_loop c.mSize
      (fun i b => destroy b ((slice_start L sliceIndex c.mCapacity).add i)) b)
    c.mMemory ⟨rfl, hs.2⟩
    (fun i hi s hs' => for_loop_inv (fun _ (s : Block α) => s.intact c.mMemory.bytes) _ s _ hs'
      (fun t ht s hs'' => destroy_intact s _ _ hs''
        (cell_within L c.mCapacity i hi _ hs.1 _ rfl rfl
          (by simp [Pointer.add, slice_start])
          (by have := hv.1; simp [Pointer.add, slice_start]; omega))))
  refine ⟨?_, hin.2⟩
  show c.mCapacity * row_size L ≤ _
  rw [show (clear L c).mMemory.bytes = c.mMemory.bytes from hin.1]
  exact hs.1

theorem erase_slice_elements {α : Type} (ops : ElementOps α) (L : type_list) (begin end_ : Nat)
    (c : parallel_vector_impl α) (hv : c.valid) (hbe : begin < end_) (he : end_ ≤ c.mSize)
    (i : Nat) (hi : i < L.length) :
    slice_elements L (erase ops L begin end_ c) i =
      (slice_elements L c i).take begin ++ (slice_elements L c i).drop end_ := by
  obtain ⟨h1, h2, h3⟩ := erase_ok ops L begin end_ c hv hbe he
  have hs := valid_size_lt c hv
  have hlen := length_slice_elements L c i hs
  have hs2 : (erase ops L begin end_ c).mSize < size_t_mod := by rw [h1]; omega
  apply slice_elements_ext L _ i hs2
  · rw [List.length_append, List.length_take, List.length_drop, hlen, h1]; omega
  · intro k hk
    rw [List.length_append, List.length_take, List.length_drop, hlen] at hk
    by_cases hkb : k < begin
    · rw [List.getElem_append_left (by rw [List.length_take, hlen]; omega), List.getElem_take,
        getElem_slice_elements L c i hs, (h3 i hi).1 k hkb]
    · rw [List.getElem_append_right (by rw [List.length_take, hlen]; omega), List.getElem_drop,
        getElem_slice_elements L c i hs, (h3 i hi).2 k (by omega) (by omega)]
      congr 1
      rw [List.length_take, hlen]
      omega

/-! ## insert -/

theorem container_eq {α : Type} (a b : parallel_vector_impl α)
    (h1 : a.mMemory.cells = b.mMemory.cells) (h2 : a.mMemory.bytes = b.mMemory.bytes)
    (h3 : a.mMemory.overrun = b.mMemory.overrun) (h4 : a.mSize = b.mSize)
    (h5 : a.mCapacity = b.mCapacity) : a = b := by
  obtain ⟨⟨_, _, _⟩, _, _⟩ := a
  obtain ⟨⟨_, _, _⟩, _, _⟩ := b
  simp only at h1 h2 h3 h4 h5
  subst h1 h2 h3 h4 h5
  rfl

/-- The `for_each_slice` call of `insert_impl`: no access leaves the two blocks, and the
cells are those the loops on the cells compute. -/
theorem insert_slices_spec {α : Type} (ops : ElementOps α) (L : type_list)
    (ρ : Option α → Option α) (self other : parallel_vector_impl α) (size ip e n : Nat)
    (hip : ip ≤ size) (hen : n ≤ e) (hcap : size + n ≤ self.mCapacity)
    (hcapO : e ≤ other.mCapacity) (hs1 : self.sound L) (hs2 : other.sound L) :
    (for_each_slice L
      (insert_slice ops L (residue_transform ρ) self other e n (size + n) (min (size - ip) n)
        (size - ip - min (size - ip) n) (n - min (size - ip) n) (min (size - ip) n))
      (self.mMemory, other.mMemory)).1.intact self.mMemory.bytes ∧
    (for_each_slice L
      (insert_slice ops L (residue_transform ρ) self other e n (size + n) (min (size - ip) n)
        (size - ip - min (size - ip) n) (n - min (size - ip) n) (min (size - ip) n))
      (self.mMemory, other.mMemory)).2.intact other.mMemory.bytes ∧
    cells2 (for_each_slice L
      (insert_slice ops L (residue_transform ρ) self other e n (size + n) (min (size - ip) n)
        (size - ip - min (size - ip) n) (n - min (size - ip) n) (min (size - ip) n))
      (self.mMemory, other.mMemory)) =
      bare.insert_slices ops L ρ self other size ip e n
        (self.mMemory.cells, other.mMemory.cells) := by
  have hin := for_each_slice_inv L
    (fun s : Block α × Block α =>
      s.1.intact self.mMemory.bytes ∧ s.2.intact other.mMemory.bytes)
    (insert_slice ops L (residue_transform ρ) self other e n (size + n) (min (size - ip) n)
      (size - ip - min (size - ip) n) (n - min (size - ip) n) (min (size - ip) n))
    (self.mMemory, other.mMemory) ⟨⟨rfl, hs1.2⟩, ⟨rfl, hs2.2⟩⟩
    (fun i hi s hs => insert_slice_intact ops L ρ self other i hi size ip e n hip hen hcap
      hcapO _ _ hs1.1 hs2.1 s hs)
  exact ⟨hin.1, hin.2, for_each_slice_map L cells2 _ _
    (fun i s => insert_slice_cells ops L ρ self other e n (size + n) (min (size - ip) n)
      (size - ip - min (size - ip) n) (n - min (size - ip) n) (min (size - ip) n) i s)
    (self.mMemory, other.mMemory)⟩

theorem insert_impl_ok {α : Type} (ops : ElementOps α) (Traits : default_parallel_vector_traits)
    (L : type_list) (hL : adjust_capacity_static_asserts L) (ρ : Option α → Option α)
    (A B A' B' : parallel_vector_impl α) (ip b e : Nat) (hA : A.valid) (hAs : A.sound L)
    (hB : B.valid) (hBs : B.sound L)
    (hip : ip ≤ A.mSize) (hbe : b ≤ e) (he : e ≤ B.mSize)
    (hfit : fits L A (A.mSize + (e - b)))
    (h : insert_impl ops Traits L ip B b e (residue_transform ρ) A = .ok (A', B')) :
    A'.mSize = A.mSize + (e - b) ∧ A'.valid ∧ A'.sound L ∧ A.mCapacity ≤ A'.mCapacity ∧
    B'.mSize = B.mSize ∧ B'.mCapacity = B.mCapacity ∧ B'.sound L ∧
    B'.mMemory.bytes = B.mMemory.bytes ∧
    (b < e → ∀ i, i < L.length →
      (∀ k, k < ip → cell L A' i k = cell L A i k) ∧
      (∀ k, ip ≤ k → k < ip + (e - b) → cell L A' i k = cell L B i (b + (k - ip))) ∧
      (∀ k, ip + (e - b) ≤ k → k < A.mSize + (e - b) →
        cell L A' i k = cell L A i (k - (e - b))) ∧
      (∀ k, b ≤ k → k < e → cell L B' i k = ρ (cell L B i k)) ∧
      (∀ k, k < B.mCapacity → ¬ (b ≤ k ∧ k < e) → cell L B' i k = cell L B i k)) := by
  obtain ⟨hA1, hA2⟩ := hA
  obtain ⟨hB1, hB2⟩ := hB
  have hpos := kMinIncrement_pos L hL
  have hcp : A.capacity = A.mCapacity := rfl
  unfold fits at hfit
  rw [hcp] at hfit
  have hlt : A.mSize + (e - b) < size_type_mod := by
    rcases hfit with h' | h'
    · omega
    · have := h'.1; omega
  have e1 : size_type_sub A.mSize ip = A.mSize - ip := size_type_sub_eq _ _ hip (by omega)
  have e2 : size_type_sub e b = e - b := size_type_sub_eq _ _ (by omega) (by omega)
  have e3 : size_type_add A.mSize (e - b) = A.mSize + (e - b) := size_type_add_eq _ _ hlt
  have e4 : size_type_sub (A.mSize - ip) (min (A.mSize - ip) (e - b)) =
      A.mSize - ip - min (A.mSize - ip) (e - b) := size_type_sub_eq _ _ (by omega) (by omega)
  have e5 : size_type_sub (e - b) (min (A.mSize - ip) (e - b)) =
      e - b - min (A.mSize - ip) (e - b) := size_type_sub_eq _ _ (by omega) (by omega)
  unfold insert_impl at h
  simp only [e1, e2, e3, e4, e5] at h
  clear e1 e2 e3 e4 e5
  split at h
  · cases h
  · next A1 hA1eq =>
    have hmid : A1.mSize = A.mSize ∧ A.mSize + (e - b) ≤ A1.mCapacity ∧
        A1.mCapacity < size_type_mod ∧ A.mCapacity ≤ A1.mCapacity ∧
        (∀ i, i < L.length → ∀ k, k < A.mSize → cell L A1 i k = cell L A i k) ∧
        A1.sound L := by
      by_cases hg : A.mSize + (e - b) > A.mCapacity
      · rw [if_pos hg] at hA1eq
        have hrep : representable L (A.mSize + (e - b)) := by
          rcases hfit with h' | h'
          · omega
          · exact h'
        have hb := adjust_capacity_bounds L hL (A.mSize + (e - b)) hrep.1
        obtain ⟨g1, g2, g3, g4⟩ := reserve_grow ops Traits L _ A A1 hg hA1eq
        exact ⟨g1, by omega, by omega, by omega, g3 hA1 (by omega),
          g4 hA1 (by omega) hAs (representable_bytes L hL _ hrep)⟩
      · rw [if_neg hg] at hA1eq
        cases hA1eq
        exact ⟨rfl, by omega, hA2, le_refl _, fun _ _ _ _ => rfl, hAs⟩
    obtain ⟨m1, m2, m3, m4, m5, m6⟩ := hmid
    have hsp := insert_slices_spec ops L ρ A1 B A.mSize ip e (e - b) hip (by omega) m2
      (by omega) m6 hBs
    have hcells : b < e → ∀ i, i < L.length → _ := fun hlt' i hi =>
      bare.insert_cells ops L ρ A1 B A.mSize ip e (e - b)
        (by omega) hip (by omega) m2 (by omega) (A1.mMemory.cells, B.mMemory.cells) i hi
    revert hsp
    generalize for_each_slice L
      (insert_slice ops L (residue_transform ρ) A1 B e (e - b) (A.mSize + (e - b))
        (min (A.mSize - ip) (e - b)) (A.mSize - ip - min (A.mSize - ip) (e - b))
        (e - b - min (A.mSize - ip) (e - b)) (min (A.mSize - ip) (e - b)))
      (A1.mMemory, B.mMemory) = st at h
    intro hsp
    obtain ⟨hin1, hin2, hc⟩ := hsp
    simp only [Except.ok.injEq, Prod.mk.injEq] at h
    obtain ⟨hA', hB'⟩ := h
    subst hA' hB'
    refine ⟨rfl, ⟨m2, m3⟩, ⟨?_, hin1.2⟩, m4, rfl, rfl, ⟨?_, hin2.2⟩, hin2.1, ?_⟩
    · show A1.mCapacity * row_size L ≤ st.1.bytes
      rw [hin1.1]
      exact m6.1
    · show B.mCapacity * row_size L ≤ st.2.bytes
      rw [hin2.1]
      exact hBs.1
    intro hlt' i hi
    obtain ⟨c1, c2, c3, c4, c5⟩ := hcells hlt' i hi
    rw [← hc] at c1 c2 c3 c4 c5
    have m5i := m5 i hi
    refine ⟨?_, ?_, ?_, ?_, ?_⟩
    · intro k hk
      have hk' : k < A.mSize := by omega
      rw [← m5i k hk']
      exact c1 k hk
    · intro k hk1 hk2
      have hk' : k + e - (ip + (e - b)) = b + (k - ip) := by omega
      have := c2 k hk1 hk2
      rw [hk'] at this
      exact this
    · intro k hk1 hk2
      have hk' : k - (e - b) < A.mSize := by omega
      rw [← m5i (k - (e - b)) hk']
      exact c3 k hk1 hk2
    · intro k hk1 hk2
      have hk' : e - (e - b) ≤ k := by omega
      exact c4 k hk' hk2
    · intro k hk1 hk2
      have hk' : ¬ (e - (e - b) ≤ k ∧ k < e) := by omega
      exact c5 k hk1 hk'

theorem insert_impl_total {α : Type} (ops : ElementOps α)
    (Traits : default_parallel_vector_traits) (hnf : never_fails Traits) (L : type_list)
    (ip : Nat) (B : parallel_vector_impl α) (b e : Nat) (transform : TransformFunctor α)
    (A : parallel_vector_impl α) :
    ∃ r, insert_impl ops Traits L ip B b e transform A = .ok r := by
  unfold insert_impl
  simp only []
  split
  · next err he =>
    split at he
    · obtain ⟨r, hr⟩ := reserve_total ops Traits hnf L
        (size_type_add A.mSize (size_type_sub e b)) A
      rw [hr] at he
      cases he
    · cases he
  · exact ⟨_, rfl⟩

theorem insert_move_total {α : Type} (ops : ElementOps α)
    (Traits : default_parallel_vector_traits) (hnf : never_fails Traits) (L : type_list)
    (ip : Nat) (B : parallel_vector_impl α) (b e : Nat) (A : parallel_vector_impl α) :
    ∃ r, insert_move ops Traits L ip B b e A = .ok r := by
  obtain ⟨r, hr⟩ := insert_impl_total ops Traits hnf L ip B b e (pass_rvalue ops) A
  unfold insert_move
  rw [hr]
  exact ⟨_, rfl⟩

/-- The copying functor never writes to the source. -/
theorem insert_copy_cells {α : Type} (ops : ElementOps α)
    (Traits : default_parallel_vector_traits) (L : type_list) (ip : Nat)
    (A B A' B' : parallel_vector_impl α) (b e : Nat)
    (h : insert_copy ops Traits L ip B b e A = .ok (A', B')) :
    B'.mMemory.cells = B.mMemory.cells ∧ B'.mSize = B.mSize ∧ B'.mCapacity = B.mCapacity := by
  unfold insert_copy insert_impl at h
  simp only [] at h
  split at h
  · cases h
  · next A1 _ =>
    simp only [Except.ok.injEq, Prod.mk.injEq] at h
    rw [← h.2]
    refine ⟨?_, rfl, rfl⟩
    have hs : ∀ (f : Nat → Memory α × Memory α → Memory α × Memory α),
        (∀ i s, (f i s).2 = s.2) → ∀ n s, (for_loop n f s).2 = s.2 := by
      intro f hf n
      induction n with
      | zero => intro s; rfl
      | succ n ih => intro s; rw [for_loop_succ, hf, ih]
    simp only
    rw [pass_lvalue_eq]
    have hbr := congrArg Prod.snd (for_each_slice_map L cells2 _ _
      (fun i s => insert_slice_cells ops L id A1 B e (size_type_sub e b)
        (size_type_add A.mSize (size_type_sub e b))
        (min (size_type_sub A.mSize ip) (size_type_sub e b))
        (size_type_sub (size_type_sub A.mSize ip)
          (min (size_type_sub A.mSize ip) (size_type_sub e b)))
        (size_type_sub (size_type_sub e b)
          (min (size_type_sub A.mSize ip) (size_type_sub e b)))
        (min (size_type_sub A.mSize ip) (size_type_sub e b)) i s)
      (A1.mMemory, B.mMemory))
    simp only [cells2] at hbr
    rw [hbr, ← bare.pass_lvalue_residue, for_each_slice_eq,
      hs _ (fun i s => bare.insert_slice_copy_snd ops L _ _ _ _ _ _ _ _ _ i s)]

/-! ## Claims -/

/-- C1 (amended): for containers `A` and `B` of one field layout (two container values, each
with its own memory block of at least `capacity()` elements per field), `insertionPoint <=
A.size()`, a non-empty range `begin < end <= B.size()`, and a new size
`A.size() + (end - begin)` that is at most `A.capacity()` or is representable (rounded up to
the capacity increment, it and the byte count of a block of that capacity are below `2^32`):
`A.insert_copy(insertionPoint, B, begin, end)` returns whenever the allocator does not fail,
and once it has returned `A.size()` has grown by `end - begin`, every slice of `A` is
`old A[0, insertionPoint) ++ B[begin, end) ++ old A[insertionPoint, old size)`, `B` is
unchanged (its size, its capacity and all of its memory), and no access has left a block. -/
theorem insert_copy_correct {α : Type} (ops : ElementOps α)
    (Traits : default_parallel_vector_traits) (L : type_list)
    (hL : adjust_capacity_static_asserts L) (A B : parallel_vector_impl α)
    (insertionPoint begin end_ : Nat) (hA : A.valid) (hAs : A.sound L) (hB : B.valid)
    (hBs : B.sound L) (hip : insertionPoint ≤ A.size) (hbe : begin < end_)
    (he : end_ ≤ B.size) (hno : fits L A (A.size + (end_ - begin))) :
    (never_fails Traits →
      ∃ r, insert_copy ops Traits L insertionPoint B begin end_ A = .ok r) ∧
    ∀ A' B', insert_copy ops Traits L insertionPoint B begin end_ A = .ok (A', B') →
      A'.size = A.size + (end_ - begin) ∧
      (∀ Index, Index < L.size → slice_elements L A' Index =
        (slice_elements L A Index).take insertionPoint ++
          ((slice_elements L B Index).drop begin).take (end_ - begin) ++
          (slice_elements L A Index).drop insertionPoint) ∧
      B'.size = B.size ∧
      (∀ Index, Index < L.size → slice_elements L B' Index = slice_elements L B Index) ∧
      B' = B ∧ A'.valid ∧ A'.sound L := by
  refine ⟨fun hnf => insert_impl_total ops Traits hnf L _ _ _ _ _ _, ?_⟩
  intro A' B' h
  obtain ⟨k1, k2, k3⟩ := insert_copy_cells ops Traits L insertionPoint A B A' B' begin end_ h
  unfold insert_copy at h
  rw [pass_lvalue_eq] at h
  obtain ⟨h1, h2, h3, _, _, _, h7, h8, h9⟩ :=
    insert_impl_ok ops Traits L hL id A B A' B' insertionPoint begin end_ hA hAs hB hBs hip
      (by omega) he hno h
  have hB' : B' = B := container_eq B' B k1 h8 (by rw [h7.2, hBs.2]) k2 k3
  refine ⟨h1, ?_, by rw [hB'], fun _ _ => by rw [hB'], hB', h2, h3⟩
  intro Index hI
  obtain ⟨c1, c2, c3, _, _⟩ := h9 hbe Index hI
  exact insert_slice_elements L A B A' insertionPoint begin end_ hA hB h2 hip (by omega) he h1
    Index c1 c2 c3

/-- C1, witness: the example `A = [(1,'a'),(2,'b'),(3,'c')]`, `B = [(10,'x'),(11,'y')]`,
`A.insert_copy(1, B, 0, 2)`. -/
theorem insert_copy_correct_witness :
    adjust_capacity_static_asserts demo_layout ∧ demo_A.valid ∧ demo_A.sound demo_layout ∧
    demo_B.valid ∧ demo_B.sound demo_layout ∧
    1 ≤ demo_A.size ∧ 0 < 2 ∧ 2 ≤ demo_B.size ∧
    fits demo_layout demo_A (demo_A.size + (2 - 0)) ∧
    demo_copy.1.size = demo_A.size + (2 - 0) ∧
    slice_elements demo_layout demo_copy.1 0 =
      (slice_elements demo_layout demo_A 0).take 1 ++
        ((slice_elements demo_layout demo_B 0).drop 0).take (2 - 0) ++
        (slice_elements demo_layout demo_A 0).drop 1 ∧
    demo_copy.2 = demo_B :=
  have h := (insert_copy_correct (trivial_ops Nat) unlimited demo_layout (by decide) demo_A
    demo_B 1 0 2 (by decide) (by decide) (by decide) (by decide) (by decide) (by decide)
    (by decide) (by decide)).2 demo_copy.1 demo_copy.2 rfl
  ⟨by decide, by decide, by decide, by decide, by decide, by decide, by decide, by decide,
    by decide, h.1, h.2.1 0 (by decide), h.2.2.2.2.1⟩

/-- C1 fails as stated: `A` holds `2^32 - 1` elements of type `char` and `B` holds one;
`A.insert_copy(A.size(), B, 0, 1)` meets every stated precondition, but the new size
`2^32 - 1 + 1` wraps to `0` in `size_type`: no growth is requested, the inserted element is
written before the start of the block, `A.size()` is `0` after the call instead of having
grown by `end - begin`, and the slice of `A` is empty. -/
theorem insert_copy_counterexample :
    full_range.valid ∧ full_range.sound [char_t] ∧ one_char.valid ∧ one_char.sound [char_t] ∧
    4294967295 ≤ full_range.size ∧ 0 ≤ 1 ∧ 1 ≤ one_char.size ∧
    Option.map (fun r => (r.1.size, slice_elements [char_t] r.1 0, r.1.mMemory.overrun))
      (insert_copy (trivial_ops Nat) unlimited [char_t] 4294967295 one_char 0 1
        full_range).toOption = some (0, [], true) ∧
    full_range.size + (1 - 0) = 4294967296 :=
  ⟨by decide, by decide, by decide, by decide, by decide, by decide, by decide, rfl, rfl⟩

/-- C2 (amended): for containers `A` and `B` of one field layout (two container values, each
with its own memory block of at least `capacity()` elements per field), `insertionPoint <=
A.size()`, a non-empty range `begin < end <= B.size()`, and a new size
`A.size() + (end - begin)` that is at most `A.capacity()` or is representable (rounded up to
the capacity increment, it and the byte count of a block of that capacity are below `2^32`):
`A.insert_move(insertionPoint, B, begin, end)` returns whenever the allocator does not fail,
and once it has returned every slice of `A` is
`old A[0, insertionPoint) ++ old B[begin, end) ++ old A[insertionPoint, old size)`, `B.size()`
has dropped by `end - begin`, every slice of `B` is `old B[0, begin) ++ old B[end, size)`, and
no access has left a block; this holds whatever state a move leaves its source in. -/
theorem insert_move_correct {α : Type} (ops : ElementOps α)
    (Traits : default_parallel_vector_traits) (L : type_list)
    (hL : adjust_capacity_static_asserts L) (A B : parallel_vector_impl α)
    (insertionPoint begin end_ : Nat) (hA : A.valid) (hAs : A.sound L) (hB : B.valid)
    (hBs : B.sound L) (hip : insertionPoint ≤ A.size) (hbe : begin < end_)
    (he : end_ ≤ B.size) (hno : fits L A (A.size + (end_ - begin))) :
    (never_fails Traits →
      ∃ r, insert_move ops Traits L insertionPoint B begin end_ A = .ok r) ∧
    ∀ A' B', insert_move ops Traits L insertionPoint B begin end_ A = .ok (A', B') →
      A'.size = A.size + (end_ - begin) ∧
      (∀ Index, Index < L.size → slice_elements L A' Index =
        (slice_elements L A Index).take insertionPoint ++
          ((slice_elements L B Index).drop begin).take (end_ - begin) ++
          (slice_elements L A Index).drop insertionPoint) ∧
      B'.size = B.size - (end_ - begin) ∧
      (∀ Index, Index < L.size → slice_elements L B' Index =
        (slice_elements L B Index).take begin ++ (slice_elements L B Index).drop end_) ∧
      A'.valid ∧ A'.sound L ∧ B'.sound L := by
  refine ⟨fun hnf => insert_move_total ops Traits hnf L _ _ _ _ _, ?_⟩
  intro A' B' h
  unfold insert_move at h
  split at h
  · cases h
  · next A1 B1 h1 =>
    rw [pass_rvalue_eq] at h1
    simp only [Except.ok.injEq, Prod.mk.injEq] at h
    obtain ⟨hA', hB'⟩ := h
    subst hA' hB'
    obtain ⟨g1, g2, g3, _, g4, g5, g7, _, g6⟩ := insert_impl_ok ops Traits L hL _ A B A1 B1
      insertionPoint begin end_ hA hAs hB hBs hip (by omega) he hno h1
    have hB1 : B1.valid := by
      unfold parallel_vector_impl.valid at hB ⊢
      rw [g4, g5]; exact hB
    obtain ⟨e1, _, e3⟩ := erase_ok ops L begin end_ B1 hB1 hbe (by rw [g4]; exact he)
    have hsnd := erase_sound ops L begin end_ B1 hB1 g7 (by omega) (by rw [g4]; exact he)
    rw [g4] at e1 e3
    refine ⟨g1, ?_, e1, ?_, g2, g3, hsnd⟩
    · intro Index hI
      obtain ⟨c1, c2, c3, _, _⟩ := g6 hbe Index hI
      exact insert_slice_elements L A B A1 insertionPoint begin end_ hA hB g2 hip (by omega) he
        g1 Index c1 c2 c3
    · intro Index hI
      obtain ⟨_, _, _, _, c5⟩ := g6 hbe Index hI
      obtain ⟨d1, d2⟩ := e3 Index hI
      have hBv := hB
      obtain ⟨hB1', hB2'⟩ := hB
      have hsz : B.size = B.mSize := rfl
      have hAsz : A.size = A.mSize := rfl
      apply removed_slice_elements L B _ begin end_ hBv (by omega) he e1 Index
      · intro k hk
        rw [d1 k hk]
        exact c5 k (by omega) (by omega)
      · intro k hk1 hk2
        rw [d2 k hk1 hk2]
        exact c5 _ (by omega) (by omega)

/-- C2, witness: the example `A = [(1,'a'),(2,'b'),(3,'c')]`, `B = [(10,'x'),(11,'y')]`,
`A.insert_move(1, B, 0, 2)`, which leaves `B` empty. -/
theorem insert_move_correct_witness :
    adjust_capacity_static_asserts demo_layout ∧ demo_A.valid ∧ demo_A.sound demo_layout ∧
    demo_B.valid ∧ demo_B.sound demo_layout ∧
    1 ≤ demo_A.size ∧ 0 < 2 ∧ 2 ≤ demo_B.size ∧
    fits demo_layout demo_A (demo_A.size + (2 - 0)) ∧
    demo_move.1.size = demo_A.size + (2 - 0) ∧
    slice_elements demo_layout demo_move.1 1 =
      (slice_elements demo_layout demo_A 1).take 1 ++
        ((slice_elements demo_layout demo_B 1).drop 0).take (2 - 0) ++
        (slice_elements demo_layout demo_A 1).drop 1 ∧
    demo_move.2.size = demo_B.size - (2 - 0) :=
  have h := (insert_move_correct (trivial_ops Nat) unlimited demo_layout (by decide) demo_A
    demo_B 1 0 2 (by decide) (by decide) (by decide) (by decide) (by decide) (by decide)
    (by decide) (by decide)).2 demo_move.1 demo_move.2 rfl
  ⟨by decide, by decide, by decide, by decide, by decide, by decide, by decide, by decide,
    by decide, h.1, h.2.1 1 (by decide), h.2.2.1⟩

/-- C2 fails as stated: `A` holds `2^32 - 1` elements of type `char` and `B` holds one;
`A.insert_move(A.size(), B, 0, 1)` meets every stated precondition, but the new size
`2^32 - 1 + 1` wraps to `0` in `size_type`: the inserted element is written before the start
of the block, `A.size()` is `0` after the call and the slice of `A` is empty instead of
holding the elements the claim lists. -/
theorem insert_move_counterexample :
    full_range.valid ∧ full_range.sound [char_t] ∧ one_char.valid ∧ one_char.sound [char_t] ∧
    4294967295 ≤ full_range.size ∧ 0 ≤ 1 ∧ 1 ≤ one_char.size ∧
    Option.map (fun r => (r.1.size, slice_elements [char_t] r.1 0, r.1.mMemory.overrun))
      (insert_move (trivial_ops Nat) unlimited [char_t] 4294967295 one_char 0 1
        full_range).toOption = some (0, [], true) ∧
    full_range.size + (1 - 0) = 4294967296 :=
  ⟨by decide, by decide, by decide, by decide, by decide, by decide, by decide, rfl, rfl⟩

/-- C3, the code at the failing input: a container of one `std::string` field holding
`["a", "b", "c"]`; `erase(1, 1)` (an empty range within `begin <= end <= size()`) leaves
`size()` at 3 but move-assigns the elements 1 and 2 to themselves, which empties them, so the
slice is no longer `old[0, 1) ++ old[1, 3)`. -/
theorem erase_empty_range_failing :
    (1 ≤ 1 ∧ 1 ≤ demo_strings.size) ∧
    slice_elements [string_t] demo_strings 0 = [some "a", some "b", some "c"] ∧
    (erase string_ops [string_t] 1 1 demo_strings).size = 3 ∧
    slice_elements [string_t] (erase string_ops [string_t] 1 1 demo_strings) 0 =
      [some "a", some "", some ""] ∧
    slice_elements [string_t] (erase string_ops [string_t] 1 1 demo_strings) 0 ≠
      (slice_elements [string_t] demo_strings 0).take 1 ++
        (slice_elements [string_t] demo_strings 0).drop 1 :=
  ⟨by decide, rfl, rfl, rfl, by decide⟩

/-- C4 (amended): for a container with `N` fields (with a memory block of at least
`capacity()` elements per field) and a tuple of `N` values, when the container is not full, or
the grown capacity `max(2*capacity + 1, capacity + 20)` is representable (rounded up to the
capacity increment, it and the byte count of a block of that capacity are below `2^32`):
`push_back` returns whenever the allocator does not fail, and once it has returned `size()`
has grown by exactly 1, every slice `i` is the old slice `i` followed by `vi`, whether or not
the call had to grow the capacity, and no access has left the block. -/
theorem push_back_correct {α : Type} (ops : ElementOps α)
    (Traits : default_parallel_vector_traits) (L : type_list)
    (hL : adjust_capacity_static_asserts L) (args : List α) (c : parallel_vector_impl α)
    (hv : c.valid) (hs : c.sound L) (hargs : args.length = L.size)
    (hgrow : c.size = c.capacity →
      representable L (max (2 * c.capacity + 1) (c.capacity + 20))) :
    (never_fails Traits → ∃ r, push_back ops Traits L args c = .ok r) ∧
    ∀ r, push_back ops Traits L args c = .ok r →
      r.size = c.size + 1 ∧
      (∀ Index, Index < L.size → ∃ v, args.get? Index = some v ∧
        slice_elements L r Index = slice_elements L c Index ++ [some v]) ∧
      r.valid ∧ r.sound L := by
  refine ⟨fun hnf => push_back_total ops Traits hnf L args c, ?_⟩
  intro r h
  obtain ⟨h1, h2, h3, _, h5, h6, h7⟩ := push_back_ok ops Traits L hL args c r hv hs hgrow h
  refine ⟨h1, ?_, ⟨h2, h3⟩, h7⟩
  intro Index hI
  have hlt : Index < args.length := by rw [hargs]; exact hI
  refine ⟨args.get ⟨Index, hlt⟩, List.get?_eq_get hlt, ?_⟩
  have hr : r.mSize < size_t_mod := by
    simp only [size_type_mod, size_t_mod] at *; omega
  apply slice_elements_push L c r hv hr h1 Index
  · rw [h5 Index hI, List.get?_eq_get hlt]
  · exact h6 Index hI

/-- C4, witness: `push_back(3, 'c')` on the container `[(10,'x'), (11,'y')]`. -/
theorem push_back_correct_witness :
    adjust_capacity_static_asserts demo_layout ∧ demo_B.valid ∧ demo_B.sound demo_layout ∧
    [3, 99].length = demo_layout.size ∧
    (Except.getD demo_B
      (push_back (trivial_ops Nat) unlimited demo_layout [3, 99] demo_B)).size =
        demo_B.size + 1 ∧
    ∃ v, [3, 99].get? 1 = some v ∧
      slice_elements demo_layout (Except.getD demo_B
        (push_back (trivial_ops Nat) unlimited demo_layout [3, 99] demo_B)) 1 =
        slice_elements demo_layout demo_B 1 ++ [some v] :=
  have h := (push_back_correct (trivial_ops Nat) unlimited demo_layout (by decide) [3, 99]
    demo_B (by decide) (by decide) rfl (by decide)).2 _ rfl
  ⟨by decide, by decide, by decide, rfl, h.1, h.2.1 1 (by decide)⟩

/-- C4 fails as stated: a full container of `2^32 - 1` elements of type `char`; the growth
request `max(2*capacity + 1, capacity + 20)` wraps in `size_type` to the present capacity, so
`push_back` does not grow the block, the new element is written past its end, and `++mSize`
wraps to `0`: `size()` has not grown by 1 and the slice is empty. -/
theorem push_back_counterexample :
    full_range.valid ∧ full_range.sound [char_t] ∧ [7].length = type_list.size [char_t] ∧
    Option.map (fun r => (r.size, r.capacity, slice_elements [char_t] r 0, r.mMemory.overrun))
      (push_back (trivial_ops Nat) unlimited [char_t] [7] full_range).toOption =
        some (0, 4294967295, [], true) ∧
    full_range.size + 1 = 4294967296 :=
  ⟨by decide, by decide, rfl, rfl, rfl⟩

/-- C5, the code at the failing input: the container `[(1,'a'), (2,'b'), (3,'c')]`; after
`clear()` the capacity is unchanged, but `size()` is still 3 (the member never resets
`mSize`) while every element has been destroyed. -/
theorem clear_failing :
    demo_A.size = 3 ∧ (clear demo_layout demo_A).size = 3 ∧
    (clear demo_layout demo_A).capacity = demo_A.capacity ∧
    slice_elements demo_layout (clear demo_layout demo_A) 0 = [none, none, none] ∧
    slice_elements demo_layout (clear demo_layout demo_A) 1 = [none, none, none] :=
  ⟨rfl, rfl, rfl, rfl, rfl⟩

theorem reserve_each_ok {α : Type} (ops : ElementOps α)
    (Traits : default_parallel_vector_traits) (L : type_list)
    (hL : adjust_capacity_static_asserts L) (ns : List Nat) :
    ∀ (c r : parallel_vector_impl α), c.valid → c.sound L →
      (∀ n, n ∈ ns → representable L n) →
      reserve_each ops Traits L ns c = .ok r →
      r.valid ∧ r.sound L ∧ r.mSize = c.mSize ∧ c.mCapacity ≤ r.mCapacity ∧
        (∀ i, i < L.length → ∀ k, k < c.mSize → cell L r i k = cell L c i k) := by
  induction ns with
  | nil =>
    intro c r hv hs _ h
    simp only [reserve_each, Except.ok.injEq] at h
    subst h
    exact ⟨hv, hs, rfl, le_refl _, fun _ _ _ _ => rfl⟩
  | cons n ns ih =>
    intro c r hv hs hns h
    simp only [reserve_each] at h
    split at h
    · cases h
    · next c1 hc1 =>
      obtain ⟨a1, a0, a2, _, a4, a5⟩ := reserve_ok ops Traits L hL n c c1 hv hs
        (Or.inr (hns n (List.mem_cons_self _ _))) hc1
      obtain ⟨b1, b0, b2, b3, b4⟩ :=
        ih c1 r a1 a0 (fun m hm => hns m (List.mem_cons_of_mem _ hm)) h
      refine ⟨b1, b0, by rw [b2, a2], by omega, ?_⟩
      intro i hi k hk
      rw [b4 i hi k (by rw [a2]; exact hk), a5 i hi k hk]

theorem reserve_each_total {α : Type} (ops : ElementOps α)
    (Traits : default_parallel_vector_traits) (hnf : never_fails Traits) (L : type_list)
    (ns : List Nat) : ∀ c : parallel_vector_impl α, ∃ r, reserve_each ops Traits L ns c = .ok r := by
  induction ns with
  | nil => intro c; exact ⟨c, rfl⟩
  | cons n ns ih =>
    intro c
    obtain ⟨c1, hc1⟩ := reserve_total ops Traits hnf L n c
    obtain ⟨r, hr⟩ := ih c1
    exact ⟨r, by simp only [reserve_each, hc1, hr]⟩

/-- C6 (amended): for every container and every `n` that is at most the capacity, or is still
representable in `size_type` after rounding up to the capacity increment
(`n + kMinIncrement - 1 < 2^32`): `reserve(n)` returns whenever the allocator does not fail,
and once it has returned `capacity() >= n` and `capacity() >=` the old capacity; when `n` is at
most the old capacity the call is a no-op (memory block, size and capacity unchanged). When
moreover `size() <= capacity()`, the block has room for `capacity()` elements per field and
the byte count of the new block is below `2^32`, the same holds of the container after the
call: the relocation stays inside both blocks. -/
theorem reserve_capacity {α : Type} (ops : ElementOps α)
    (Traits : default_parallel_vector_traits) (L : type_list)
    (hL : adjust_capacity_static_asserts L) (n : Nat) (c : parallel_vector_impl α)
    (hn : n ≤ c.capacity ∨ n + kMinIncrement L - 1 < size_type_mod) :
    (never_fails Traits → ∃ r, reserve ops Traits L n c = .ok r) ∧
    ∀ r, reserve ops Traits L n c = .ok r →
      n ≤ r.capacity ∧ c.capacity ≤ r.capacity ∧ (n ≤ c.capacity → r = c) ∧
      (c.valid → c.sound L → fits L c n → r.valid ∧ r.sound L) := by
  refine ⟨fun hnf => reserve_total ops Traits hnf L n c, ?_⟩
  intro r h
  have hnoop : n ≤ c.capacity → r = c := fun hle => by
    rw [reserve_noop ops Traits L n c hle] at h
    cases h; rfl
  have hsnd : c.valid → c.sound L → fits L c n → r.valid ∧ r.sound L := fun hv hs hf =>
    have hr := reserve_ok ops Traits L hL n c r hv hs hf h
    ⟨hr.1, hr.2.1⟩
  by_cases hle : n ≤ c.capacity
  · have := hnoop hle
    subst this
    exact ⟨hle, le_refl _, fun _ => rfl, hsnd⟩
  · have hn2 : n + kMinIncrement L - 1 < size_type_mod := by
      rcases hn with h' | h'
      · exact absurd h' hle
      · exact h'
    have hb := adjust_capacity_bounds L hL n hn2
    have hlt : c.mCapacity < n := Nat.lt_of_not_le hle
    obtain ⟨_, g2, _⟩ := reserve_grow ops Traits L n c r hlt h
    have hcap : r.capacity = r.mCapacity := rfl
    have hcap2 : c.capacity = c.mCapacity := rfl
    refine ⟨by omega, by omega, hnoop, hsnd⟩

/-- C6, witness: `reserve(100)` on the container `[(1,'a'), (2,'b'), (3,'c')]` of
capacity 20. -/
theorem reserve_capacity_witness :
    adjust_capacity_static_asserts demo_layout ∧
    (100 ≤ demo_A.capacity ∨ 100 + kMinIncrement demo_layout - 1 < size_type_mod) ∧
    100 ≤ (Except.getD demo_A
      (reserve (trivial_ops Nat) unlimited demo_layout 100 demo_A)).capacity ∧
    demo_A.capacity ≤ (Except.getD demo_A
      (reserve (trivial_ops Nat) unlimited demo_layout 100 demo_A)).capacity ∧
    (Except.getD demo_A
      (reserve (trivial_ops Nat) unlimited demo_layout 100 demo_A)).sound demo_layout :=
  have h := (reserve_capacity (trivial_ops Nat) unlimited demo_layout (by decide) 100 demo_A
    (by decide)).2 _ rfl
  ⟨by decide, by decide, h.1, h.2.1, (h.2.2.2 (by decide) (by decide) (by decide)).2⟩

/-- C6 fails as stated: a fresh container with a `char` and a `double` field (capacity
increment 8); `reserve(2^32 - 1)` rounds the request up to `2^32`, which is `0` in
`size_type`: the call succeeds and leaves `capacity() == 0`, less than the request. -/
theorem reserve_counterexample :
    Option.map (fun r => r.capacity)
      (reserve (trivial_ops Nat) unlimited [char_t, double_t] 4294967295
        parallel_vector_impl.init).toOption = some 0 ∧
    ¬ (4294967295 ≤ 0) :=
  ⟨rfl, by decide⟩

/-- C7 (amended): for every container with `size() <= capacity()` and a memory block of at
least `capacity()` elements per field, and requests that are representable (rounded up to the
capacity increment, `n` and the byte count of a block of that capacity are below `2^32`): one
`reserve(n)`, and any number of successive calls, return whenever the allocator does not
fail, and leave `size()` unchanged and every slice with the same values in the same order,
relocated from the offsets of the old capacity to those of the new one, without an access
leaving a block. -/
theorem reserve_preserves_contents {α : Type} (ops : ElementOps α)
    (Traits : default_parallel_vector_traits) (L : type_list)
    (hL : adjust_capacity_static_asserts L) (c : parallel_vector_impl α) (hv : c.valid)
    (hs : c.sound L) (ns : List Nat) (hns : ∀ n, n ∈ ns → representable L n) :
    (∀ n, n ∈ ns → (never_fails Traits → ∃ r, reserve ops Traits L n c = .ok r) ∧
      ∀ r, reserve ops Traits L n c = .ok r →
        r.size = c.size ∧
        (∀ Index, Index < L.size → slice_elements L r Index = slice_elements L c Index) ∧
        r.valid ∧ r.sound L) ∧
    (never_fails Traits → ∃ r, reserve_each ops Traits L ns c = .ok r) ∧
    ∀ r, reserve_each ops Traits L ns c = .ok r →
      r.size = c.size ∧
      (∀ Index, Index < L.size → slice_elements L r Index = slice_elements L c Index) ∧
      r.valid ∧ r.sound L := by
  refine ⟨?_, fun hnf => reserve_each_total ops Traits hnf L ns c, ?_⟩
  · intro n hn
    refine ⟨fun hnf => reserve_total ops Traits hnf L n c, ?_⟩
    intro r h
    obtain ⟨a1, a0, a2, _, _, a5⟩ :=
      reserve_ok ops Traits L hL n c r hv hs (Or.inr (hns n hn)) h
    exact ⟨a2, fun Index hI => slice_elements_congr L c r hv a2 Index (a5 Index hI), a1, a0⟩
  · intro r h
    obtain ⟨b1, b0, b2, _, b4⟩ := reserve_each_ok ops Traits L hL ns c r hv hs hns h
    exact ⟨b2, fun Index hI => slice_elements_congr L c r hv b2 Index (b4 Index hI), b1, b0⟩

/-- C7, witness: the container `[(1,'a'), (2,'b'), (3,'c')]` of capacity 20 taken through
the growths `reserve(21)`, `reserve(50)`, `reserve(200)`. -/
theorem reserve_preserves_contents_witness :
    adjust_capacity_static_asserts demo_layout ∧ demo_A.valid ∧ demo_A.sound demo_layout ∧
    (∀ n, n ∈ [21, 50, 200] → representable demo_layout n) ∧
    (Except.getD demo_A
      (reserve_each (trivial_ops Nat) unlimited demo_layout [21, 50, 200] demo_A)).size =
        demo_A.size ∧
    slice_elements demo_layout (Except.getD demo_A
      (reserve_each (trivial_ops Nat) unlimited demo_layout [21, 50, 200] demo_A)) 0 =
        slice_elements demo_layout demo_A 0 :=
  have h := (reserve_preserves_contents (trivial_ops Nat) unlimited demo_layout (by decide)
    demo_A (by decide) (by decide) [21, 50, 200] (by decide)).2.2 _ rfl
  ⟨by decide, by decide, by decide, by decide, h.1, h.2.1 0 (by decide)⟩

/-- C7 fails as stated: the container `[(1, 2)]` with a `char` and a `double` field;
`reserve(2^32 - 1)` reallocates, but the rounded request wraps to capacity `0`, the new block
is empty (a null pointer), every slice then starts at offset `0`, and the relocated `double`
overwrites the relocated `char`, both written outside the block: the `char` slice reads `[2]`
instead of `[1]`. -/
theorem reserve_contents_counterexample :
    demo_mixed.valid ∧ demo_mixed.sound [char_t, double_t] ∧
    demo_mixed.capacity < 4294967295 ∧
    slice_elements [char_t, double_t] demo_mixed 0 = [some 1] ∧
    Option.map (fun r => (r.size, r.capacity, slice_elements [char_t, double_t] r 0,
        r.mMemory.overrun))
      (reserve (trivial_ops Nat) unlimited [char_t, double_t] 4294967295
        demo_mixed).toOption = some (1, 0, [some 2], true) :=
  ⟨by decide, by decide, by decide, rfl, rfl⟩

theorem step_ok {α : Type} (ops : ElementOps α) (Traits : default_parallel_vector_traits)
    (L : type_list) (hL : adjust_capacity_static_asserts L) (op : Operation α)
    (c : parallel_vector_impl α) (hv : c.valid) (hs : c.sound L)
    (hpre : op.precondition L c) (hrange : op.in_range L c) :
    (op.step ops Traits L c).valid ∧ (op.step ops Traits L c).sound L := by
  have hv' := hv
  obtain ⟨hv1, hv2⟩ := hv'
  have hsz : c.size = c.mSize := rfl
  have hcp : c.capacity = c.mCapacity := rfl
  cases op with
  | reserve n =>
    simp only [Operation.step, Operation.call]
    cases h : reserve ops Traits L n c with
    | error e => exact ⟨hv, hs⟩
    | ok r =>
      have hr := reserve_ok ops Traits L hL n c r hv hs hrange h
      exact ⟨hr.1, hr.2.1⟩
  | push_back args =>
    simp only [Operation.step, Operation.call]
    cases h : push_back ops Traits L args c with
    | error e => exact ⟨hv, hs⟩
    | ok r =>
      obtain ⟨_, h2, h3, _, _, _, h7⟩ := push_back_ok ops Traits L hL args c r hv hs hrange h
      exact ⟨⟨h2, h3⟩, h7⟩
  | insert_copy ip other b e =>
    obtain ⟨p1, p2, p3, p4, p5⟩ := hpre
    simp only [Operation.step, Operation.call, insert_copy]
    rw [pass_lvalue_eq]
    cases h : insert_impl ops Traits L ip other b e (residue_transform id) c with
    | error e => exact ⟨hv, hs⟩
    | ok r =>
      obtain ⟨A', B'⟩ := r
      obtain ⟨_, g2, g3, _⟩ := insert_impl_ok ops Traits L hL id c other A' B' ip b e hv hs p4
        p5 p1 p2 p3 hrange h
      exact ⟨g2, g3⟩
  | insert_move ip other b e =>
    obtain ⟨p1, p2, p3, p4, p5⟩ := hpre
    simp only [Operation.step, Operation.call, insert_move]
    rw [pass_rvalue_eq]
    cases h : insert_impl ops Traits L ip other b e
        (residue_transform (Option.map ops.moved_from)) c with
    | error e => exact ⟨hv, hs⟩
    | ok r =>
      obtain ⟨A', B'⟩ := r
      obtain ⟨_, g2, g3, _⟩ := insert_impl_ok ops Traits L hL _ c other A' B' ip b e hv hs p4
        p5 p1 p2 p3 hrange h
      exact ⟨g2, g3⟩
  | erase b e =>
    obtain ⟨p1, p2⟩ := hpre
    rw [hsz] at p2
    have e1 : size_type_sub e b = e - b := size_type_sub_eq _ _ p1 (by omega)
    have e2 : size_type_sub c.mSize (e - b) = c.mSize - (e - b) :=
      size_type_sub_eq _ _ (by omega) (by omega)
    refine ⟨?_, erase_sound ops L b e c hv hs p1 p2⟩
    simp only [Operation.step, Operation.call, Except.getD, erase, e1, e2,
      parallel_vector_impl.valid]
    omega
  | pop_back =>
    have p1 : c.mSize ≠ 0 := hpre
    have e0 : size_type_sub c.mSize 1 = c.mSize - 1 :=
      size_type_sub_eq _ _ (by omega) (by omega)
    have e1 : size_type_sub c.mSize (c.mSize - 1) = 1 := by
      rw [size_type_sub_eq _ _ (by omega) (by omega)]; omega
    have e2 : size_type_sub c.mSize 1 = c.mSize - 1 := e0
    refine ⟨?_, ?_⟩
    · simp only [Operation.step, Operation.call, Except.getD, pop_back, erase, e0, e1, e2,
        parallel_vector_impl.valid]
      omega
    · have := erase_sound ops L (c.mSize - 1) c.mSize c hv hs (by omega) (le_refl _)
      simp only [Operation.step, Operation.call, Except.getD, pop_back, e0]
      exact this
  | clear => exact ⟨hv, clear_sound L c hv hs⟩

theorem run_ok {α : Type} (ops : ElementOps α) (Traits : default_parallel_vector_traits)
    (L : type_list) (hL : adjust_capacity_static_asserts L) (calls : List (Operation α)) :
    ∀ c : parallel_vector_impl α, c.valid → c.sound L →
      holds_along ops Traits L (Operation.precondition L) calls c →
      holds_along ops Traits L (Operation.in_range L) calls c →
      (run ops Traits L calls c).valid ∧ (run ops Traits L calls c).sound L := by
  induction calls with
  | nil => intro c hv hs _ _; exact ⟨hv, hs⟩
  | cons op rest ih =>
    intro c hv hs hpre hrange
    have h := step_ok ops Traits L hL op c hv hs hpre.1 hrange.1
    exact ih _ h.1 h.2 hpre.2 hrange.2

/-- C8 (amended): starting from a freshly constructed container, after any finite sequence
of `reserve`, `push_back`, `insert_copy`, `insert_move`, `erase`, `pop_back` and `clear` calls
made within their preconditions and with every capacity a call needs either there already or
representable (rounded up to the capacity increment, it and the byte count of a block of that
capacity are below `2^32`), `0 <= size() <= capacity()` holds, every field slice has length
exactly `size()`, and no access has left the memory block. -/
theorem size_capacity_invariant {α : Type} (ops : ElementOps α)
    (Traits : default_parallel_vector_traits) (L : type_list)
    (hL : adjust_capacity_static_asserts L) (capacity : Nat) (fresh : parallel_vector_impl α)
    (hfresh : parallel_vector_impl.new ops Traits L capacity = .ok fresh)
    (hcap : fits L (parallel_vector_impl.init : parallel_vector_impl α) capacity)
    (calls : List (Operation α))
    (hpre : holds_along ops Traits L (Operation.precondition L) calls fresh)
    (hrange : holds_along ops Traits L (Operation.in_range L) calls fresh) :
    0 ≤ (run ops Traits L calls fresh).size ∧
    (run ops Traits L calls fresh).size ≤ (run ops Traits L calls fresh).capacity ∧
    (∀ Index, (slice L (run ops Traits L calls fresh) Index).size =
      (run ops Traits L calls fresh).size) ∧
    (run ops Traits L calls fresh).sound L := by
  have hinit : (parallel_vector_impl.init : parallel_vector_impl α).valid :=
    ⟨Nat.le_refl 0, show 0 < size_type_mod by decide⟩
  have hinit2 : (parallel_vector_impl.init : parallel_vector_impl α).sound L :=
    ⟨by simp [parallel_vector_impl.init], rfl⟩
  have h0 := reserve_ok ops Traits L hL capacity _ fresh hinit hinit2 hcap hfresh
  have hv := run_ok ops Traits L hL calls fresh h0.1 h0.2.1 hpre hrange
  exact ⟨Nat.zero_le _, hv.1.1, fun Index => slice_size L _ hv.1 Index, hv.2⟩

/-- C8, witness: a fresh `int, char` container taken through `push_back`, `reserve`,
`insert_copy`, `erase`, `pop_back`, `insert_move` and `clear`. -/
theorem size_capacity_invariant_witness :
    adjust_capacity_static_asserts demo_layout ∧
    fits demo_layout (parallel_vector_impl.init : parallel_vector_impl Nat) 0 ∧
    (run (trivial_ops Nat) unlimited demo_layout
      [.push_back [1, 97], .reserve 30, .insert_copy 1 demo_B 0 2, .erase 0 1, .pop_back,
        .insert_move 0 demo_A 1 3, .clear] parallel_vector_impl.init).size ≤
    (run (trivial_ops Nat) unlimited demo_layout
      [.push_back [1, 97], .reserve 30, .insert_copy 1 demo_B 0 2, .erase 0 1, .pop_back,
        .insert_move 0 demo_A 1 3, .clear] parallel_vector_impl.init).capacity ∧
    (slice demo_layout (run (trivial_ops Nat) unlimited demo_layout
      [.push_back [1, 97], .reserve 30, .insert_copy 1 demo_B 0 2, .erase 0 1, .pop_back,
        .insert_move 0 demo_A 1 3, .clear] parallel_vector_impl.init) 1).size =
    (run (trivial_ops Nat) unlimited demo_layout
      [.push_back [1, 97], .reserve 30, .insert_copy 1 demo_B 0 2, .erase 0 1, .pop_back,
        .insert_move 0 demo_A 1 3, .clear] parallel_vector_impl.init).size :=
  have h := size_capacity_invariant (trivial_ops Nat) unlimited demo_layout (by decide) 0
    parallel_vector_impl.init rfl (by decide)
    [.push_back [1, 97], .reserve 30, .insert_copy 1 demo_B 0 2, .erase 0 1, .pop_back,
      .insert_move 0 demo_A 1 3, .clear]
    (by simp only [holds_along, Operation.precondition]; decide)
    (by simp only [holds_along, Operation.in_range]; decide)
  ⟨by decide, by decide, h.2.1, h.2.2.1 1⟩

/-- C8 fails as stated, twice. A freshly constructed container with a `char` and a `double`
field (capacity increment 8), then `push_back(1, 2)` and `reserve(2^32 - 1)`, two calls
without a precondition: the rounded request wraps to `0` in `size_type`, which leaves
`size() == 1` above `capacity() == 0`. And a freshly constructed container of one `char`
field, then `insert_copy(0, B, 0, 2^32 - 2)` from a container `B` of `2^32 - 1` elements and
`push_back(7)`: the growth request of `push_back` wraps below the capacity `2^32 - 2`, no
growth happens, and `size()` becomes `2^32 - 1`, above the capacity. -/
theorem size_capacity_counterexample :
    (parallel_vector_impl.new (trivial_ops Nat) unlimited [char_t, double_t] 0 =
      .ok parallel_vector_impl.init ∧
    holds_along (trivial_ops Nat) unlimited [char_t, double_t]
      (Operation.precondition [char_t, double_t])
      [.push_back [1, 2], .reserve 4294967295] parallel_vector_impl.init ∧
    (run (trivial_ops Nat) unlimited [char_t, double_t]
      [.push_back [1, 2], .reserve 4294967295] parallel_vector_impl.init).size = 1 ∧
    (run (trivial_ops Nat) unlimited [char_t, double_t]
      [.push_back [1, 2], .reserve 4294967295] parallel_vector_impl.init).capacity = 0 ∧
    ¬ (1 ≤ 0)) ∧
    (parallel_vector_impl.new (trivial_ops Nat) unlimited [char_t] 0 =
      .ok parallel_vector_impl.init ∧
    holds_along (trivial_ops Nat) unlimited [char_t] (Operation.precondition [char_t])
      [.insert_copy 0 full_range 0 4294967294, .push_back [7]] parallel_vector_impl.init ∧
    (run (trivial_ops Nat) unlimited [char_t]
      [.insert_copy 0 full_range 0 4294967294, .push_back [7]]
      parallel_vector_impl.init).size = 4294967295 ∧
    (run (trivial_ops Nat) unlimited [char_t]
      [.insert_copy 0 full_range 0 4294967294, .push_back [7]]
      parallel_vector_impl.init).capacity = 4294967294 ∧
    ¬ (4294967295 ≤ 4294967294)) :=
  ⟨⟨rfl, ⟨trivial, trivial, trivial⟩, rfl, rfl, by decide⟩,
    ⟨rfl, ⟨⟨by decide, by decide, by decide, by decide, by decide⟩, trivial, trivial⟩, rfl,
      rfl, by decide⟩⟩

/-- C9: for every field list whose alignments are powers of two and whose sizes are multiples
of the alignments, and every capacity `adjust_capacity` produces from a request of type
`size_type`, the byte offset of each slice start, `capacity * (sum of the sizes of the
preceding fields)`, is a multiple of that field's alignment; in particular the slice of an
8-byte-aligned field next to a 1-byte-aligned one always starts at a multiple of 8. -/
theorem slice_start_aligned (L : type_list)
    (hpow : ∀ T, T ∈ L → ∃ k, T.alignof = 2 ^ k)
    (hmul : ∀ T, T ∈ L → T.alignof ∣ T.sizeof) (required : Nat)
    (hreq : required < size_type_mod) (Index : Nat) (hI : Index < L.size) :
    ((L.get ⟨Index, hI⟩).alignof : Int) ∣
        (slice_start L Index (adjust_capacity L required)).addr ∧
      (slice_start L Index (adjust_capacity L required)).addr =
        ((adjust_capacity L required * kSizeCoeff L Index : Nat) : Int) ∧
      ∀ A B : FieldType, L = [A, B] ∨ L = [B, A] → A.alignof = 1 → B.alignof = 8 →
        (∀ i (h : i < L.size), L.get ⟨i, h⟩ = B →
          (8 : Int) ∣ (slice_start L i (adjust_capacity L required)).addr) := by
  have hne : L ≠ [] := by
    intro h; rw [h] at hI; exact absurd hI (Nat.not_lt_zero _)
  obtain ⟨hL, a, b, hab, hinc, hall⟩ := static_asserts_of_pow L hne hpow
  have haddr : ∀ i, (slice_start L i (adjust_capacity L required)).addr =
      ((adjust_capacity L required * kSizeCoeff L i : Nat) : Int) := by
    intro i
    simp [slice_start, Pointer.addr]
  have hdvd : ∀ i (h : i < L.size), (L.get ⟨i, h⟩).alignof ∣
      adjust_capacity L required * kSizeCoeff L i := by
    intro i h
    have h1 : 2 ^ (b - a) ∣ adjust_capacity L required := by
      rw [← hinc]; exact adjust_capacity_dvd L hL required hreq
    have h2 : 2 ^ a ∣ kSizeCoeff L i := by
      rw [kSizeCoeff_eq L i (Nat.le_of_lt h)]
      exact size_before_dvd L _ (fun T hT => dvd_trans (hall T hT).1 (hmul T hT)) i
    have h3 : 2 ^ (b - a) * 2 ^ a ∣ adjust_capacity L required * kSizeCoeff L i :=
      Nat.mul_dvd_mul h1 h2
    rw [← pow_add, Nat.sub_add_cancel hab] at h3
    exact dvd_trans (hall _ (List.get_mem L i h)).2 h3
  refine ⟨?_, haddr Index, ?_⟩
  · rw [haddr]
    exact Int.natCast_dvd_natCast.mpr (hdvd Index hI)
  · intro A B _ _ hB i h hget
    have := hdvd i h
    rw [hget, hB] at this
    rw [haddr]
    exact_mod_cast Int.natCast_dvd_natCast.mpr this

/-- C9, witness: a `char` and a `double` field, request 21 (capacity 24): the `double`
slice starts at byte offset 24. -/
theorem slice_start_aligned_witness :
    (∀ T, T ∈ [char_t, double_t] → ∃ k, T.alignof = 2 ^ k) ∧
    (∀ T, T ∈ [char_t, double_t] → T.alignof ∣ T.sizeof) ∧ 21 < size_type_mod ∧
    ((8 : Nat) : Int) ∣ (slice_start [char_t, double_t] 1
      (adjust_capacity [char_t, double_t] 21)).addr ∧
    (slice_start [char_t, double_t] 1 (adjust_capacity [char_t, double_t] 21)).addr = 24 :=
  have hpow : ∀ T, T ∈ [char_t, double_t] → ∃ k, T.alignof = 2 ^ k := by
    intro T hT
    simp only [List.mem_cons, List.mem_singleton, List.not_mem_nil, or_false] at hT
    rcases hT with h | h
    · exact ⟨0, by rw [h]; rfl⟩
    · exact ⟨3, by rw [h]; rfl⟩
  have hmul : ∀ T, T ∈ [char_t, double_t] → T.alignof ∣ T.sizeof := by
    intro T hT
    simp only [List.mem_cons, List.mem_singleton, List.not_mem_nil, or_false] at hT
    rcases hT with h | h
    · rw [h]; exact ⟨1, rfl⟩
    · rw [h]; exact ⟨1, rfl⟩
  ⟨hpow, hmul, by decide,
    (slice_start_aligned [char_t, double_t] hpow hmul 21 (by decide) 1 (by decide)).1, rfl⟩

/-- C10: for every field list, every capacity and two distinct field indices `i` and `j`, the
byte ranges `[capacity * P(i), capacity * P(i) + capacity * size(Fi))` and
`[capacity * P(j), capacity * P(j) + capacity * size(Fj))` of the two slices have no byte in
common, where `P(k)` is `apply_to_all_t<sum_size, TypeList, k>::value`, the offset factor
`slice_start` uses. -/
theorem slices_do_not_overlap (L : type_list) (capacity i j : Nat) (hi : i < L.size)
    (hj : j < L.size) (hij : i ≠ j) :
    (slice_start L i capacity).addr = ((capacity * kSizeCoeff L i : Nat) : Int) ∧
    (slice_start L j capacity).addr = ((capacity * kSizeCoeff L j : Nat) : Int) ∧
    ∀ x : Nat,
      ¬ ((capacity * kSizeCoeff L i ≤ x ∧
            x < capacity * kSizeCoeff L i + capacity * sizeof_element L i) ∧
          (capacity * kSizeCoeff L j ≤ x ∧
            x < capacity * kSizeCoeff L j + capacity * sizeof_element L j)) := by
  refine ⟨by simp [slice_start, Pointer.addr], by simp [slice_start, Pointer.addr], ?_⟩
  intro x hx
  rcases Nat.lt_or_gt_of_ne hij with h | h
  · have := slice_range_le L capacity i j hj h
    omega
  · have := slice_range_le L capacity j i hi h
    omega

/-- C10, witness: the `int` and the `char` slice of a block of capacity 20 (bytes
`[0, 80)` and `[80, 100)`), at the byte 80. -/
theorem slices_do_not_overlap_witness :
    0 < demo_layout.size ∧ 1 < demo_layout.size ∧ 0 ≠ 1 ∧
    ¬ ((20 * kSizeCoeff demo_layout 0 ≤ 80 ∧
          80 < 20 * kSizeCoeff demo_layout 0 + 20 * sizeof_element demo_layout 0) ∧
        (20 * kSizeCoeff demo_layout 1 ≤ 80 ∧
          80 < 20 * kSizeCoeff demo_layout 1 + 20 * sizeof_element demo_layout 1)) :=
  ⟨by decide, by decide, by decide,
    (slices_do_not_overlap demo_layout 20 0 1 (by decide) (by decide) (by decide)).2.2 80⟩

/-! ## Calls left by an exception -/

theorem allocate_error {α : Type} (Traits : default_parallel_vector_traits) (bytes : Nat)
    (e : Exn) (h : (Traits.allocate bytes : Except Exn (Block α)) = .error e) :
    e = .bad_alloc := by
  unfold default_parallel_vector_traits.allocate at h
  split at h
  · split at h
    · cases h
    · cases h; rfl
  · cases h

theorem allocate_of_fails {α : Type} (Traits : default_parallel_vector_traits) (L : type_list)
    (n : Nat) (h : allocation_fails Traits L n) :
    (Traits.allocate (size_type_mul (adjust_capacity L n) (kSizePerElement L)) :
      Except Exn (Block α)) = .error .bad_alloc := by
  unfold default_parallel_vector_traits.allocate
  rw [if_pos h.1, h.2]
  rfl

/-- The call of `reserve` followed statement by statement returns what `reserve` returns. -/
theorem reserve_call_result {α : Type} (ops : ElementOps α)
    (Traits : default_parallel_vector_traits) (L : type_list) (n : Nat)
    (c : parallel_vector_impl α) :
    (reserve_call ops Traits L n c).result = reserve ops Traits L n c := by
  unfold reserve_call reserve
  split
  · rfl
  · split <;> rfl

/-- An exception leaves `reserve` with the container as it was: it is `std::bad_alloc`. -/
theorem reserve_call_thrown {α : Type} (ops : ElementOps α)
    (Traits : default_parallel_vector_traits) (L : type_list) (n : Nat)
    (c : parallel_vector_impl α) (e : Exn) (h : (reserve_call ops Traits L n c).thrown = some e) :
    e = .bad_alloc ∧ reserve_call ops Traits L n c = ⟨c, some e⟩ := by
  unfold reserve_call at h ⊢
  by_cases hle : n ≤ c.mCapacity
  · rw [if_pos hle] at h
    cases h
  · rw [if_neg hle] at h ⊢
    generalize ha : (Traits.allocate (size_type_mul (adjust_capacity L n) (kSizePerElement L)) :
      Except Exn (Block α)) = a at h ⊢
    cases a with
    | error e' =>
      simp only [Option.some.injEq] at h
      subst h
      exact ⟨allocate_error Traits _ _ ha, rfl⟩
    | ok mem => cases h

/-- A failing allocation makes `reserve` throw. -/
theorem reserve_call_fails {α : Type} (ops : ElementOps α)
    (Traits : default_parallel_vector_traits) (L : type_list) (n : Nat)
    (c : parallel_vector_impl α) (hn : c.mCapacity < n) (hf : allocation_fails Traits L n) :
    reserve_call ops Traits L n c = ⟨c, some .bad_alloc⟩ := by
  unfold reserve_call
  rw [if_neg (by omega), allocate_of_fails Traits L n hf]

theorem push_back_call_result {α : Type} (ops : ElementOps α)
    (Traits : default_parallel_vector_traits) (L : type_list) (args : List α)
    (c : parallel_vector_impl α) :
    (push_back_call ops Traits L args c).result = push_back ops Traits L args c := by
  unfold push_back_call push_back auto_grow_call auto_grow
  by_cases hfull : c.mSize = c.mCapacity
  · rw [if_pos hfull, if_pos hfull, ← reserve_call_result]
    generalize reserve_call ops Traits L _ c = x
    obtain ⟨s, t⟩ := x
    cases t <;> rfl
  · rw [if_neg hfull, if_neg hfull]
    rfl

theorem push_back_call_thrown {α : Type} (ops : ElementOps α)
    (Traits : default_parallel_vector_traits) (L : type_list) (args : List α)
    (c : parallel_vector_impl α) (e : Exn)
    (h : (push_back_call ops Traits L args c).thrown = some e) :
    e = .bad_alloc ∧ push_back_call ops Traits L args c = ⟨c, some e⟩ := by
  unfold push_back_call auto_grow_call at h ⊢
  by_cases hfull : c.mSize = c.mCapacity
  · rw [if_pos hfull] at h ⊢
    generalize hx : reserve_call ops Traits L
      (max (size_type_add (size_type_mul 2 c.mCapacity) 1) (size_type_add c.mCapacity 20))
      c = x at h ⊢
    obtain ⟨s, t⟩ := x
    cases t with
    | none => cases h
    | some e' =>
      simp only [Option.some.injEq] at h
      subst h
      obtain ⟨q1, q2⟩ := reserve_call_thrown ops Traits L _ c e' (by rw [hx])
      rw [hx] at q2
      simp only [Exit.mk.injEq] at q2
      rw [q2.1]
      exact ⟨q1, rfl⟩
  · rw [if_neg hfull] at h
    cases h

theorem push_back_call_fails {α : Type} (ops : ElementOps α)
    (Traits : default_parallel_vector_traits) (L : type_list) (args : List α)
    (c : parallel_vector_impl α) (hfull : c.mSize = c.mCapacity)
    (hn : c.mCapacity <
      max (size_type_add (size_type_mul 2 c.mCapacity) 1) (size_type_add c.mCapacity 20))
    (hf : allocation_fails Traits L
      (max (size_type_add (size_type_mul 2 c.mCapacity) 1) (size_type_add c.mCapacity 20))) :
    push_back_call ops Traits L args c = ⟨c, some .bad_alloc⟩ := by
  unfold push_back_call auto_grow_call
  rw [if_pos hfull, reserve_call_fails ops Traits L _ c hn hf]

theorem insert_impl_call_result {α : Type} (ops : ElementOps α)
    (Traits : default_parallel_vector_traits) (L : type_list) (ip : Nat)
    (B : parallel_vector_impl α) (b e : Nat) (transform : TransformFunctor α)
    (c : parallel_vector_impl α) :
    (insert_impl_call ops Traits L ip B b e transform c).result =
      insert_impl ops Traits L ip B b e transform c := by
  unfold insert_impl_call insert_impl
  simp only
  by_cases hg : size_type_add c.mSize (size_type_sub e b) > c.mCapacity
  · rw [if_pos hg, if_pos hg, ← reserve_call_result]
    generalize reserve_call ops Traits L _ c = x
    obtain ⟨s, t⟩ := x
    cases t <;> rfl
  · rw [if_neg hg, if_neg hg]
    rfl

theorem insert_impl_call_thrown {α : Type} (ops : ElementOps α)
    (Traits : default_parallel_vector_traits) (L : type_list) (ip : Nat)
    (B : parallel_vector_impl α) (b e : Nat) (transform : TransformFunctor α)
    (c : parallel_vector_impl α) (x : Exn)
    (h : (insert_impl_call ops Traits L ip B b e transform c).thrown = some x) :
    x = .bad_alloc ∧ insert_impl_call ops Traits L ip B b e transform c = ⟨(c, B), some x⟩ := by
  unfold insert_impl_call at h ⊢
  simp only at h ⊢
  by_cases hg : size_type_add c.mSize (size_type_sub e b) > c.mCapacity
  · rw [if_pos hg] at h ⊢
    generalize hx : reserve_call ops Traits L (size_type_add c.mSize (size_type_sub e b))
      c = r at h ⊢
    obtain ⟨s, t⟩ := r
    cases t with
    | none => cases h
    | some e' =>
      simp only [Option.some.injEq] at h
      subst h
      obtain ⟨q1, q2⟩ := reserve_call_thrown ops Traits L _ c e' (by rw [hx])
      rw [hx] at q2
      simp only [Exit.mk.injEq] at q2
      rw [q2.1]
      exact ⟨q1, rfl⟩
  · rw [if_neg hg] at h
    cases h

theorem insert_impl_call_fails {α : Type} (ops : ElementOps α)
    (Traits : default_parallel_vector_traits) (L : type_list) (ip : Nat)
    (B : parallel_vector_impl α) (b e : Nat) (transform : TransformFunctor α)
    (c : parallel_vector_impl α)
    (hg : c.mCapacity < size_type_add c.mSize (size_type_sub e b))
    (hf : allocation_fails Traits L (size_type_add c.mSize (size_type_sub e b))) :
    insert_impl_call ops Traits L ip B b e transform c = ⟨(c, B), some .bad_alloc⟩ := by
  unfold insert_impl_call
  simp only
  rw [if_pos hg, reserve_call_fails ops Traits L _ c hg hf]

theorem insert_move_call_result {α : Type} (ops : ElementOps α)
    (Traits : default_parallel_vector_traits) (L : type_list) (ip : Nat)
    (B : parallel_vector_impl α) (b e : Nat) (c : parallel_vector_impl α) :
    (insert_move_call ops Traits L ip B b e c).result =
      insert_move ops Traits L ip B b e c := by
  unfold insert_move_call insert_move
  rw [← insert_impl_call_result]
  generalize insert_impl_call ops Traits L ip B b e (pass_rvalue ops) c = x
  obtain ⟨⟨s1, s2⟩, t⟩ := x
  cases t <;> rfl

theorem insert_move_call_thrown {α : Type} (ops : ElementOps α)
    (Traits : default_parallel_vector_traits) (L : type_list) (ip : Nat)
    (B : parallel_vector_impl α) (b e : Nat) (c : parallel_vector_impl α) (x : Exn)
    (h : (insert_move_call ops Traits L ip B b e c).thrown = some x) :
    x = .bad_alloc ∧ insert_move_call ops Traits L ip B b e c = ⟨(c, B), some x⟩ := by
  unfold insert_move_call at h ⊢
  generalize hx : insert_impl_call ops Traits L ip B b e (pass_rvalue ops) c = r at h ⊢
  obtain ⟨⟨s1, s2⟩, t⟩ := r
  cases t with
  | none => cases h
  | some e' =>
    simp only [Option.some.injEq] at h
    subst h
    obtain ⟨q1, q2⟩ := insert_impl_call_thrown ops Traits L ip B b e _ c e' (by rw [hx])
    rw [hx] at q2
    simp only [Exit.mk.injEq, Prod.mk.injEq] at q2
    rw [q2.1.1, q2.1.2]
    exact ⟨q1, rfl⟩

theorem insert_move_call_fails {α : Type} (ops : ElementOps α)
    (Traits : default_parallel_vector_traits) (L : type_list) (ip : Nat)
    (B : parallel_vector_impl α) (b e : Nat) (c : parallel_vector_impl α)
    (hg : c.mCapacity < size_type_add c.mSize (size_type_sub e b))
    (hf : allocation_fails Traits L (size_type_add c.mSize (size_type_sub e b))) :
    insert_move_call ops Traits L ip B b e c = ⟨(c, B), some .bad_alloc⟩ := by
  unfold insert_move_call
  rw [insert_impl_call_fails ops Traits L ip B b e _ c hg hf]

/-- C11: with an allocator that can fail, whenever the allocation inside a capacity growth
fails (in `reserve(n)` with `n` above the capacity, in `push_back` on a full container, in
`insert_copy` and `insert_move` when the new size is above the capacity), the call is left by
`std::bad_alloc` with the container (memory block, size, capacity, and so the contents of
every slice) exactly as before the call and, for the insertions, with the source container
untouched as well; and whatever exception leaves one of these calls, it is `std::bad_alloc`
and the containers are as before the call. -/
theorem allocation_failure_unchanged {α : Type} (ops : ElementOps α)
    (Traits : default_parallel_vector_traits) (L : type_list) (c B : parallel_vector_impl α) :
    (∀ n, c.capacity < n → allocation_fails Traits L n →
      reserve_call ops Traits L n c = ⟨c, some .bad_alloc⟩) ∧
    (∀ args, c.size = c.capacity →
      c.capacity <
        max (size_type_add (size_type_mul 2 c.capacity) 1) (size_type_add c.capacity 20) →
      allocation_fails Traits L
        (max (size_type_add (size_type_mul 2 c.capacity) 1) (size_type_add c.capacity 20)) →
      push_back_call ops Traits L args c = ⟨c, some .bad_alloc⟩) ∧
    (∀ insertionPoint begin end_,
      c.capacity < size_type_add c.size (size_type_sub end_ begin) →
      allocation_fails Traits L (size_type_add c.size (size_type_sub end_ begin)) →
      insert_copy_call ops Traits L insertionPoint B begin end_ c =
        ⟨(c, B), some .bad_alloc⟩ ∧
      insert_move_call ops Traits L insertionPoint B begin end_ c =
        ⟨(c, B), some .bad_alloc⟩) ∧
    (∀ n e, (reserve_call ops Traits L n c).thrown = some e →
      e = .bad_alloc ∧ (reserve_call ops Traits L n c).state = c) ∧
    (∀ args e, (push_back_call ops Traits L args c).thrown = some e →
      e = .bad_alloc ∧ (push_back_call ops Traits L args c).state = c) ∧
    (∀ insertionPoint begin end_ e,
      (insert_copy_call ops Traits L insertionPoint B begin end_ c).thrown = some e →
      e = .bad_alloc ∧
        (insert_copy_call ops Traits L insertionPoint B begin end_ c).state = (c, B)) ∧
    (∀ insertionPoint begin end_ e,
      (insert_move_call ops Traits L insertionPoint B begin end_ c).thrown = some e →
      e = .bad_alloc ∧
        (insert_move_call ops Traits L insertionPoint B begin end_ c).state = (c, B)) := by
  refine ⟨?_, ?_, ?_, ?_, ?_, ?_, ?_⟩
  · intro n hn hf
    exact reserve_call_fails ops Traits L n c hn hf
  · intro args hfull hn hf
    exact push_back_call_fails ops Traits L args c hfull hn hf
  · intro ip b e hg hf
    exact ⟨insert_impl_call_fails ops Traits L ip B b e _ c hg hf,
      insert_move_call_fails ops Traits L ip B b e c hg hf⟩
  · intro n e h
    obtain ⟨q1, q2⟩ := reserve_call_thrown ops Traits L n c e h
    exact ⟨q1, by rw [q2]⟩
  · intro args e h
    obtain ⟨q1, q2⟩ := push_back_call_thrown ops Traits L args c e h
    exact ⟨q1, by rw [q2]⟩
  · intro ip b e x h
    obtain ⟨q1, q2⟩ := insert_impl_call_thrown ops Traits L ip B b e pass_lvalue c x h
    exact ⟨q1, by rw [insert_copy_call, q2]⟩
  · intro ip b e x h
    obtain ⟨q1, q2⟩ := insert_move_call_thrown ops Traits L ip B b e c x h
    exact ⟨q1, by rw [q2]⟩

/-- C11, witness: with an allocator that refuses every request, `reserve(100)` on the
container `[(1,'a'), (2,'b'), (3,'c')]` of capacity 20 and `push_back(1, 97)` on a fresh
container are left by `std::bad_alloc` with the container as it was. -/
theorem allocation_failure_unchanged_witness :
    (demo_A.capacity < 100 ∧ allocation_fails exhausted demo_layout 100 ∧
      reserve_call (trivial_ops Nat) exhausted demo_layout 100 demo_A =
        ⟨demo_A, some .bad_alloc⟩) ∧
    ((parallel_vector_impl.init : parallel_vector_impl Nat).size =
        (parallel_vector_impl.init : parallel_vector_impl Nat).capacity ∧
      push_back_call (trivial_ops Nat) exhausted demo_layout [1, 97] parallel_vector_impl.init =
        ⟨parallel_vector_impl.init, some .bad_alloc⟩) :=
  ⟨⟨by decide, by decide,
      (allocation_failure_unchanged (trivial_ops Nat) exhausted demo_layout demo_A demo_B).1
        100 (by decide) (by decide)⟩,
    ⟨rfl,
      (allocation_failure_unchanged (trivial_ops Nat) exhausted demo_layout
        parallel_vector_impl.init demo_B).2.1 [1, 97] rfl (by decide) (by decide)⟩⟩

/-- The capacity `auto_grow` reaches when its two candidate requests do not wrap. -/
theorem auto_grow_capacity {α : Type} (ops : ElementOps α)
    (Traits : default_parallel_vector_traits) (L : type_list) (c r : parallel_vector_impl α)
    (h1 : 2 * c.mCapacity + 1 < size_type_mod) (h : auto_grow ops Traits L c = .ok r) :
    r.mCapacity = adjust_capacity L (max (2 * c.mCapacity + 1) (c.mCapacity + 20)) ∧
      r.mSize = c.mSize := by
  have e1 : size_type_add (size_type_mul 2 c.mCapacity) 1 = 2 * c.mCapacity + 1 := by
    simp only [size_type_add, size_type_mul, size_type_mod] at *; omega
  have e2 : size_type_add c.mCapacity 20 = c.mCapacity + 20 := by
    simp only [size_type_add, size_type_mod] at *; omega
  unfold auto_grow at h
  rw [e1, e2] at h
  obtain ⟨g1, g2, _⟩ := reserve_grow ops Traits L _ c r (by omega) h
  exact ⟨g2, g1⟩

/-- The request of `auto_grow`, rounded up, is representable when the capacity is a multiple
of an increment below `2^32` and the two candidate requests do not wrap. -/
theorem grow_request_fits (L : type_list) (hL : adjust_capacity_static_asserts L) (c : Nat)
    (hdvd : kMinIncrement L ∣ c) (hinc : kMinIncrement L < size_type_mod)
    (h1 : 2 * c + 1 < size_type_mod) (h2 : c + 20 < size_type_mod) :
    max (2 * c + 1) (c + 20) + kMinIncrement L - 1 < size_type_mod ∧
      (0 < c → 2 * c + 2 * kMinIncrement L ≤ size_type_mod) := by
  obtain ⟨d, _, hd⟩ := kMinIncrement_pow L hL
  obtain ⟨k, hk⟩ := hdvd
  have hM : size_type_mod = 2 ^ 32 := by norm_num [size_type_mod]
  rw [hd] at hinc hk ⊢
  rw [hM] at hinc h1 h2 ⊢
  have hd32 : d < 32 := (Nat.pow_lt_pow_iff_right (by decide : 1 < 2)).mp hinc
  have hI : 0 < 2 ^ d := Nat.two_pow_pos d
  have hS : (2 : Nat) ^ 32 = 2 * (2 ^ d * 2 ^ (31 - d)) := by
    rw [← pow_add, ← pow_succ']
    congr 1
    omega
  have hQ : 0 < 2 ^ (31 - d) := Nat.two_pow_pos _
  have hkQ : k < 2 ^ (31 - d) := by
    by_contra hge
    have : 2 ^ d * 2 ^ (31 - d) ≤ 2 ^ d * k := Nat.mul_le_mul_left _ (by omega)
    omega
  have hle : 2 ^ d * (k + 1) ≤ 2 ^ d * 2 ^ (31 - d) := Nat.mul_le_mul_left _ hkQ
  rw [Nat.mul_add, Nat.mul_one, ← hk] at hle
  have hI31 : 2 ^ d ≤ 2 ^ d * 2 ^ (31 - d) := Nat.le_mul_of_pos_right _ hQ
  have hpos2 : 0 < c → 2 * c + 2 * 2 ^ d ≤ 2 ^ 32 := fun _ => by omega
  refine ⟨?_, hpos2⟩
  by_cases hk0 : k = 0
  · subst hk0
    simp only [Nat.mul_zero] at hk
    subst hk
    have : (2:Nat) ^ 32 = 4294967296 := by norm_num
    simp only [Nat.mul_zero, Nat.zero_add]
    omega
  · have hIc : 2 ^ d ≤ c := by
      rw [hk]
      exact Nat.le_mul_of_pos_right _ (by omega)
    have : (2:Nat) ^ 32 = 4294967296 := by norm_num
    omega

theorem size_eq_mSize {α : Type} (c : parallel_vector_impl α) : c.size = c.mSize := rfl

/-- On a non-empty container `pop_back` is `erase(size - 1, size)`: the size drops by one and
every slice loses its last entry. -/
theorem pop_back_ok {α : Type} (ops : ElementOps α) (L : type_list)
    (c : parallel_vector_impl α) (hv : c.valid) (hne : c.mSize ≠ 0) :
    pop_back ops L c = erase ops L (c.mSize - 1) c.mSize c ∧
    (pop_back ops L c).mSize = c.mSize - 1 ∧ (pop_back ops L c).valid ∧
    (∀ i, i < L.length →
      slice_elements L (pop_back ops L c) i = (slice_elements L c i).dropLast) ∧
    (c.sound L → (pop_back ops L c).sound L) := by
  have hv' := hv
  obtain ⟨hv1, hv2⟩ := hv'
  have e0 : size_type_sub c.mSize 1 = c.mSize - 1 :=
    size_type_sub_eq _ _ (by omega) (by omega)
  have hpop : pop_back ops L c = erase ops L (c.mSize - 1) c.mSize c := by
    unfold pop_back
    rw [e0]
  obtain ⟨h1, h2, _⟩ := erase_ok ops L (c.mSize - 1) c.mSize c hv (by omega) (le_refl _)
  rw [hpop]
  refine ⟨rfl, by rw [h1]; omega, ⟨by rw [h1, h2]; omega, by rw [h2]; exact hv2⟩, ?_, ?_⟩
  · intro i hi
    have hlen := length_slice_elements L c i (valid_size_lt c hv)
    rw [erase_slice_elements ops L (c.mSize - 1) c.mSize c hv (by omega) (le_refl _) i hi,
      List.dropLast_eq_take, hlen, List.drop_of_length_le (by rw [hlen]), List.append_nil]
  · intro hs
    exact erase_sound ops L (c.mSize - 1) c.mSize c hv hs (by omega) (le_refl _)

/-- C13 (amended): for every container in a consistent state: when it is not empty,
`pop_back()` is `erase(size - 1, size)`, `size()` drops by 1 and every slice is its former
contents without the last entry; and for every value tuple, when the container is not full or
the grown capacity `max(2*capacity + 1, capacity + 20)` is representable (rounded up to the
capacity increment, it and the byte count of a block of that capacity are below `2^32`),
`push_back` returns whenever the allocator does not fail, leaves a non-empty container, and
`pop_back` after it restores `size()` and the contents of every slice to what they were
before the push, without an access leaving the block. -/
theorem pop_back_correct {α : Type} (ops : ElementOps α)
    (Traits : default_parallel_vector_traits) (L : type_list)
    (hL : adjust_capacity_static_asserts L) (args : List α) (c : parallel_vector_impl α)
    (hv : c.valid) (hs : c.sound L)
    (hgrow : c.size = c.capacity →
      representable L (max (2 * c.capacity + 1) (c.capacity + 20))) :
    (c.size ≠ 0 →
      pop_back ops L c = erase ops L (c.size - 1) c.size c ∧
      (pop_back ops L c).size = c.size - 1 ∧
      (∀ Index, Index < L.size →
        slice_elements L (pop_back ops L c) Index = (slice_elements L c Index).dropLast) ∧
      (pop_back ops L c).sound L) ∧
    (never_fails Traits → ∃ r, push_back ops Traits L args c = .ok r) ∧
    ∀ r, push_back ops Traits L args c = .ok r →
      r.size ≠ 0 ∧ (pop_back ops L r).size = c.size ∧
      (∀ Index, Index < L.size →
        slice_elements L (pop_back ops L r) Index = slice_elements L c Index) ∧
      (pop_back ops L r).sound L := by
  refine ⟨?_, fun hnf => push_back_total ops Traits hnf L args c, ?_⟩
  · intro hne
    rw [size_eq_mSize c] at hne ⊢
    rw [size_eq_mSize (pop_back ops L c)]
    obtain ⟨q1, q2, _, q4, q5⟩ := pop_back_ok ops L c hv hne
    exact ⟨q1, q2, q4, q5 hs⟩
  · intro r h
    obtain ⟨h1, h2, h3, _, h5, h6, h7⟩ := push_back_ok ops Traits L hL args c r hv hs hgrow h
    have hrv : r.valid := ⟨h2, h3⟩
    have hne : r.mSize ≠ 0 := by omega
    obtain ⟨_, q2, _, q4, q5⟩ := pop_back_ok ops L r hrv hne
    have hr : r.mSize < size_t_mod := valid_size_lt r hrv
    have hsz : (pop_back ops L r).mSize = c.mSize := by rw [q2]; omega
    rw [size_eq_mSize r, size_eq_mSize (pop_back ops L r), size_eq_mSize c]
    refine ⟨hne, hsz, ?_, q5 h7⟩
    intro Index hI
    rw [q4 Index hI, slice_elements_push L c r hv hr h1 Index (args.get? Index) (h5 Index hI)
      (h6 Index hI), List.dropLast_concat]

/-- C13, witness: the container `[(10,'x'), (11,'y')]`: `pop_back()` leaves one element, and
`push_back(3, 'c')` followed by `pop_back()` leaves the two it held. -/
theorem pop_back_correct_witness :
    adjust_capacity_static_asserts demo_layout ∧ demo_B.valid ∧ demo_B.sound demo_layout ∧
    demo_B.size ≠ 0 ∧
    (pop_back (trivial_ops Nat) demo_layout demo_B).size = demo_B.size - 1 ∧
    slice_elements demo_layout (pop_back (trivial_ops Nat) demo_layout demo_B) 0 =
      (slice_elements demo_layout demo_B 0).dropLast ∧
    slice_elements demo_layout (pop_back (trivial_ops Nat) demo_layout
      (Except.getD demo_B (push_back (trivial_ops Nat) unlimited demo_layout [3, 99]
        demo_B))) 1 = slice_elements demo_layout demo_B 1 :=
  have h := pop_back_correct (trivial_ops Nat) unlimited demo_layout (by decide) [3, 99]
    demo_B (by decide) (by decide) (by decide)
  ⟨by decide, by decide, by decide, by decide, (h.1 (by decide)).2.1,
    (h.1 (by decide)).2.2.1 0 (by decide), (h.2.2 _ rfl).2.2.1 1 (by decide)⟩

/-- C13 fails as stated: a full container of `2^32 - 1` elements of type `char`;
`push_back(7)` does not grow the block (the growth request wraps to the present capacity),
writes the new element past the end of the block, and `++mSize` wraps to `0`: the container
reads as empty, so the `pop_back()` that follows is made on an empty container, where it is
undefined; it destroys the object before the start of the block. -/
theorem pop_back_counterexample :
    full_range.valid ∧ full_range.sound [char_t] ∧ [7].length = type_list.size [char_t] ∧
    Option.map (fun r => (r.size, r.mMemory.overrun,
        (pop_back (trivial_ops Nat) [char_t] r).mMemory.overrun))
      (push_back (trivial_ops Nat) unlimited [char_t] [7] full_range).toOption =
        some (0, true, true) ∧
    full_range.size = 4294967295 :=
  ⟨by decide, by decide, rfl, rfl, rfl⟩

/-- C15, the code at the failing input: `a = [(1,'a'), (2,'b'), (3,'c')]`,
`b = [(10,'x'), (11,'y')]`; the copy assignment `a = b` calls `clear()`, which destroys the
elements of `a` but leaves `a.size()` at 3, and then `insert_copy(0, b, 0, 2)`, which
displaces the three destroyed elements: afterwards `a.size()` is 5, not `b.size() == 2`, and
the slices of `a` are those of `b` followed by three destroyed cells; `b` is unchanged. -/
theorem copy_assignment_failing :
    demo_A.size = 3 ∧ demo_B.size = 2 ∧
    slice_elements demo_layout demo_B 0 = [some 10, some 11] ∧
    Option.map (fun r => (r.1.size, slice_elements demo_layout r.1 0,
        slice_elements demo_layout r.1 1, r.2.size))
      (copy_assignment (trivial_ops Nat) unlimited demo_layout demo_B demo_A).toOption =
        some (5, [some 10, some 11, none, none, none],
          [some 120, some 121, none, none, none], 2) ∧
    (5 : Nat) ≠ 2 :=
  ⟨rfl, rfl, rfl, rfl, by decide⟩

/-! ## array_view::at -/

/-- The machine address of a pointer whose address lies in the address space. -/
theorem machine_eq (origin : Nat) (p : Pointer) (h0 : 0 ≤ (origin : Int) + p.addr)
    (h1 : (origin : Int) + p.addr < (size_t_mod : Int)) :
    ((p.machine origin : Nat) : Int) = (origin : Int) + p.addr := by
  unfold Pointer.machine
  rw [Int.emod_eq_of_lt h0 h1, Int.toNat_of_nonneg h0]

theorem addr_add (p : Pointer) (k : Nat) :
    (p.add k).addr = p.addr + (k : Int) * (p.stride : Int) := by
  simp only [Pointer.add, Pointer.addr]
  ring

/-- The member `at` on the positions it checks rightly: for every `array_view` over a range
of `n` elements that lies in the address space, and every position `pos` for which the pointer
`mBegin + pos` does not wrap around the address space, `size()` is `n`, `at(pos)` returns the
same element as `operator[](pos)` when `pos < n`, and it signals `std::out_of_range` if and
only if `pos >= n`. -/
theorem at_correct {α : Type} (origin : Nat) (m : Memory α) (start : Pointer) (n pos : Nat)
    (hstride : 0 < start.stride) (h0 : 0 ≤ (origin : Int) + start.addr)
    (hend : (origin : Int) + (start.add n).addr < (size_t_mod : Int))
    (hpos : (origin : Int) + (start.add pos).addr < (size_t_mod : Int)) :
    (make_array_view start n).size = n ∧
    (pos < n → array_view.at_ origin m (make_array_view start n) pos =
      .ok ((make_array_view start n).get m pos)) ∧
    (array_view.at_ origin m (make_array_view start n) pos = .error .out_of_range ↔
      n ≤ pos) := by
  have hs : (0 : Int) < (start.stride : Int) := by exact_mod_cast hstride
  have hn0 : (0 : Int) ≤ (n : Int) * (start.stride : Int) := by positivity
  have hp0 : (0 : Int) ≤ (pos : Int) * (start.stride : Int) := by positivity
  rw [addr_add] at hend hpos
  have hmE := machine_eq origin (start.add n) (by rw [addr_add]; omega) (by rw [addr_add]; omega)
  have hmP := machine_eq origin (start.add pos) (by rw [addr_add]; omega)
    (by rw [addr_add]; omega)
  rw [addr_add] at hmE hmP
  have hcmp : (start.add pos).machine origin ≥ (start.add n).machine origin ↔ n ≤ pos := by
    constructor
    · intro h
      have h' : ((start.add n).machine origin : Int) ≤ ((start.add pos).machine origin : Int) := by
        exact_mod_cast h
      rw [hmE, hmP] at h'
      have h2 : (n : Int) * (start.stride : Int) ≤ (pos : Int) * (start.stride : Int) := by
        omega
      have h3 := le_of_mul_le_mul_right h2 hs
      exact_mod_cast h3
    · intro h
      have h2 : (n : Int) * (start.stride : Int) ≤ (pos : Int) * (start.stride : Int) :=
        mul_le_mul_of_nonneg_right (by exact_mod_cast h) (le_of_lt hs)
      have h' : ((start.add n).machine origin : Int) ≤ ((start.add pos).machine origin : Int) := by
        rw [hmE, hmP]; omega
      exact_mod_cast h'
  have hsize : (make_array_view start n).size = n := by
    have hn1 : (n : Int) ≤ (n : Int) * (start.stride : Int) :=
      le_mul_of_one_le_right (by positivity) (by omega)
    have hlt : (n : Int) < (size_t_mod : Int) := by omega
    simp only [array_view.size, make_array_view, Pointer.add, add_sub_cancel_left]
    rw [Int.emod_eq_of_lt (by positivity) hlt]
    simp
  refine ⟨hsize, ?_, ?_⟩
  · intro hlt
    have hno : ¬ ((start.add pos).machine origin ≥ (start.add n).machine origin) := by
      rw [hcmp]; omega
    simp only [array_view.at_, array_view.throw_out_of_range_if, make_array_view,
      array_view.get, decide_eq_true_eq, if_neg hno]
    rw [hmP, addr_add]
    congr 2
    omega
  · simp only [array_view.at_, array_view.throw_out_of_range_if, make_array_view,
      decide_eq_true_eq]
    by_cases hge : (start.add pos).machine origin ≥ (start.add n).machine origin
    · rw [if_pos hge]
      exact ⟨fun _ => hcmp.mp hge, fun _ => rfl⟩
    · rw [if_neg hge]
      constructor
      · intro h; cases h
      · intro h; exact absurd (hcmp.mpr h) hge

/-- An instance of `at_correct`: a view of 3 elements of type `char` in a block at address
4096; `at(1)` is `operator[](1)` and `at(3)` signals `std::out_of_range`. -/
theorem at_correct_witness :
    array_view.at_ 4096 (fun a => some a) (char_view 3) 1 =
      .ok ((char_view 3).get (fun a => some a) 1) ∧
    array_view.at_ 4096 (fun a => some a) (char_view 3) 3 = .error .out_of_range :=
  ⟨(at_correct 4096 (fun a => some a) ⟨0, 1, 0⟩ 3 1 (by decide) (by decide) (by decide)
      (by decide)).2.1 (by decide),
    (at_correct 4096 (fun a => some a) ⟨0, 1, 0⟩ 3 3 (by decide) (by decide) (by decide)
      (by decide)).2.2.mpr (by decide)⟩

/-- C14, the code at the failing input: a view of 3 elements of type `char` in a block at
address 4096, every byte holding its own offset, and the position `pos = 2^64 - 1`, a value
of `size_t` with `pos >= size()`. The checked accessor `at` does not compare `pos` with
`size()`: it tests `mBegin + pos >= mEnd` on pointers, and `mBegin + pos` wraps around the
address space to the address 4095, below `mEnd`; so `at(pos)` does not signal
`std::out_of_range`, it returns the object at offset `-1`, before the start of the view. -/
theorem at_failing :
    (char_view 3).size = 3 ∧ 18446744073709551615 < size_t_mod ∧
    (char_view 3).size ≤ 18446744073709551615 ∧
    array_view.at_ 4096 (fun a => some a) (char_view 3) 18446744073709551615 =
      .ok (some (-1)) ∧
    array_view.at_ 4096 (fun a => some a) (char_view 3) 18446744073709551615 ≠
      .error .out_of_range := by
  have h : array_view.at_ 4096 (fun a => some a) (char_view 3) 18446744073709551615 =
      .ok (some (-1)) := by
    have hno : ¬ (((⟨0, 1, 0⟩ : Pointer).add ((18446744073709551615 : Nat) : Int)).machine 4096 ≥
        ((⟨0, 1, 0⟩ : Pointer).add ((3 : Nat) : Int)).machine 4096) := by decide
    simp only [array_view.at_, array_view.throw_out_of_range_if, char_view, make_array_view,
      decide_eq_true_eq, if_neg hno]
    rfl
  refine ⟨by decide, by decide, by decide, h, ?_⟩
  rw [h]
  intro h'
  cases h'

/-! ## The writes of insert_impl -/

theorem pointer_sub_zero (p : Pointer) : p.sub ((0 : Nat) : Int) = p := by
  cases p
  simp [Pointer.sub]

theorem pointer_sub_sub (p : Pointer) (n : Nat) :
    (p.sub ((n : Nat) : Int)).sub 1 = p.sub ((n + 1 : Nat) : Int) := by
  cases p
  simp only [Pointer.sub, Pointer.mk.injEq, true_and]
  push_cast
  ring

/-- A loop that writes through `my` and steps it down writes `n` consecutive objects, from `my`
downwards. -/
theorem writes_loop (k : Write) : ∀ (n : Nat) (l : List (Write × Pointer)) (p : Pointer),
    for_loop n (fun _ (s : List (Write × Pointer) × Pointer) => (s.1 ++ [(k, s.2)], s.2.sub 1))
      (l, p) = (l ++ (List.range n).map (fun t => (k, p.sub ((t : Nat) : Int))),
        p.sub ((n : Nat) : Int)) := by
  intro n
  induction n with
  | zero =>
    intro l p
    rw [for_loop_zero, pointer_sub_zero]
    simp
  | succ n ih =>
    intro l p
    rw [for_loop_succ, ih, List.range_succ, List.map_append, ← List.append_assoc,
      pointer_sub_sub]
    rfl

theorem range_map_split {β : Type} (g : Nat → β) (a b : Nat) :
    (List.range (a + b)).map g =
      (List.range a).map g ++ (List.range b).map (fun t => g (a + t)) := by
  rw [List.range_add, List.map_append, List.map_map]
  rfl

/-- The slots the four loops of `insert_impl` write in one slice. -/
theorem insert_slice_writes_index (L : type_list) (cap N a b c d k : Nat) :
    (insert_slice_writes L cap N a b c d k).map (fun w => (w.1, w.2.index)) =
      (List.range a).map (fun (t : Nat) => (Write.constructed, (N : Int) - 1 - (t : Int))) ++
      (List.range b).map (fun (t : Nat) => (Write.assigned, (N : Int) - 1 - (a : Int) - (t : Int))) ++
      (List.range c).map (fun (t : Nat) =>
        (Write.constructed, (N : Int) - 1 - (a : Int) - (b : Int) - (t : Int))) ++
      (List.range d).map (fun (t : Nat) =>
        (Write.assigned, (N : Int) - 1 - (a : Int) - (b : Int) - (c : Int) - (t : Int))) := by
  simp only [insert_slice_writes, writes_loop, List.nil_append, List.map_append, List.map_map]
  refine congrArg₂ _ (congrArg₂ _ (congrArg₂ _ ?_ ?_) ?_) ?_ <;>
    · apply List.map_congr_left
      intro t _
      simp only [Function.comp, Pointer.sub, Pointer.add, slice_start, Prod.mk.injEq, true_and]
      omega

/-- The writes of `insert_impl`, when no count wraps. -/
theorem insert_impl_writes_eq {α : Type} (L : type_list) (c : parallel_vector_impl α)
    (ip b e k : Nat) (hip : ip ≤ c.mSize) (hbe : b ≤ e) (he : e < size_type_mod)
    (hnew : c.mSize + (e - b) < size_type_mod) :
    insert_impl_writes L ip b e c k = descending_writes c.mSize (e - b) ip := by
  have hd : size_type_sub c.mSize ip = c.mSize - ip := size_type_sub_eq _ _ hip (by omega)
  have hn : size_type_sub e b = e - b := size_type_sub_eq _ _ hbe he
  simp only [insert_impl_writes, hd, hn, size_type_add_eq _ _ hnew]
  generalize hm : min (c.mSize - ip) (e - b) = m
  have hcase : (m = c.mSize - ip ∧ c.mSize - ip ≤ e - b) ∨
      (m = e - b ∧ e - b ≤ c.mSize - ip) := by
    rw [← hm]
    rcases Nat.le_total (c.mSize - ip) (e - b) with h | h
    · exact Or.inl ⟨Nat.min_eq_left h, h⟩
    · exact Or.inr ⟨Nat.min_eq_right h, h⟩
  have hm1 : m ≤ c.mSize - ip := by omega
  have hm2 : m ≤ e - b := by omega
  rw [size_type_sub_eq _ _ hm1 (by omega), size_type_sub_eq _ _ hm2 (by omega),
    insert_slice_writes_index]
  generalize e - b = n at *
  generalize c.mSize = size at *
  have htotal : size + n - ip = m + (size - ip - m) + (n - m) + m := by omega
  simp only [descending_writes]
  rw [htotal, range_map_split, range_map_split, range_map_split]
  refine congrArg₂ _ (congrArg₂ _ (congrArg₂ _ ?_ ?_) ?_) ?_
  · apply List.map_congr_left
    intro t ht
    rw [List.mem_range] at ht
    rw [if_pos (by push_cast; omega)]
  · apply List.map_congr_left
    intro t ht
    rw [List.mem_range] at ht
    rw [if_neg (by push_cast; omega)]
    try (simp only [Prod.mk.injEq, true_and]; push_cast; omega)
  · apply List.map_congr_left
    intro t ht
    rw [List.mem_range] at ht
    rw [if_pos (by push_cast; omega)]
    try (simp only [Prod.mk.injEq, true_and]; push_cast; omega)
  · apply List.map_congr_left
    intro t ht
    rw [List.mem_range] at ht
    rw [if_neg (by push_cast; omega)]
    try (simp only [Prod.mk.injEq, true_and]; push_cast; omega)

theorem descending_writes_slots (size n ip : Nat) :
    (descending_writes size n ip).map Prod.snd =
      (List.range (size + n - ip)).map
        (fun (t : Nat) => ((size + n : Nat) : Int) - 1 - (t : Int)) := by
  simp only [descending_writes, List.map_map]
  rfl

theorem descending_writes_mem (size n ip : Nat) (w : Write) (slot : Int) :
    (w, slot) ∈ descending_writes size n ip ↔
      ((ip : Int) ≤ slot ∧ slot < (size : Int) + (n : Int)) ∧
        (w = Write.constructed ↔ (size : Int) ≤ slot) := by
  simp only [descending_writes, List.mem_map, List.mem_range, Prod.mk.injEq]
  constructor
  · rintro ⟨t, ht, hk, hs⟩
    rw [hs] at hk
    refine ⟨by push_cast at hs; omega, ?_⟩
    by_cases hc : (size : Int) ≤ slot
    · rw [if_pos hc] at hk
      exact ⟨fun _ => hc, fun _ => hk.symm⟩
    · rw [if_neg hc] at hk
      refine ⟨fun h => ?_, fun h => absurd h hc⟩
      rw [← hk] at h
      cases h
  · rintro ⟨⟨h1, h2⟩, hk⟩
    refine ⟨(((size + n : Nat) : Int) - 1 - slot).toNat, by push_cast; omega, ?_, by
      push_cast; omega⟩
    have hs : ((size + n : Nat) : Int) - 1 -
        (((((size + n : Nat) : Int) - 1 - slot).toNat : Nat) : Int) = slot := by
      push_cast; omega
    rw [hs]
    by_cases hc : (size : Int) ≤ slot
    · rw [if_pos hc]
      exact (hk.mpr hc).symm
    · rw [if_neg hc]
      cases w
      · exact absurd (hk.mp rfl) hc
      · rfl

theorem descending_writes_count (size n ip : Nat) (hip : ip ≤ size) :
    (descending_writes size n ip).countP (fun w => decide (w.1 = Write.constructed)) = n ∧
    (descending_writes size n ip).countP (fun w => decide (w.1 = Write.assigned)) =
      size - ip := by
  have htotal : size + n - ip = n + (size - ip) := by omega
  simp only [descending_writes, htotal, range_map_split, List.countP_append, List.countP_map]
  have h1 : ∀ (p : Nat → Bool) (k : Nat), (∀ t, t < k → p t = true) →
      List.countP p (List.range k) = k := by
    intro p k h
    have := (List.countP_eq_length (p := p) (l := List.range k)).mpr
      (fun a ha => h a (List.mem_range.mp ha))
    rw [this, List.length_range]
  have h0 : ∀ (p : Nat → Bool) (k : Nat), (∀ t, t < k → p t = false) →
      List.countP p (List.range k) = 0 := by
    intro p k h
    exact (List.countP_eq_zero (p := p) (l := List.range k)).mpr
      (fun a ha => by rw [h a (List.mem_range.mp ha)]; simp)
  have c1 : ∀ t, t < n → (size : Int) ≤ ((size + n : Nat) : Int) - 1 - ((t : Nat) : Int) := by
    intro t ht
    push_cast; omega
  have c2 : ∀ t, t < size - ip →
      ¬ (size : Int) ≤ ((size + n : Nat) : Int) - 1 - ((n + t : Nat) : Int) := by
    intro t ht
    push_cast; omega
  constructor
  · rw [h1 _ n (fun t ht => by simp only [Function.comp, if_pos (c1 t ht)]; rfl),
      h0 _ (size - ip) (fun t ht => by simp only [Function.comp, if_neg (c2 t ht)]; rfl)]
    rfl
  · rw [h0 _ n (fun t ht => by simp only [Function.comp, if_pos (c1 t ht)]; rfl),
      h1 _ (size - ip) (fun t ht => by simp only [Function.comp, if_neg (c2 t ht)]; rfl)]
    omega

/-- C17 (amended): with each slot modelled as live or uninitialised, for every
`insertionPoint <= size` and every source range `[begin, end)` with `size + (end - begin)`
below `2^32`, `insert_impl` writes every slot of `[insertionPoint, size + count)` in each
slice exactly once, in strictly decreasing index order; the slots it writes by construction
(`count` of them) are exactly the previously uninitialised slots `[size, size + count)`, and
the slots it writes by assignment (`size - insertionPoint` of them) are exactly the previously
live slots `[insertionPoint, size)`; construction never targets a live slot and assignment
never targets an uninitialised one. -/
theorem insert_impl_write_order {α : Type} (L : type_list) (c : parallel_vector_impl α)
    (ip b e k : Nat) (hip : ip ≤ c.size) (hbe : b ≤ e) (he : e < size_type_mod)
    (hnew : c.size + (e - b) < size_type_mod) :
    insert_impl_writes L ip b e c k = descending_writes c.size (e - b) ip ∧
    (insert_impl_writes L ip b e c k).map Prod.snd =
      (List.range (c.size + (e - b) - ip)).map
        (fun (t : Nat) => ((c.size + (e - b) : Nat) : Int) - 1 - (t : Int)) ∧
    ((insert_impl_writes L ip b e c k).map Prod.snd).Pairwise (fun x y => y < x) ∧
    (∀ slot : Int, slot ∈ (insert_impl_writes L ip b e c k).map Prod.snd ↔
      (ip : Int) ≤ slot ∧ slot < (c.size : Int) + ((e - b : Nat) : Int)) ∧
    (∀ slot : Int, (Write.constructed, slot) ∈ insert_impl_writes L ip b e c k ↔
      (c.size : Int) ≤ slot ∧ slot < (c.size : Int) + ((e - b : Nat) : Int)) ∧
    (∀ slot : Int, (Write.assigned, slot) ∈ insert_impl_writes L ip b e c k ↔
      (ip : Int) ≤ slot ∧ slot < (c.size : Int)) ∧
    (insert_impl_writes L ip b e c k).countP (fun w => decide (w.1 = Write.constructed)) =
      e - b ∧
    (insert_impl_writes L ip b e c k).countP (fun w => decide (w.1 = Write.assigned)) =
      c.size - ip ∧
    (∀ slot : Int, (Write.constructed, slot) ∈ insert_impl_writes L ip b e c k →
      ¬ live c.size slot) ∧
    (∀ slot : Int, (Write.assigned, slot) ∈ insert_impl_writes L ip b e c k →
      live c.size slot) := by
  have hW : insert_impl_writes L ip b e c k = descending_writes c.size (e - b) ip :=
    insert_impl_writes_eq L c ip b e k hip hbe he hnew
  rw [hW]
  generalize c.size = size at hip hnew ⊢
  generalize e - b = n at hnew ⊢
  have hmem := descending_writes_mem size n ip
  have hcnt := descending_writes_count size n ip hip
  refine ⟨rfl, descending_writes_slots size n ip, ?_, ?_, ?_, ?_, hcnt.1, hcnt.2, ?_, ?_⟩
  · rw [descending_writes_slots, List.pairwise_map]
    exact (List.pairwise_lt_range _).imp (fun h => by omega)
  · intro slot
    rw [List.mem_map]
    constructor
    · rintro ⟨⟨w, s⟩, hw, rfl⟩
      exact ((hmem w s).mp hw).1
    · intro h
      by_cases hc : (size : Int) ≤ slot
      · exact ⟨(Write.constructed, slot), (hmem _ _).mpr ⟨h, fun _ => hc, fun _ => rfl⟩, rfl⟩
      · exact ⟨(Write.assigned, slot),
          (hmem _ _).mpr ⟨h, ⟨fun h' => Write.noConfusion h', fun h' => absurd h' hc⟩⟩, rfl⟩
  · intro slot
    rw [hmem]
    constructor
    · rintro ⟨⟨_, h2⟩, hk⟩
      exact ⟨hk.mp rfl, h2⟩
    · rintro ⟨h1, h2⟩
      exact ⟨⟨by omega, h2⟩, fun _ => h1, fun _ => rfl⟩
  · intro slot
    rw [hmem]
    constructor
    · rintro ⟨⟨h1, _⟩, hk⟩
      refine ⟨h1, ?_⟩
      by_contra hc
      have := hk.mpr (by omega)
      cases this
    · rintro ⟨h1, h2⟩
      exact ⟨⟨h1, by omega⟩, ⟨fun h' => Write.noConfusion h', fun h' => absurd h' (by omega)⟩⟩
  · intro slot hw
    have := ((hmem _ _).mp hw).2.mp rfl
    simp only [live]
    omega
  · intro slot hw
    have h := (hmem _ _).mp hw
    have hlt : slot < (size : Int) := by
      by_contra hc
      have := h.2.mpr (by omega)
      cases this
    simp only [live]
    omega

/-- C17, witness: two elements inserted at position 1 of `A = [(1,'a'), (2,'b'), (3,'c')]`;
slots 4 and 3 are written by construction, then slots 2 and 1 by assignment. -/
theorem insert_impl_write_order_witness :
    insert_impl_writes demo_layout 1 0 2 demo_A 0 =
      [(Write.constructed, 4), (Write.constructed, 3), (Write.assigned, 2),
        (Write.assigned, 1)] :=
  (insert_impl_write_order demo_layout demo_A 1 0 2 0 (by decide) (by decide) (by decide)
    (by decide)).1.trans rfl

/-- C17 fails as stated: a container of `char` with `size() == capacity() == 4294967295`, and
one element inserted at `insertionPoint = size()`. `newSize` wraps to 0, so `reserve` is not
called, and the only write is a construction through `slice_start + newSize - 1`, the slot
`-1` before the slice; the slot `size`, the one of `[size, size + count)`, is never written. -/
theorem insert_impl_write_order_counterexample :
    4294967295 ≤ full_range.size ∧
    size_type_add full_range.size (size_type_sub 1 0) = 0 ∧
    insert_impl_writes [char_t] 4294967295 0 1 full_range 0 = [(Write.constructed, -1)] ∧
    (Write.constructed, (full_range.size : Int)) ∉
      insert_impl_writes [char_t] 4294967295 0 1 full_range 0 := by
  have h : insert_impl_writes [char_t] 4294967295 0 1 full_range 0 =
      [(Write.constructed, -1)] := rfl
  refine ⟨by decide, by decide, h, ?_⟩
  rw [h]
  decide

/-- C18: for every capacity `c` a container can have (a multiple of the capacity increment,
which is below `2^32`) with `2*c + 1` and `c + 20` not overflowing `size_type`: `auto_grow`
returns whenever the allocator does not fail, and the capacity after it is at least
`max(2*c + 1, c + 20)`; hence it is strictly greater than `c`, so the pushed element fits,
and it is never exactly `2*c`. -/
theorem auto_grow_bound {α : Type} (ops : ElementOps α)
    (Traits : default_parallel_vector_traits) (L : type_list)
    (hL : adjust_capacity_static_asserts L) (c : parallel_vector_impl α)
    (hinc : kMinIncrement L < size_type_mod) (hdvd : kMinIncrement L ∣ c.capacity)
    (h1 : 2 * c.capacity + 1 < size_type_mod) (h2 : c.capacity + 20 < size_type_mod) :
    (never_fails Traits → ∃ r, auto_grow ops Traits L c = .ok r) ∧
    ∀ r, auto_grow ops Traits L c = .ok r →
      max (2 * c.capacity + 1) (c.capacity + 20) ≤ r.capacity ∧
      c.capacity < r.capacity ∧ (c.size ≤ c.capacity → r.size < r.capacity) ∧
      r.capacity ≠ 2 * c.capacity := by
  refine ⟨fun hnf => reserve_total ops Traits hnf L _ c, ?_⟩
  intro r h
  have hcp : c.capacity = c.mCapacity := rfl
  have hrc : r.capacity = r.mCapacity := rfl
  have hcs : c.size = c.mSize := rfl
  have hrs : r.size = r.mSize := rfl
  rw [hcp] at hdvd h1 h2 ⊢
  obtain ⟨g1, g2⟩ := auto_grow_capacity ops Traits L c r h1 h
  obtain ⟨f1, _⟩ := grow_request_fits L hL c.mCapacity hdvd hinc h1 h2
  obtain ⟨b1, _, _, _⟩ := adjust_capacity_bounds L hL _ f1
  rw [hrc, hrs, hcs, g1, g2]
  refine ⟨b1, by omega, fun _ => by omega, by omega⟩

/-- C18, witness: `auto_grow` on the container `[(1,'a'), (2,'b'), (3,'c')]` of capacity 20
(increment 4): the capacity becomes 44. -/
theorem auto_grow_bound_witness :
    adjust_capacity_static_asserts demo_layout ∧ kMinIncrement demo_layout < size_type_mod ∧
    kMinIncrement demo_layout ∣ demo_A.capacity ∧ 2 * demo_A.capacity + 1 < size_type_mod ∧
    demo_A.capacity + 20 < size_type_mod ∧
    max (2 * demo_A.capacity + 1) (demo_A.capacity + 20) ≤
      (Except.getD demo_A (auto_grow (trivial_ops Nat) unlimited demo_layout demo_A)).capacity ∧
    (Except.getD demo_A (auto_grow (trivial_ops Nat) unlimited demo_layout demo_A)).capacity =
      44 :=
  have h := (auto_grow_bound (trivial_ops Nat) unlimited demo_layout (by decide) demo_A
    (by decide) (by decide) (by decide) (by decide)).2 _ rfl
  ⟨by decide, by decide, by decide, by decide, by decide, h.1, rfl⟩

/-- A multiple `(2*k + 1) * 2^d` with `k > 0` is not a power of two. -/
theorem odd_multiple_not_pow (k d e : Nat) (hk : 0 < k) : (2 * k + 1) * 2 ^ d ≠ 2 ^ e := by
  intro h
  have hdvd : 2 * k + 1 ∣ 2 ^ e := ⟨2 ^ d, h.symm⟩
  obtain ⟨j, _, hj⟩ := (Nat.dvd_prime_pow Nat.prime_two).mp hdvd
  cases j with
  | zero => simp at hj; omega
  | succ j =>
    rw [pow_succ] at hj
    omega

/-- C19 (amended): for every capacity `c >= 19` a container can have (a multiple of the
capacity increment) with `2*c + 1` not overflowing `size_type`: `auto_grow` returns whenever
the allocator does not fail, and the capacity it chooses, `2*c + 1` rounded up to the
increment, is `2*c + kMinIncrement`, an odd multiple of the increment and so not a power of
two. -/
theorem auto_grow_not_power_of_two {α : Type} (ops : ElementOps α)
    (Traits : default_parallel_vector_traits) (L : type_list)
    (hL : adjust_capacity_static_asserts L) (c : parallel_vector_impl α)
    (hdvd : kMinIncrement L ∣ c.capacity) (h19 : 19 ≤ c.capacity)
    (h1 : 2 * c.capacity + 1 < size_type_mod) :
    (never_fails Traits → ∃ r, auto_grow ops Traits L c = .ok r) ∧
    ∀ r, auto_grow ops Traits L c = .ok r →
      r.capacity = 2 * c.capacity + kMinIncrement L ∧ ¬ ∃ e, r.capacity = 2 ^ e := by
  refine ⟨fun hnf => reserve_total ops Traits hnf L _ c, ?_⟩
  intro r h
  have hcp : c.capacity = c.mCapacity := rfl
  have hrc : r.capacity = r.mCapacity := rfl
  rw [hcp] at hdvd h1 h19 ⊢
  have hpos := kMinIncrement_pos L hL
  have hinc : kMinIncrement L < size_type_mod := by
    have := Nat.le_of_dvd (by omega) hdvd
    omega
  obtain ⟨g1, _⟩ := auto_grow_capacity ops Traits L c r h1 h
  obtain ⟨f1, f2⟩ := grow_request_fits L hL c.mCapacity hdvd hinc h1 (by omega)
  have hmax : max (2 * c.mCapacity + 1) (c.mCapacity + 20) = 2 * c.mCapacity + 1 := by omega
  rw [hmax] at g1 f1
  obtain ⟨b1, b2, b3, b4⟩ := adjust_capacity_bounds L hL _ f1
  have hval : adjust_capacity L (2 * c.mCapacity + 1) = 2 * c.mCapacity + kMinIncrement L := by
    obtain ⟨p, hp⟩ := b4
    obtain ⟨k, hk⟩ := hdvd
    rw [hp] at b1 b2 ⊢
    rw [hk] at b1 b2 ⊢
    have e1 : kMinIncrement L * (2 * k) < kMinIncrement L * p := by
      have : 2 * (kMinIncrement L * k) = kMinIncrement L * (2 * k) := by ring
      omega
    have e2 : kMinIncrement L * p < kMinIncrement L * (2 * k + 2) := by
      have : kMinIncrement L * (2 * k + 2) = 2 * (kMinIncrement L * k) + 2 * kMinIncrement L := by
        ring
      omega
    have e3 := Nat.lt_of_mul_lt_mul_left e1
    have e4 := Nat.lt_of_mul_lt_mul_left e2
    have e5 : p = 2 * k + 1 := by omega
    subst e5
    ring
  rw [hrc, g1, hval]
  refine ⟨rfl, ?_⟩
  rintro ⟨e, he⟩
  obtain ⟨d, _, hd⟩ := kMinIncrement_pow L hL
  obtain ⟨k, hk⟩ := hdvd
  have hk0 : 0 < k := by
    rcases Nat.eq_zero_or_pos k with h0 | h0
    · subst h0; omega
    · exact h0
  apply odd_multiple_not_pow k d e hk0
  rw [← he, hk, hd]
  ring

/-- C19, witness: the container `[(1,'a'), (2,'b'), (3,'c')]` of capacity 20 (increment 4):
`auto_grow` chooses the capacity `2*20 + 4 = 44`. -/
theorem auto_grow_not_power_of_two_witness :
    adjust_capacity_static_asserts demo_layout ∧ kMinIncrement demo_layout ∣ demo_A.capacity ∧
    19 ≤ demo_A.capacity ∧ 2 * demo_A.capacity + 1 < size_type_mod ∧
    (Except.getD demo_A (auto_grow (trivial_ops Nat) unlimited demo_layout demo_A)).capacity =
      2 * demo_A.capacity + kMinIncrement demo_layout ∧
    ¬ ∃ e, (Except.getD demo_A
      (auto_grow (trivial_ops Nat) unlimited demo_layout demo_A)).capacity = 2 ^ e :=
  have h := (auto_grow_not_power_of_two (trivial_ops Nat) unlimited demo_layout (by decide)
    demo_A (by decide) (by decide) (by decide)).2 _ rfl
  ⟨by decide, by decide, by decide, by decide, h.1, h.2⟩

/-- C19 fails as stated, twice. A fresh container (capacity `0`) with a `char` and a
`long double` field (capacity increment 16): the request `max(1, 20) = 20` of `auto_grow` is
rounded up to `32 = 2^5`. And a container of one `int` field constructed with capacity 12:
the request `max(25, 32)` of `auto_grow` is `32`. -/
theorem auto_grow_power_of_two_counterexample :
    (adjust_capacity_static_asserts [char_t, long_double_t] ∧
    Option.map (fun r => r.capacity)
      (auto_grow (trivial_ops Nat) unlimited [char_t, long_double_t]
        parallel_vector_impl.init).toOption = some 32 ∧ 32 = 2 ^ 5) ∧
    (adjust_capacity_static_asserts [int_t] ∧
    Option.map (fun r => r.capacity)
      (parallel_vector_impl.new (trivial_ops Nat) unlimited [int_t] 12).toOption = some 12 ∧
    Option.map (fun r => r.capacity)
      (auto_grow (trivial_ops Nat) unlimited [int_t]
        (Except.getD parallel_vector_impl.init
          (parallel_vector_impl.new (trivial_ops Nat) unlimited [int_t] 12))).toOption =
        some 32) :=
  ⟨⟨by decide, rfl, by decide⟩, ⟨by decide, rfl, rfl⟩⟩

/-- The relocation of `reserve` keeps the byte count of the new block. -/
theorem reserve_slices_bytes {α : Type} (ops : ElementOps α) (L : type_list)
    (size capOld capNew : Nat) (st : Block α × Block α) :
    (for_each_slice L (reserve_slice ops L size capOld capNew) st).2.bytes = st.2.bytes :=
  for_each_slice_inv L (fun s : Block α × Block α => s.2.bytes = st.2.bytes) _ st rfl
    (fun _ _ s hs => for_loop_inv (fun _ (s : Block α × Block α) => s.2.bytes = st.2.bytes)
      _ s size hs (fun _ _ _ hs' => hs'))

/-- The byte count of the block `reserve` has allocated is the `size_type` product of the
adjusted capacity and `kSizePerElement`. -/
theorem reserve_bytes {α : Type} (ops : ElementOps α) (Traits : default_parallel_vector_traits)
    (L : type_list) (n : Nat) (c r : parallel_vector_impl α) (hn : c.mCapacity < n)
    (h : reserve ops Traits L n c = .ok r) :
    r.mMemory.bytes = size_type_mul (adjust_capacity L n) (kSizePerElement L) ∧
      r.mCapacity = adjust_capacity L n := by
  unfold reserve at h
  rw [if_neg (by omega)] at h
  split at h
  · cases h
  · next mem hmem =>
    have hint := allocate_intact Traits _ mem hmem
    cases h
    refine ⟨?_, rfl⟩
    show (for_each_slice L _ (c.mMemory, mem)).2.bytes = _
    rw [reserve_slices_bytes, hint.1]

/-- The byte count of `reserve` when it does not wrap: whenever `reserve` reallocates to a new
capacity `C` for which `C` times the sum of all field sizes is below `2^32`, the byte count
it requests from the allocator equals that product, and the end of every slice, the last one
included, computed by `slice_start` as `C * (sum of the sizes up to and including the
field)`, does not exceed the allocated block. -/
theorem reserve_request {α : Type} (ops : ElementOps α)
    (Traits : default_parallel_vector_traits) (L : type_list) (n : Nat)
    (c r : parallel_vector_impl α) (hn : c.capacity < n)
    (h : reserve ops Traits L n c = .ok r)
    (hC : r.capacity * row_size L < size_type_mod) :
    r.mMemory.bytes = r.capacity * row_size L ∧
    (∀ Index, Index < L.size →
      ((slice_start L Index r.capacity).add r.capacity).addr ≤ (r.mMemory.bytes : Int)) ∧
    (r.capacity : Int) * (kSizeCoeff L L.size : Int) ≤ (r.mMemory.bytes : Int) := by
  have hrc : r.capacity = r.mCapacity := rfl
  rw [hrc] at hC ⊢
  obtain ⟨hb, hcap⟩ := reserve_bytes ops Traits L n c r hn h
  have hk : kSizeCoeff L L.size = row_size L := kSizeCoeff_eq L L.length (le_refl _)
  have hbytes : r.mMemory.bytes = r.mCapacity * row_size L := by
    rw [hb, ← hcap]
    by_cases h0 : r.mCapacity = 0
    · rw [h0]; simp [size_type_mul]
    · have hrow : row_size L < size_type_mod := by
        have : row_size L ≤ r.mCapacity * row_size L := Nat.le_mul_of_pos_left _ (by omega)
        omega
      have hks : kSizePerElement L = row_size L := by
        have : kSizePerElement L = kSizeCoeff L L.size % size_type_mod := rfl
        rw [this, hk, Nat.mod_eq_of_lt hrow]
      rw [hks]
      unfold size_type_mul
      rw [Nat.mod_eq_of_lt hC]
  refine ⟨hbytes, ?_, ?_⟩
  · intro Index hI
    have e1 := kSizeCoeff_eq L Index (Nat.le_of_lt hI)
    have e2 := size_before_next_le L Index L.length (le_refl _) hI
    have e3 : r.mCapacity * (size_before L Index + sizeof_element L Index) ≤
        r.mCapacity * row_size L := Nat.mul_le_mul_left _ e2
    rw [Nat.mul_add, ← e1] at e3
    simp only [Pointer.add, Pointer.addr, slice_start, zero_add]
    rw [hbytes]
    exact_mod_cast e3
  · rw [hk, hbytes]
    exact_mod_cast le_refl _

/-- An instance of `reserve_request`: `reserve(100)` on the container
`[(1,'a'), (2,'b'), (3,'c')]` with an `int` and a `char` field requests `100 * 5 = 500`
bytes. -/
theorem reserve_request_witness :
    demo_A.capacity < 100 ∧
    (Except.getD demo_A (reserve (trivial_ops Nat) unlimited demo_layout 100
      demo_A)).capacity * row_size demo_layout < size_type_mod ∧
    (Except.getD demo_A (reserve (trivial_ops Nat) unlimited demo_layout 100
      demo_A)).mMemory.bytes =
      (Except.getD demo_A (reserve (trivial_ops Nat) unlimited demo_layout 100
        demo_A)).capacity * row_size demo_layout ∧
    (Except.getD demo_A (reserve (trivial_ops Nat) unlimited demo_layout 100
      demo_A)).mMemory.bytes = 500 :=
  have h := reserve_request (trivial_ops Nat) unlimited demo_layout 100 demo_A _ (by decide)
    rfl (by decide)
  ⟨by decide, by decide, h.1, rfl⟩

/-- C20, the code at the failing input: `reserve(2^30)` on a fresh container of one `int`
field reallocates to the capacity `C = 2^30`, which is representable in `size_type`, but the
byte count `C * 4 = 2^32` is computed in `size_type` and wraps to `0`: the request is `0`
bytes (and `allocate` returns a null pointer), while the slice ends at offset `2^32`. -/
theorem reserve_request_failing :
    Option.map (fun r => (r.capacity, r.mMemory.bytes))
      (reserve (trivial_ops Nat) unlimited [int_t] 1073741824
        parallel_vector_impl.init).toOption = some (1073741824, 0) ∧
    1073741824 < size_type_mod ∧ row_size [int_t] = 4 ∧
    1073741824 * row_size [int_t] = 4294967296 ∧
    ((slice_start [int_t] 0 1073741824).add 1073741824).addr = 4294967296 :=
  ⟨rfl, by decide, rfl, rfl, rfl⟩

/-! ## Lookup of a field by its type -/

theorem find_type_index_absent {τ : Type} [DecidableEq τ] (T : τ) :
    ∀ (L : List τ), T ∉ L → find_type_index T L = .ok L.length := by
  intro L
  induction L with
  | nil => intro _; rfl
  | cons F R ih =>
    intro h
    have hF : ¬ F = T := fun e => h (by rw [e]; exact List.mem_cons_self _ _)
    have hR : T ∉ R := fun e => h (List.mem_cons_of_mem _ e)
    simp only [find_type_index, if_neg hF, ih hR, List.length_cons]
    rw [Nat.add_comm]

theorem find_type_index_once {τ : Type} [DecidableEq τ] (T : τ) :
    ∀ (L : List τ), L.count T = 1 → ∀ k, L.get? k = some T → find_type_index T L = .ok k := by
  intro L
  induction L with
  | nil => intro h; simp at h
  | cons F R ih =>
    intro h k hk
    by_cases hF : F = T
    · subst hF
      rw [List.count_cons_self] at h
      have hR : F ∉ R := by
        rw [← List.count_eq_zero]; omega
      cases k with
      | zero =>
        simp only [find_type_index, if_true, find_type_index_absent F R hR]
      | succ k =>
        rw [List.get?_cons_succ] at hk
        exact absurd (List.get?_mem hk) hR
    · rw [List.count_cons_of_ne (fun e => hF e.symm)] at h
      cases k with
      | zero =>
        rw [List.get?_cons_zero] at hk
        exact absurd (Option.some.inj hk) hF
      | succ k =>
        rw [List.get?_cons_succ] at hk
        simp only [find_type_index, if_neg hF, ih h k hk]
        rw [Nat.add_comm]

theorem position_of_mem {τ : Type} (T : τ) (L : List τ) (h : T ∈ L) :
    ∃ k, k < L.length ∧ L.get? k = some T := by
  obtain ⟨n, hn⟩ := List.get_of_mem h
  exact ⟨n.1, n.2, by rw [List.get?_eq_get n.2, ← hn]⟩

theorem find_type_index_twice {τ : Type} [DecidableEq τ] (T : τ) :
    ∀ (L : List τ), 1 < L.count T → find_type_index T L = .error .type_is_not_unique := by
  intro L
  induction L with
  | nil => intro h; simp at h
  | cons F R ih =>
    intro h
    by_cases hF : F = T
    · subst hF
      rw [List.count_cons_self] at h
      by_cases h1 : R.count F = 1
      · obtain ⟨k, hk, hget⟩ := position_of_mem F R (List.count_pos_iff.mp (by omega))
        simp only [find_type_index, if_true, find_type_index_once F R h1 k hget,
          if_neg (Nat.ne_of_lt hk)]
      · simp only [find_type_index, if_true, ih (by omega)]
    · rw [List.count_cons_of_ne (fun e => hF e.symm)] at h
      simp only [find_type_index, if_neg hF, ih h]

theorem type_list_element_some (L : type_list) (k : Nat) (hk : k < L.length) :
    ∃ T, type_list_element k L = some T := by
  rw [type_list_element_eq]
  exact ⟨L.get ⟨k, hk⟩, List.get?_eq_get hk⟩

theorem type_list_element_length (L : type_list) : type_list_element L.length L = none := by
  rw [type_list_element_eq]
  exact List.get?_eq_none.mpr (Nat.le_refl _)

/-- C21: for every list `L` of field types and every type `T`: if `T` occurs exactly once in
`L`, at position `k`, then `find_type_index<T, L>::value` is `k` and `slice<T>()` is
`slice<k>()`; if `T` occurs more than once the "Type is not unique" static assertion fails;
if `T` does not occur the computed value is the length of `L`, which `type_list_element`
rejects with "Index out of range". The lookup by type succeeds if and only if `T` occurs
exactly once. -/
theorem find_type_index_correct {τ α : Type} [DecidableEq τ] (layout : τ → FieldType)
    (L : List τ) (self : parallel_vector_impl α) (T : τ) :
    (L.count T = 1 → ∃ k, k < L.length ∧ L.get? k = some T) ∧
    (L.count T = 1 → ∀ k, L.get? k = some T →
      find_type_index T L = .ok k ∧
      slice_of_type layout L self T = .ok (slice (L.map layout) self k)) ∧
    (1 < L.count T →
      find_type_index T L = .error .type_is_not_unique ∧
      slice_of_type layout L self T = .error .type_is_not_unique) ∧
    (L.count T = 0 →
      find_type_index T L = .ok L.length ∧
      type_list_element L.length (L.map layout) = none ∧
      slice_of_type layout L self T = .error .index_out_of_range) ∧
    ((∃ v, slice_of_type layout L self T = .ok v) ↔ L.count T = 1) := by
  have hpos : L.count T = 1 → ∃ k, k < L.length ∧ L.get? k = some T := fun h =>
    position_of_mem T L (List.count_pos_iff.mp (by omega))
  have hone : L.count T = 1 → ∀ k, L.get? k = some T →
      find_type_index T L = .ok k ∧
      slice_of_type layout L self T = .ok (slice (L.map layout) self k) := by
    intro h k hk
    have hf := find_type_index_once T L h k hk
    have hlt : k < (L.map layout).length := by
      rw [List.length_map]
      by_contra hc
      rw [List.get?_eq_none.mpr (by omega)] at hk
      cases hk
    obtain ⟨F, hF⟩ := type_list_element_some (L.map layout) k hlt
    refine ⟨hf, ?_⟩
    simp only [slice_of_type, hf, hF]
  have htwo : 1 < L.count T →
      find_type_index T L = .error .type_is_not_unique ∧
      slice_of_type layout L self T = .error .type_is_not_unique := by
    intro h
    have hf := find_type_index_twice T L h
    refine ⟨hf, ?_⟩
    simp only [slice_of_type, hf]
  have hzero : L.count T = 0 →
      find_type_index T L = .ok L.length ∧
      type_list_element L.length (L.map layout) = none ∧
      slice_of_type layout L self T = .error .index_out_of_range := by
    intro h
    have hf := find_type_index_absent T L (List.count_eq_zero.mp h)
    have hn : type_list_element L.length (L.map layout) = none := by
      have := type_list_element_length (L.map layout)
      rwa [List.length_map] at this
    refine ⟨hf, hn, ?_⟩
    simp only [slice_of_type, hf, hn]
  refine ⟨hpos, hone, htwo, hzero, ?_, ?_⟩
  · rintro ⟨v, hv⟩
    by_contra hc
    rcases Nat.lt_or_ge (L.count T) 1 with h0 | h1
    · rw [(hzero (by omega)).2.2] at hv
      cases hv
    · rw [(htwo (by omega)).2] at hv
      cases hv
  · intro h
    obtain ⟨k, _, hk⟩ := hpos h
    exact ⟨_, (hone h k hk).2⟩

/-- C21, witness: the fields `int, float, char`, where `int` and `float` have the same size
and alignment: `slice<float>()` is `slice<1>()`; with the fields `int, char, int` the lookup
of `int` fails as not unique, and the lookup of `double` among `int, float, char` computes
the index 3 and fails as out of range. -/
theorem find_type_index_correct_witness :
    (find_type_index cpp_type.float_ [cpp_type.int_, cpp_type.float_, cpp_type.char_] =
        .ok 1 ∧
      slice_of_type cpp_type.layout [cpp_type.int_, cpp_type.float_, cpp_type.char_]
        (parallel_vector_impl.init : parallel_vector_impl Nat) cpp_type.float_ =
        .ok (slice ([cpp_type.int_, cpp_type.float_, cpp_type.char_].map cpp_type.layout)
          (parallel_vector_impl.init : parallel_vector_impl Nat) 1)) ∧
    find_type_index cpp_type.int_ [cpp_type.int_, cpp_type.char_, cpp_type.int_] =
      .error .type_is_not_unique ∧
    find_type_index cpp_type.double_ [cpp_type.int_, cpp_type.float_, cpp_type.char_] =
      .ok 3 :=
  ⟨(find_type_index_correct cpp_type.layout [cpp_type.int_, cpp_type.float_, cpp_type.char_]
      (parallel_vector_impl.init : parallel_vector_impl Nat) cpp_type.float_).2.1
      (by decide) 1 rfl,
    ((find_type_index_correct cpp_type.layout [cpp_type.int_, cpp_type.char_, cpp_type.int_]
      (parallel_vector_impl.init : parallel_vector_impl Nat) cpp_type.int_).2.2.1
      (by decide)).1,
    ((find_type_index_correct cpp_type.layout [cpp_type.int_, cpp_type.float_, cpp_type.char_]
      (parallel_vector_impl.init : parallel_vector_impl Nat) cpp_type.double_).2.2.2.1
      (by decide)).1⟩

/-! ## Empty ranges -/

/-- A loop that move-assigns the objects at distinct addresses to themselves. -/
theorem self_move_loop {α : Type} (ops : ElementOps α) (addr : Nat → Int) (m : Memory α) :
    ∀ t, (∀ j l, j < t → l < t → addr j = addr l → j = l) →
    (∀ j, j < t →
      for_loop t (fun j m =>
        Function.update m (addr j) ((m (addr j)).map ops.self_move_assigned)) m (addr j) =
        (m (addr j)).map ops.self_move_assigned) ∧
    (∀ a, (∀ j, j < t → a ≠ addr j) →
      for_loop t (fun j m =>
        Function.update m (addr j) ((m (addr j)).map ops.self_move_assigned)) m a = m a) := by
  intro t
  induction t with
  | zero => intro _; exact ⟨fun j h => by omega, fun a _ => rfl⟩
  | succ t ih =>
    intro hinj
    obtain ⟨ih1, ih2⟩ := ih (fun j l hj hl h => hinj j l (by omega) (by omega) h)
    have hread := ih2 (addr t) (fun j hj h => by
      have := hinj t j (by omega) (by omega) h; omega)
    constructor
    · intro j hj
      rw [for_loop_succ]
      simp only [Function.update_apply]
      by_cases hjt : j = t
      · subst hjt
        rw [if_pos rfl, hread]
      · rw [if_neg (fun h => hjt (hinj j t (by omega) (by omega) h))]
        exact ih1 j (by omega)
    · intro a ha
      rw [for_loop_succ]
      simp only [Function.update_apply]
      rw [if_neg (ha t (by omega))]
      exact ih2 a (fun j hj => ha j (by omega))

/-- The functor of `erase` for an empty range: every element from `begin` on is move-assigned
to itself. -/
theorem erase_slice_empty {α : Type} (ops : ElementOps α) (L : type_list) (size cap i : Nat)
    (hi : i < L.length) (begin : Nat) (m : Memory α) :
    (∀ k, begin ≤ k → k < size →
      bare.erase_slice ops L size cap begin 0 i m (cell_addr L cap i k) =
        (m (cell_addr L cap i k)).map ops.self_move_assigned) ∧
    (∀ a, (∀ k, begin ≤ k → k < size → a ≠ cell_addr L cap i k) →
      bare.erase_slice ops L size cap begin 0 i m a = m a) := by
  have hc1 : ((((slice_start L i cap).add size).sub ((0 : Nat) : Int)).index
      - ((slice_start L i cap).add begin).index).toNat = size - begin := by
    simp only [Pointer.add, Pointer.sub, slice_start]; omega
  have hc2 : (((slice_start L i cap).add size).index
      - (((slice_start L i cap).add size).sub ((0 : Nat) : Int)).index).toNat = 0 := by
    simp only [Pointer.add, Pointer.sub, slice_start]; omega
  have hform : bare.erase_slice ops L size cap begin 0 i m =
      for_loop (size - begin) (fun j m =>
        Function.update m (cell_addr L cap i (begin + j))
          ((m (cell_addr L cap i (begin + j))).map ops.self_move_assigned)) m := by
    simp only [bare.erase_slice, ptr_loop, hc1, hc2, for_loop_zero]
    apply for_loop_congr
    intro t _ s
    have hd : (((slice_start L i cap).add begin).add t).addr = cell_addr L cap i (begin + t) :=
      addr_eq_cell_addr L cap i _ _ rfl rfl (by simp [Pointer.add, slice_start])
    have hs : ((((slice_start L i cap).add begin).add t).add ((0 : Nat) : Int)).addr =
        cell_addr L cap i (begin + t) :=
      addr_eq_cell_addr L cap i _ _ rfl rfl (by simp [Pointer.add, slice_start])
    simp only [bare.move_assign, hd, hs, if_true]
  obtain ⟨a1, a2⟩ := self_move_loop ops (fun j => cell_addr L cap i (begin + j)) m
    (size - begin) (fun j l _ _ h => by have := cell_addr_inj L cap i hi _ _ h; omega)
  rw [hform]
  constructor
  · intro k hk1 hk2
    have := a1 (k - begin) (by omega)
    simp only [show begin + (k - begin) = k by omega] at this
    exact this
  · intro a ha
    exact a2 a (fun j hj => ha (begin + j) (by omega) (by omega))

/-- The cells of slice `i` after the `for_each_slice` call of `erase` for an empty range. -/
theorem erase_cells_empty {α : Type} (ops : ElementOps α) (L : type_list) (size cap : Nat)
    (hsc : size ≤ cap) (begin : Nat) (m : Memory α) (i : Nat) (hi : i < L.length) :
    (∀ k, k < begin → k < size →
      for_each_slice L (bare.erase_slice ops L size cap begin 0) m (cell_addr L cap i k) =
        m (cell_addr L cap i k)) ∧
    (∀ k, begin ≤ k → k < size →
      for_each_slice L (bare.erase_slice ops L size cap begin 0) m (cell_addr L cap i k) =
        (m (cell_addr L cap i k)).map ops.self_move_assigned) := by
  have key := for_each_slice_local L (agree_on (α := α) L cap i) (agree_on_refl L cap i)
    (agree_on_trans L cap i) (bare.erase_slice ops L size cap begin 0) i hi ?_ ?_ m
  · obtain ⟨s1, s2⟩ := erase_slice_empty ops L size cap i hi begin m
    constructor
    · intro k hk hk2
      rw [key k (by omega)]
      exact s2 _ (fun k' h1 h2 h => by have := cell_addr_inj L cap i hi _ _ h; omega)
    · intro k hk1 hk2
      rw [key k (by omega)]
      exact s1 k hk1 hk2
  · intro j s hj hne k hk
    exact (erase_slice_empty ops L size cap j hj begin s).2 _
      (fun k' h1 h2 => cell_addr_ne L cap i j hi hj (Ne.symm hne) k k' hk (by omega))
  · intro s t hst k hk
    obtain ⟨s1, s2⟩ := erase_slice_empty ops L size cap i hi begin s
    obtain ⟨t1, t2⟩ := erase_slice_empty ops L size cap i hi begin t
    by_cases h1 : begin ≤ k ∧ k < size
    · rw [s1 k h1.1 h1.2, t1 k h1.1 h1.2, hst _ hk]
    · have hne : ∀ k', begin ≤ k' → k' < size → cell_addr L cap i k ≠ cell_addr L cap i k' :=
        fun k' h2 h3 h => by have := cell_addr_inj L cap i hi _ _ h; omega
      rw [s2 _ hne, t2 _ hne]
      exact hst k hk

/-- A slice whose elements from position `p` on were move-assigned to themselves. -/
theorem self_moved_slice_elements {α : Type} (f : α → α) (L : type_list)
    (A A' : parallel_vector_impl α) (i p : Nat) (hs : A.mSize < size_t_mod)
    (hsize : A'.mSize = A.mSize)
    (h1 : ∀ k, k < p → k < A.mSize → cell L A' i k = cell L A i k)
    (h2 : ∀ k, p ≤ k → k < A.mSize → cell L A' i k = (cell L A i k).map f) :
    slice_elements L A' i =
      (slice_elements L A i).take p ++ ((slice_elements L A i).drop p).map (Option.map f) := by
  have hlen := length_slice_elements L A i hs
  apply slice_elements_ext L A' i (by rw [hsize]; exact hs)
  · rw [List.length_append, List.length_take, List.length_map, List.length_drop, hlen, hsize]
    omega
  · intro k hk
    rw [List.length_append, List.length_take, List.length_map, List.length_drop, hlen] at hk
    by_cases hkp : k < p
    · rw [List.getElem_append_left (by rw [List.length_take, hlen]; omega), List.getElem_take,
        getElem_slice_elements L A i hs, h1 k hkp (by omega)]
    · rw [List.getElem_append_right (by rw [List.length_take, hlen]; omega), List.getElem_map,
        List.getElem_drop, getElem_slice_elements L A i hs, h2 k (by omega) (by omega)]
      congr 2
      rw [List.length_take, hlen]
      omega

/-- The member `erase` on an empty range `[begin, begin)`, for every container in a
consistent state: size and capacity stay, no access leaves the block, and in every slice the
elements from `begin` on have been move-assigned to themselves. -/
theorem erase_empty_range {α : Type} (ops : ElementOps α) (L : type_list) (begin : Nat)
    (c : parallel_vector_impl α) (hv : c.valid) (hs : c.sound L) (hb : begin ≤ c.mSize) :
    (erase ops L begin begin c).mSize = c.mSize ∧
    (erase ops L begin begin c).mCapacity = c.mCapacity ∧
    (erase ops L begin begin c).sound L ∧
    ∀ i, i < L.length →
      slice_elements L (erase ops L begin begin c) i =
        (slice_elements L c i).take begin ++
          ((slice_elements L c i).drop begin).map (Option.map ops.self_move_assigned) := by
  have hv' := hv
  obtain ⟨hv1, hv2⟩ := hv
  have e1 : size_type_sub begin begin = 0 := by
    rw [size_type_sub_eq _ _ (le_refl _) (by omega), Nat.sub_self]
  have e2 : size_type_sub c.mSize 0 = c.mSize := by
    rw [size_type_sub_eq _ _ (Nat.zero_le _) (by omega), Nat.sub_zero]
  have hsize : (erase ops L begin begin c).mSize = c.mSize := by
    simp only [erase, e1, e2]
  refine ⟨hsize, rfl, erase_sound ops L begin begin c hv' hs (le_refl _) hb, ?_⟩
  intro i hi
  obtain ⟨s1, s2⟩ := erase_cells_empty ops L c.mSize c.mCapacity hv1 begin c.mMemory.cells i hi
  apply self_moved_slice_elements ops.self_move_assigned L c _ i begin (valid_size_lt c hv')
    hsize
  · intro k hk1 hk2
    simp only [cell, erase_memory_cells, e1]
    exact s1 k hk1 hk2
  · intro k hk1 hk2
    simp only [cell, erase_memory_cells, e1]
    exact s2 k hk1 hk2

/-- The functor of `insert_impl` for an empty range: every displaced element is
move-assigned to itself, and the source is not touched. -/
theorem insert_slice_empty {α : Type} (ops : ElementOps α) (L : type_list)
    (transform : bare.TransformFunctor α) (self other : parallel_vector_impl α) (i : Nat)
    (hi : i < L.length) (size ip e : Nat) (hip : ip ≤ size) (st : Memory α × Memory α) :
    (bare.insert_slice ops L transform self other e 0 size 0 (size - ip) 0 0 i st).2 = st.2 ∧
    (∀ k, ip ≤ k → k < size →
      (bare.insert_slice ops L transform self other e 0 size 0 (size - ip) 0 0 i st).1
        (cell_addr L self.mCapacity i k) =
        (st.1 (cell_addr L self.mCapacity i k)).map ops.self_move_assigned) ∧
    (∀ a, (∀ k, ip ≤ k → k < size → a ≠ cell_addr L self.mCapacity i k) →
      (bare.insert_slice ops L transform self other e 0 size 0 (size - ip) 0 0 i st).1 a =
        st.1 a) := by
  have hform : bare.insert_slice ops L transform self other e 0 size 0 (size - ip) 0 0 i st =
      (for_loop (size - ip) (fun j m =>
        Function.update m (cell_addr L self.mCapacity i (size - 1 - j))
          ((m (cell_addr L self.mCapacity i (size - 1 - j))).map ops.self_move_assigned))
        st.1, st.2) := by
    simp only [bare.insert_slice, for_loop_zero]
    rw [for_loop_ptr (fun m p => bare.move_assign ops m p (p.sub ((0 : Nat) : Int)))]
    simp only [Prod.mk.injEq, and_true]
    apply for_loop_congr
    intro t ht s
    have hd : ((((slice_start L i self.mCapacity).add size).sub 1).sub t).addr =
        cell_addr L self.mCapacity i (size - 1 - t) :=
      addr_eq_cell_addr L self.mCapacity i _ _ rfl rfl (by
        simp only [Pointer.add, Pointer.sub, slice_start]; omega)
    have hs : (((((slice_start L i self.mCapacity).add size).sub 1).sub t).sub
        ((0 : Nat) : Int)).addr = cell_addr L self.mCapacity i (size - 1 - t) :=
      addr_eq_cell_addr L self.mCapacity i _ _ rfl rfl (by
        simp only [Pointer.add, Pointer.sub, slice_start]; omega)
    simp only [bare.move_assign, hd, hs, if_true]
  obtain ⟨a1, a2⟩ := self_move_loop ops (fun j => cell_addr L self.mCapacity i (size - 1 - j))
    st.1 (size - ip) (fun j l _ _ h => by
      have := cell_addr_inj L self.mCapacity i hi _ _ h; omega)
  rw [hform]
  refine ⟨rfl, ?_, ?_⟩
  · intro k hk1 hk2
    have := a1 (size - 1 - k) (by omega)
    simp only [show size - 1 - (size - 1 - k) = k by omega] at this
    exact this
  · intro a ha
    exact a2 a (fun j hj => ha (size - 1 - j) (by omega) (by omega))

/-- The cells of slice `i` after the `for_each_slice` call of `insert_impl` for an empty
range. -/
theorem insert_cells_empty {α : Type} (ops : ElementOps α) (L : type_list)
    (transform : bare.TransformFunctor α) (self other : parallel_vector_impl α)
    (size ip e : Nat) (hip : ip ≤ size) (hcap : size ≤ self.mCapacity)
    (st : Memory α × Memory α) (i : Nat) (hi : i < L.length) :
    (∀ k, k < ip → k < size →
      (for_each_slice L
        (bare.insert_slice ops L transform self other e 0 size 0 (size - ip) 0 0) st).1
        (cell_addr L self.mCapacity i k) = st.1 (cell_addr L self.mCapacity i k)) ∧
    (∀ k, ip ≤ k → k < size →
      (for_each_slice L
        (bare.insert_slice ops L transform self other e 0 size 0 (size - ip) 0 0) st).1
        (cell_addr L self.mCapacity i k) =
        (st.1 (cell_addr L self.mCapacity i k)).map ops.self_move_assigned) := by
  have key := for_each_slice_local L
    (fun s t : Memory α × Memory α => agree_on L self.mCapacity i s.1 t.1)
    (fun s => agree_on_refl _ _ _ _)
    (fun a b c h h' => agree_on_trans _ _ _ _ _ _ h h')
    (bare.insert_slice ops L transform self other e 0 size 0 (size - ip) 0 0) i hi ?_ ?_ st
  · obtain ⟨_, s1, s2⟩ := insert_slice_empty ops L transform self other i hi size ip e hip st
    constructor
    · intro k hk hk2
      rw [key k (by omega)]
      exact s2 _ (fun k' h1 h2 h => by
        have := cell_addr_inj L self.mCapacity i hi _ _ h; omega)
    · intro k hk1 hk2
      rw [key k (by omega)]
      exact s1 k hk1 hk2
  · intro j s hj hne k hk
    exact (insert_slice_empty ops L transform self other j hj size ip e hip s).2.2 _
      (fun k' _ h2 => cell_addr_ne L self.mCapacity i j hi hj (Ne.symm hne) k k' hk (by omega))
  · intro s t hst k hk
    obtain ⟨_, s1, s2⟩ := insert_slice_empty ops L transform self other i hi size ip e hip s
    obtain ⟨_, t1, t2⟩ := insert_slice_empty ops L transform self other i hi size ip e hip t
    by_cases h1 : ip ≤ k ∧ k < size
    · rw [s1 k h1.1 h1.2, t1 k h1.1 h1.2, hst _ hk]
    · have hne : ∀ k', ip ≤ k' → k' < size →
          cell_addr L self.mCapacity i k ≠ cell_addr L self.mCapacity i k' :=
        fun k' h2 h3 h => by have := cell_addr_inj L self.mCapacity i hi _ _ h; omega
      rw [s2 _ hne, t2 _ hne]
      exact hst k hk

/-- The member `insert_copy` on an empty source range `[begin, begin)`, for containers in a
consistent state: the call returns without a reallocation, size and capacity stay, the source
is unchanged, no access leaves a block, and in every slice the elements from `insertionPoint`
on have been move-assigned to themselves. -/
theorem insert_copy_empty_range {α : Type} (ops : ElementOps α)
    (Traits : default_parallel_vector_traits) (L : type_list)
    (hL : adjust_capacity_static_asserts L) (A B : parallel_vector_impl α)
    (insertionPoint begin : Nat) (hA : A.valid) (hAs : A.sound L) (hB : B.valid)
    (hBs : B.sound L) (hip : insertionPoint ≤ A.mSize) (hb : begin ≤ B.mSize) :
    ∃ A', insert_copy ops Traits L insertionPoint B begin begin A = .ok (A', B) ∧
      A'.mSize = A.mSize ∧ A'.mCapacity = A.mCapacity ∧ A'.sound L ∧
      ∀ i, i < L.length →
        slice_elements L A' i =
          (slice_elements L A i).take insertionPoint ++
            ((slice_elements L A i).drop insertionPoint).map
              (Option.map ops.self_move_assigned) := by
  have hA1 := hA.1
  have hA2 := hA.2
  have hB1 := hB.1
  have hB2 := hB.2
  have e1 : size_type_sub A.mSize insertionPoint = A.mSize - insertionPoint :=
    size_type_sub_eq _ _ hip (by omega)
  have e2 : size_type_sub begin begin = 0 := by
    rw [size_type_sub_eq _ _ (le_refl _) (by omega), Nat.sub_self]
  have e3 : size_type_add A.mSize 0 = A.mSize := size_type_add_eq _ _ (by omega)
  have e4 : min (A.mSize - insertionPoint) 0 = 0 := Nat.min_zero _
  have e5 : size_type_sub (A.mSize - insertionPoint) 0 = A.mSize - insertionPoint := by
    rw [size_type_sub_eq _ _ (Nat.zero_le _) (by omega), Nat.sub_zero]
  have e6 : size_type_sub 0 0 = 0 := rfl
  have hg : ¬ A.mSize > A.mCapacity := by omega
  have hex : ∃ r, insert_copy ops Traits L insertionPoint B begin begin A = .ok r := by
    unfold insert_copy insert_impl
    simp only [e1, e2, e3, e4, e5, e6, if_neg hg]
    exact ⟨_, rfl⟩
  obtain ⟨⟨A', B'⟩, h⟩ := hex
  obtain ⟨k1, k2, k3⟩ := insert_copy_cells ops Traits L insertionPoint A B A' B' begin begin h
  have h' := h
  unfold insert_copy at h'
  rw [pass_lvalue_eq] at h'
  obtain ⟨_, _, h3, _, _, _, h7, h8, _⟩ :=
    insert_impl_ok ops Traits L hL id A B A' B' insertionPoint begin begin hA hAs hB hBs hip
      (le_refl _) hb (Or.inl (by
        rw [Nat.sub_self, Nat.add_zero]; exact hA1)) h'
  have hB' : B' = B := container_eq B' B k1 h8 (by rw [h7.2, hBs.2]) k2 k3
  unfold insert_impl at h'
  simp only [e1, e2, e3, e4, e5, e6, if_neg hg, Except.ok.injEq, Prod.mk.injEq] at h'
  obtain ⟨hA', _⟩ := h'
  have hbr := for_each_slice_map L cells2 _ _
    (fun i s => insert_slice_cells ops L id A B begin 0 A.mSize 0 (A.mSize - insertionPoint)
      0 0 i s) (A.mMemory, B.mMemory)
  have hsize : A'.mSize = A.mSize := by rw [← hA']
  have hcap : A'.mCapacity = A.mCapacity := by rw [← hA']
  have hcells : A'.mMemory.cells = (for_each_slice L
      (bare.insert_slice ops L (bare.residue_transform id) A B begin 0 A.mSize 0
        (A.mSize - insertionPoint) 0 0) (A.mMemory.cells, B.mMemory.cells)).1 := by
    rw [← hA']
    exact congrArg Prod.fst hbr
  refine ⟨A', by rw [h, hB'], hsize, hcap, h3, ?_⟩
  intro i hi
  obtain ⟨s1, s2⟩ := insert_cells_empty ops L (bare.residue_transform id) A B A.mSize
    insertionPoint begin hip hA1 (A.mMemory.cells, B.mMemory.cells) i hi
  apply self_moved_slice_elements ops.self_move_assigned L A A' i insertionPoint
    (valid_size_lt A hA) hsize
  · intro k hk1 hk2
    simp only [cell, hcells, hcap]
    exact s1 k hk1 hk2
  · intro k hk1 hk2
    simp only [cell, hcells, hcap]
    exact s2 k hk1 hk2

/-- For an element type whose move assignment to itself changes nothing (the scalar types),
`erase` and `insert_copy` on an empty range leave size, capacity and every slice as they
were. -/
theorem empty_range_identity {α : Type} (ops : ElementOps α)
    (hid : ∀ x, ops.self_move_assigned x = x)
    (Traits : default_parallel_vector_traits) (L : type_list)
    (hL : adjust_capacity_static_asserts L) (A B : parallel_vector_impl α)
    (insertionPoint begin b : Nat) (hA : A.valid) (hAs : A.sound L) (hB : B.valid)
    (hBs : B.sound L) (hip : insertionPoint ≤ A.mSize) (hb : begin ≤ B.mSize)
    (hbA : b ≤ A.mSize) :
    ((erase ops L b b A).mSize = A.mSize ∧ (erase ops L b b A).mCapacity = A.mCapacity ∧
      ∀ i, i < L.length → slice_elements L (erase ops L b b A) i = slice_elements L A i) ∧
    ∃ A', insert_copy ops Traits L insertionPoint B begin begin A = .ok (A', B) ∧
      A'.mSize = A.mSize ∧ A'.mCapacity = A.mCapacity ∧
      ∀ i, i < L.length → slice_elements L A' i = slice_elements L A i := by
  have hmap : ∀ l : List (Option α), l.map (Option.map ops.self_move_assigned) = l := by
    intro l
    have : Option.map ops.self_move_assigned = id := by
      funext o
      cases o with
      | none => rfl
      | some x => simp [hid x]
    rw [this, List.map_id]
  obtain ⟨e1, e2, _, e4⟩ := erase_empty_range ops L b A hA hAs hbA
  obtain ⟨A', i1, i2, i3, _, i5⟩ :=
    insert_copy_empty_range ops Traits L hL A B insertionPoint begin hA hAs hB hBs hip hb
  refine ⟨⟨e1, e2, fun i hi => ?_⟩, A', i1, i2, i3, fun i hi => ?_⟩
  · rw [e4 i hi, hmap, List.take_append_drop]
  · rw [i5 i hi, hmap, List.take_append_drop]

/-- C22, the code at the failing input: a container of one `std::string` field holding
`["a", "b", "c"]` (capacity 20) and a source holding `["x", "y"]`. `erase(0, 0)` leaves
`size()` at 3 and `capacity()` at 20 but move-assigns all three elements to themselves, which
empties them; `insert_copy(1, source, 2, 2)` leaves `size()` at 3 and `capacity()` at 20 but
move-assigns the displaced elements 1 and 2 to themselves: the contents of the slice are not
unchanged. -/
theorem empty_range_failing :
    (demo_strings.valid ∧ demo_strings.sound [string_t] ∧ demo_words.valid ∧
      demo_words.sound [string_t]) ∧
    (0 ≤ demo_strings.size ∧ 1 ≤ demo_strings.size ∧ 2 ≤ demo_words.size) ∧
    (demo_strings.size = 3 ∧ demo_strings.capacity = 20 ∧
      slice_elements [string_t] demo_strings 0 = [some "a", some "b", some "c"]) ∧
    ((erase string_ops [string_t] 0 0 demo_strings).size = 3 ∧
      (erase string_ops [string_t] 0 0 demo_strings).capacity = 20 ∧
      slice_elements [string_t] (erase string_ops [string_t] 0 0 demo_strings) 0 =
        [some "", some "", some ""]) ∧
    Option.map (fun r => (r.1.size, r.1.capacity, slice_elements [string_t] r.1 0,
        slice_elements [string_t] r.2 0))
      (insert_copy string_ops unlimited [string_t] 1 demo_words 2 2 demo_strings).toOption =
      some (3, 20, [some "a", some "", some ""], [some "x", some "y"]) :=
  ⟨⟨by decide, by decide, by decide, by decide⟩, ⟨by decide, by decide, by decide⟩,
    ⟨rfl, rfl, rfl⟩, ⟨rfl, rfl, rfl⟩, rfl⟩

end utl
